import Mathlib

/-!
Verification development for the branch-and-bound API of `bb.py` together
with its 0/1 knapsack collaborator `knapsack.py`.

The Python code is shallowly embedded as follows.

* Python numbers (ints and numpy floats) are modelled as `ℚ`.
* A problem instance is a value of an abstract type `α`; the methods of the
  `Instance` contract are packaged in a record `BBOps α σ` of state-passing
  functions (`σ` is the type returned by `getHeuristicSolution`).  A method
  that mutates `self` is a function `α → α`; a getter is a pure function.
* Python `None` for a not-yet-computed bound is `Option.none`; comparing a
  number against `None` with `<` / `>` raises `TypeError` in Python, which is
  modelled by the error monad `Except Err`.
* `sys.exit(msg)` (process termination) is modelled as `Err.sysExit msg`,
  a `NameError` as `Err.nameError msg`.  Loops of the engine are modelled
  with explicit fuel; running out of fuel is the distinct `Err.outOfFuel`
  and never identified with a result of the program.
* Python object identity matters in `Instance.solve`: `best_I` aliases the
  popped candidate `I` after `best_I = I` (and aliases the root on the very
  first iteration), so a later mutation of `I` is visible through `best_I`.
  Every object is therefore paired with a numeric identity (`ℕ × α`); ids
  are handed out freshly whenever an object is pushed on the frontier, and
  the solve loop threads mutations of the candidate into the incumbent
  exactly when their ids coincide, mirroring the Python heap.
* `queue.PriorityQueue` is CPython's `heapq` on a growable list; `heappush`,
  `heappop`, `_siftdown` and `_siftup` are transcribed below, with element
  comparisons going through `Instance.__lt__`.
-/

/-- Observable failure modes of the embedded Python program. -/
inductive Err where
  | sysExit : String → Err
  | typeError : Err
  | nameError : String → Err
  | emptyPop : Err
  | outOfFuel : Err
deriving DecidableEq

/-- The `Instance` contract of `bb.py` as a record of state-passing
operations over an instance type `α`; `σ` is the result type of
`getHeuristicSolution`. -/
structure BBOps (α : Type) (σ : Type) where
  isMax : α → Bool
  calcUpperBound : α → α
  calcLowerBound : α → α
  getUpperBound : α → Option ℚ
  getLowerBound : α → Option ℚ
  isUpperBoundSet : α → Bool
  isLowerBoundSet : α → Bool
  genInitialSolution : α → α
  getHeuristicSolution : α → σ
  branch : α → Except Err (List α)

/-- Python `x > y` on two possibly-`None` numbers: a `TypeError` unless both
are numbers. -/
def cmpGT (x y : Option ℚ) : Except Err Bool :=
  match x, y with
  | some a, some b => Except.ok (decide (a > b))
  | _, _ => Except.error Err.typeError

/-- Python `x < y` on two possibly-`None` numbers. -/
def cmpLT (x y : Option ℚ) : Except Err Bool :=
  match x, y with
  | some a, some b => Except.ok (decide (a < b))
  | _, _ => Except.error Err.typeError

/-- `Instance.getHeuristicSolutionValue`: the lower bound for a maximization
problem, the upper bound otherwise (no set-check, so possibly `None`). -/
def getHeuristicSolutionValue (ops : BBOps α σ) (a : α) : Option ℚ :=
  if ops.isMax a then ops.getLowerBound a else ops.getUpperBound a

/-- `Instance.isPromising(self, current)` when `current` is a different
object than `self`: compute the direction bound of `self` if unset, then
compare it against the incumbent's heuristic-side bound.  Returns the
boolean together with the (possibly mutated) `self`. -/
def isPromising (ops : BBOps α σ) (self current : α) : Except Err (Bool × α) :=
  if ops.isMax self then
    match cmpGT (ops.getUpperBound
        (if ops.isUpperBoundSet self then self else ops.calcUpperBound self))
        (ops.getLowerBound current) with
    | Except.error e => Except.error e
    | Except.ok b =>
      Except.ok (b, if ops.isUpperBoundSet self then self else ops.calcUpperBound self)
  else
    match cmpLT (ops.getLowerBound
        (if ops.isLowerBoundSet self then self else ops.calcLowerBound self))
        (ops.getUpperBound current) with
    | Except.error e => Except.error e
    | Except.ok b =>
      Except.ok (b, if ops.isLowerBoundSet self then self else ops.calcLowerBound self)

/-- `Instance.isPromising(self, current)` when `current` *is* `self` (the
incumbent aliases the candidate): the incumbent read sees the mutation. -/
def isPromisingSelf (ops : BBOps α σ) (self : α) : Except Err (Bool × α) :=
  if ops.isMax self then
    match cmpGT (ops.getUpperBound
        (if ops.isUpperBoundSet self then self else ops.calcUpperBound self))
        (ops.getLowerBound
        (if ops.isUpperBoundSet self then self else ops.calcUpperBound self)) with
    | Except.error e => Except.error e
    | Except.ok b =>
      Except.ok (b, if ops.isUpperBoundSet self then self else ops.calcUpperBound self)
  else
    match cmpLT (ops.getLowerBound
        (if ops.isLowerBoundSet self then self else ops.calcLowerBound self))
        (ops.getUpperBound
        (if ops.isLowerBoundSet self then self else ops.calcLowerBound self)) with
    | Except.error e => Except.error e
    | Except.ok b =>
      Except.ok (b, if ops.isLowerBoundSet self then self else ops.calcLowerBound self)

/-- `Instance.isBetterThen(self, current)`, `current` a distinct object. -/
def isBetterThen (ops : BBOps α σ) (self current : α) : Except Err (Bool × α) :=
  if ops.isMax self then
    match cmpGT (ops.getLowerBound
        (if ops.isLowerBoundSet self then self else ops.calcLowerBound self))
        (ops.getLowerBound current) with
    | Except.error e => Except.error e
    | Except.ok b =>
      Except.ok (b, if ops.isLowerBoundSet self then self else ops.calcLowerBound self)
  else
    match cmpLT (ops.getUpperBound
        (if ops.isUpperBoundSet self then self else ops.calcUpperBound self))
        (ops.getUpperBound current) with
    | Except.error e => Except.error e
    | Except.ok b =>
      Except.ok (b, if ops.isUpperBoundSet self then self else ops.calcUpperBound self)

/-- `Instance.isBetterThen(self, current)` when `current` aliases `self`. -/
def isBetterThenSelf (ops : BBOps α σ) (self : α) : Except Err (Bool × α) :=
  if ops.isMax self then
    match cmpGT (ops.getLowerBound
        (if ops.isLowerBoundSet self then self else ops.calcLowerBound self))
        (ops.getLowerBound
        (if ops.isLowerBoundSet self then self else ops.calcLowerBound self)) with
    | Except.error e => Except.error e
    | Except.ok b =>
      Except.ok (b, if ops.isLowerBoundSet self then self else ops.calcLowerBound self)
  else
    match cmpLT (ops.getUpperBound
        (if ops.isUpperBoundSet self then self else ops.calcUpperBound self))
        (ops.getUpperBound
        (if ops.isUpperBoundSet self then self else ops.calcUpperBound self)) with
    | Except.error e => Except.error e
    | Except.ok b =>
      Except.ok (b, if ops.isUpperBoundSet self then self else ops.calcUpperBound self)

/-- `Instance.__lt__`, the comparison used by the best-first priority
queue: on maximization instances, larger upper bound first. -/
def instLt (ops : BBOps α σ) (a b : α) : Except Err Bool :=
  if ops.isMax a then cmpGT (ops.getUpperBound a) (ops.getUpperBound b)
  else cmpLT (ops.getLowerBound a) (ops.getLowerBound b)

/-- CPython `heapq._siftdown(heap, startpos, pos)` with `newitem` already
read out of slot `pos`: walk up, moving parents down, until the parent is
not larger, then place `newitem`.  The walk shortens `pos` every round, so
it is given `pos` as structural fuel; `Err.outOfFuel` is unreachable from
the callers below, which pass the initial `pos` itself. -/
def siftdownLoop (ops : BBOps α σ) (newitem : ℕ × α) (startpos : ℕ) :
    ℕ → List (ℕ × α) → ℕ → Except Err (List (ℕ × α))
  | fuel, heap, pos =>
    if startpos < pos then
      match fuel with
      | 0 => Except.error Err.outOfFuel
      | Nat.succ f =>
        match instLt ops newitem.2 (heap.getD ((pos - 1) / 2) newitem).2 with
        | Except.error e => Except.error e
        | Except.ok true =>
          siftdownLoop ops newitem startpos f
            (heap.set pos (heap.getD ((pos - 1) / 2) newitem)) ((pos - 1) / 2)
        | Except.ok false => Except.ok (heap.set pos newitem)
    else Except.ok (heap.set pos newitem)

/-- The loop of CPython `heapq._siftup(heap, pos)` with `newitem` already
read out of slot `pos`: move the smaller child up until reaching a leaf;
returns the heap with the hole walked down plus the final position.  The
caller then places `newitem` via `siftdownLoop`.  The position grows every
round and stays below the (constant) length, so the length serves as
structural fuel, unreachable from the callers below. -/
def siftupLoop (ops : BBOps α σ) (newitem : ℕ × α) :
    ℕ → List (ℕ × α) → ℕ → Except Err (List (ℕ × α) × ℕ)
  | fuel, heap, pos =>
    if 2 * pos + 1 < heap.length then
      match fuel with
      | 0 => Except.error Err.outOfFuel
      | Nat.succ f =>
        if 2 * pos + 1 + 1 < heap.length then
          match instLt ops (heap.getD (2 * pos + 1) newitem).2
                           (heap.getD (2 * pos + 1 + 1) newitem).2 with
          | Except.error e => Except.error e
          | Except.ok b =>
            siftupLoop ops newitem f
              (heap.set pos (heap.getD (if b then 2 * pos + 1 else 2 * pos + 1 + 1) newitem))
              (if b then 2 * pos + 1 else 2 * pos + 1 + 1)
        else siftupLoop ops newitem f
          (heap.set pos (heap.getD (2 * pos + 1) newitem)) (2 * pos + 1)
    else Except.ok (heap.set pos newitem, pos)

/-- CPython `heapq.heappush`. -/
def heappush (ops : BBOps α σ) (heap : List (ℕ × α)) (item : ℕ × α) :
    Except Err (List (ℕ × α)) :=
  siftdownLoop ops item 0 heap.length (heap ++ [item]) heap.length

/-- CPython `heapq.heappop`; popping an empty `PriorityQueue` would block
forever, modelled as the (engine-unreachable) `Err.emptyPop`. -/
def heappop (ops : BBOps α σ) (heap : List (ℕ × α)) :
    Except Err ((ℕ × α) × List (ℕ × α)) :=
  match heap.getLast? with
  | none => Except.error Err.emptyPop
  | some lastelt =>
    match heap.dropLast with
    | [] => Except.ok (lastelt, [])
    | r0 :: _ =>
      match siftupLoop ops lastelt ((heap.dropLast).set 0 lastelt).length
          ((heap.dropLast).set 0 lastelt) 0 with
      | Except.error e => Except.error e
      | Except.ok (h2, pos) =>
        match siftdownLoop ops lastelt 0 pos h2 pos with
        | Except.error e => Except.error e
        | Except.ok h3 => Except.ok (r0, h3)

/-- The three containers of `InstanceSet`: a `heapq` list for
`best_first`, a LIFO stack for `depth_first`, a FIFO queue for
`breath_first`.  Elements carry their object identity. -/
inductive InstanceSet (α : Type) where
  | best_first : List (ℕ × α) → InstanceSet α
  | depth_first : List (ℕ × α) → InstanceSet α
  | breath_first : List (ℕ × α) → InstanceSet α

/-- `InstanceSet.isEmpty`. -/
def InstanceSet.isEmpty : InstanceSet α → Bool
  | .best_first l => l.isEmpty
  | .depth_first l => l.isEmpty
  | .breath_first l => l.isEmpty

/-- `InstanceSet.getNextInstance`. -/
def InstanceSet.getNextInstance (ops : BBOps α σ) :
    InstanceSet α → Except Err ((ℕ × α) × InstanceSet α)
  | .best_first l =>
    match heappop ops l with
    | Except.error e => Except.error e
    | Except.ok (x, l') => Except.ok (x, .best_first l')
  | .depth_first l =>
    match l with
    | [] => Except.error Err.emptyPop
    | x :: rest => Except.ok (x, .depth_first rest)
  | .breath_first l =>
    match l with
    | [] => Except.error Err.emptyPop
    | x :: rest => Except.ok (x, .breath_first rest)

/-- `InstanceSet.addInstance`. -/
def InstanceSet.addInstance (ops : BBOps α σ) :
    InstanceSet α → (ℕ × α) → Except Err (InstanceSet α)
  | .best_first l, x =>
    match heappush ops l x with
    | Except.error e => Except.error e
    | Except.ok l' => Except.ok (.best_first l')
  | .depth_first l, x => Except.ok (.depth_first (x :: l))
  | .breath_first l, x => Except.ok (.breath_first (l ++ [x]))

/-- `InstanceSet.__init__(instance, search_strategy)`: choose the backing
container, for `best_first` first make sure the ordering bound of the root
is computed, seed with the root, and `sys.exit` on an unknown strategy.
Returns the set together with the (possibly mutated) root. -/
def mkInstanceSet (ops : BBOps α σ) (inst : ℕ × α) (strategy : String) :
    Except Err (InstanceSet α × α) :=
  if strategy = "best_first" then
    match heappush ops []
        (inst.1,
         if ops.isMax inst.2 then
           if ops.isUpperBoundSet inst.2 then inst.2 else ops.calcUpperBound inst.2
         else
           if ops.isLowerBoundSet inst.2 then inst.2 else ops.calcLowerBound inst.2) with
    | Except.error e => Except.error e
    | Except.ok l =>
      Except.ok (.best_first l,
        if ops.isMax inst.2 then
          if ops.isUpperBoundSet inst.2 then inst.2 else ops.calcUpperBound inst.2
        else
          if ops.isLowerBoundSet inst.2 then inst.2 else ops.calcLowerBound inst.2)
  else if strategy = "depth_first" then
    Except.ok (.depth_first [inst], inst.2)
  else if strategy = "breath_first" then
    Except.ok (.breath_first [inst], inst.2)
  else Except.error (Err.sysExit "Search strategy not supported by InstanceSet.")

/-- The mutable state of one `Instance.solve` run: the frontier, the
incumbent `best_I` (with its object id), both counters, and the supply of
fresh object ids. -/
structure BBState (α : Type) where
  frontier : InstanceSet α
  best : ℕ × α
  branch_c : ℕ
  iter_c : ℕ
  nextId : ℕ

/-- The inner `for sub_I in I.branch()` loop of `solve`: promise-test each
child against the incumbent and push the (mutated) child iff promising. -/
def pushChildren (ops : BBOps α σ) (best : α) :
    List α → InstanceSet α → ℕ → Except Err (InstanceSet α × ℕ)
  | [], fr, nid => Except.ok (fr, nid)
  | c :: rest, fr, nid =>
    match isPromising ops c best with
    | Except.error e => Except.error e
    | Except.ok (true, c') =>
      match fr.addInstance ops (nid, c') with
      | Except.error e => Except.error e
      | Except.ok fr' => pushChildren ops best rest fr' (nid + 1)
    | Except.ok (false, _) => pushChildren ops best rest fr nid

/-- One iteration of the `while` loop of `Instance.solve`: pop a candidate,
promise-test it, possibly update the incumbent, promise-test again, branch
if still promising with the children filtered through `isPromising`, and
update the two counters.  Mutations of the candidate are threaded into the
incumbent exactly when the two are the same Python object (equal ids). -/
def solveStep (ops : BBOps α σ) (s : BBState α) : Except Err (BBState α) :=
  match s.frontier.getNextInstance ops with
  | Except.error e => Except.error e
  | Except.ok ((iid, I), fr1) =>
    let aliased := iid == s.best.1
    match (if aliased then isPromisingSelf ops I else isPromising ops I s.best.2) with
    | Except.error e => Except.error e
    | Except.ok (p1, I1) =>
      let b1 := if aliased then I1 else s.best.2
      if p1 then
        match (if aliased then isBetterThenSelf ops I1 else isBetterThen ops I1 b1) with
        | Except.error e => Except.error e
        | Except.ok (bt, I2) =>
          let bid2 := if bt then iid else s.best.1
          let aliased2 := bt || aliased
          let b2 := if aliased2 then I2 else s.best.2
          match (if aliased2 then isPromisingSelf ops I2 else isPromising ops I2 b2) with
          | Except.error e => Except.error e
          | Except.ok (p2, I3) =>
            let b3 := if aliased2 then I3 else b2
            if p2 then
              match ops.branch I3 with
              | Except.error e => Except.error e
              | Except.ok subs =>
                match pushChildren ops b3 subs fr1 s.nextId with
                | Except.error e => Except.error e
                | Except.ok (fr2, nid) =>
                  Except.ok { frontier := fr2, best := (bid2, b3),
                              branch_c := s.branch_c + 1, iter_c := s.iter_c + 1,
                              nextId := nid }
            else
              Except.ok { frontier := fr1, best := (bid2, b3),
                          branch_c := s.branch_c, iter_c := s.iter_c + 1,
                          nextId := s.nextId }
      else
        Except.ok { frontier := fr1, best := (s.best.1, b1),
                    branch_c := s.branch_c, iter_c := s.iter_c + 1,
                    nextId := s.nextId }

/-- The `while` guard of `solve`: frontier non-empty, and the branch budget
not exhausted (`branch_c < max_branches or max_branches == -1`). -/
def loopGuard (maxb : ℤ) (s : BBState α) : Bool :=
  !s.frontier.isEmpty && ((s.branch_c : ℤ) < maxb || maxb == -1)

/-- The `while` loop of `solve`, with explicit fuel. -/
def solveLoop (ops : BBOps α σ) (maxb : ℤ) : ℕ → BBState α → Except Err (BBState α)
  | 0, s => if loopGuard maxb s then Except.error Err.outOfFuel else Except.ok s
  | Nat.succ f, s =>
    if loopGuard maxb s then
      match solveStep ops s with
      | Except.error e => Except.error e
      | Except.ok s' => solveLoop ops maxb f s'
    else Except.ok s

/-- `Instance.solve(search_strategy, max_branches)`: generate the initial
solution, seed the frontier (the root gets object id 0 and is aliased by
the incumbent), run the loop, and return
`(getHeuristicSolution, getHeuristicSolutionValue, branch_c, iter_c)`
of the final incumbent. -/
def solveFuel (ops : BBOps α σ) (root : α) (strategy : String) (maxb : ℤ)
    (fuel : ℕ) : Except Err (σ × Option ℚ × ℕ × ℕ) :=
  let root1 := ops.genInitialSolution root
  match mkInstanceSet ops (0, root1) strategy with
  | Except.error e => Except.error e
  | Except.ok (iset, root2) =>
    match solveLoop ops maxb fuel
        { frontier := iset, best := (0, root2), branch_c := 0, iter_c := 0,
          nextId := 1 } with
    | Except.error e => Except.error e
    | Except.ok sF =>
      Except.ok (ops.getHeuristicSolution sF.best.2,
                 getHeuristicSolutionValue ops sF.best.2, sF.branch_c, sF.iter_c)

/-!
The 0/1 knapsack collaborator of `knapsack.py`.  `numpy` arrays become
`List ℚ`; the solution vector keeps numpy's numeric entries (`0` / `1`).
`np.argsort` (an unstable introsort) is modelled by a comparison sort over
the index list; the two agree whenever the keys are pairwise distinct,
which holds for every concrete input used in this development.
-/

/-- One instance (search-tree node) of the 0/1 knapsack problem: the shared
problem data followed by the node-specific partial-solution data, exactly
the attributes set up by `Knapsack.__init__`. -/
structure Knapsack where
  max_capacity : ℚ
  values : List ℚ
  weights : List ℚ
  vw_frac : List ℚ
  vw_frac_sortI : List ℕ
  n_items : ℕ
  int_problem : Bool
  solution : List ℚ
  index : ℕ
  curr_weight : ℚ
  curr_value : ℚ
  heur_solution : Option (List ℚ)
  heur_weight : Option ℚ
  lower_bound : Option ℚ
  upper_bound : Option ℚ
deriving DecidableEq

/-- Insert index `i` into an index list sorted ascending by `xs` entries. -/
def argsortInsert (xs : List ℚ) (i : ℕ) : List ℕ → List ℕ
  | [] => [i]
  | j :: rest =>
    if xs.getD i 0 ≤ xs.getD j 0 then i :: j :: rest else j :: argsortInsert xs i rest

/-- Indices of `xs` sorted by ascending entry (`np.argsort`). -/
def argsortAscending (xs : List ℚ) : List ℕ :=
  (List.range xs.length).foldr (argsortInsert xs) []

/-- `Knapsack.__init__(capacity, values, weights, int_problem)`. -/
def mkKnapsack (capacity : ℚ) (values weights : List ℚ) (int_problem : Bool) :
    Knapsack :=
  let vw := List.zipWith (· / ·) values weights
  { max_capacity := capacity
    values := values
    weights := weights
    vw_frac := vw
    vw_frac_sortI := (argsortAscending vw).reverse
    n_items := values.length
    int_problem := int_problem
    solution := List.replicate values.length 0
    index := 0
    curr_weight := 0
    curr_value := 0
    heur_solution := none
    heur_weight := none
    lower_bound := none
    upper_bound := none }

/-- `Knapsack.includeItem(item, index)`: reject the item (leaving the whole
state untouched) when it does not fit, otherwise commit it and invalidate
every cached bound and the cached heuristic solution. -/
def Knapsack.includeItem (k : Knapsack) (item index : ℕ) : Bool × Knapsack :=
  if k.curr_weight + k.weights.getD item 0 > k.max_capacity then (false, k)
  else
    (true,
     { k with
        solution := k.solution.set item 1
        index := index + 1
        curr_value := k.curr_value + k.values.getD item 0
        curr_weight := k.curr_weight + k.weights.getD item 0
        heur_solution := none
        heur_weight := none
        lower_bound := none
        upper_bound := none })

/-- Python `int(q)`: truncation toward zero. -/
def pyInt (q : ℚ) : ℚ := if 0 ≤ q then (⌊q⌋ : ℚ) else (⌈q⌉ : ℚ)

/-- The greedy loop of `Knapsack.calcUpperBound` over the still-open items
(in descending value/weight order): add whole items while they fit, then
add the first non-fitting item fractionally and stop. -/
def calcUBLoop (k : Knapsack) : List ℕ → ℚ → ℚ → ℚ
  | [], ub, _ => ub
  | item :: rest, ub, weight =>
    let p_weight := weight + k.weights.getD item 0
    if p_weight ≤ k.max_capacity then
      calcUBLoop k rest (ub + k.values.getD item 0) p_weight
    else ub + (k.max_capacity - weight) * k.vw_frac.getD item 0

/-- `Knapsack.calcUpperBound`, rounding down on integer problems. -/
def Knapsack.calcUpperBound (k : Knapsack) : Knapsack :=
  let ub := calcUBLoop k (k.vw_frac_sortI.drop k.index) k.curr_value k.curr_weight
  { k with upper_bound := some (if k.int_problem then pyInt ub else ub) }

/-- The greedy loop of `Knapsack.calcLowerBound` over the still-open items:
add every item that still fits, tracking bound, heuristic solution and
heuristic weight. -/
def calcLBLoop (k : Knapsack) : List ℕ → ℚ → List ℚ → ℚ → ℚ × List ℚ × ℚ
  | [], lb, hs, hw => (lb, hs, hw)
  | item :: rest, lb, hs, hw =>
    let p_weight := hw + k.weights.getD item 0
    if p_weight ≤ k.max_capacity then
      calcLBLoop k rest (lb + k.values.getD item 0) (hs.set item 1) p_weight
    else calcLBLoop k rest lb hs hw

/-- `Knapsack.calcLowerBound`: greedy bound plus heuristic solution. -/
def Knapsack.calcLowerBound (k : Knapsack) : Knapsack :=
  let r := calcLBLoop k (k.vw_frac_sortI.drop k.index) k.curr_value k.solution
             k.curr_weight
  { k with lower_bound := some r.1, heur_solution := some r.2.1,
           heur_weight := some r.2.2 }

/-- `Knapsack.branch` as written in `knapsack.py`: the module never imports
`copy`, so the first loop iteration's `Knapsack.copy(self)` call raises
`NameError`; only an empty index range (nothing left to branch on) escapes
it, returning the empty list. -/
def Knapsack.branch (k : Knapsack) : Except Err (List Knapsack) :=
  if k.index < k.n_items then Except.error (Err.nameError "name 'copy' is not defined")
  else Except.ok []

/-- `Knapsack.copy` as documented ("shallow copy problem specific data
attributes, deeply copy instance specific data attributes"), i.e. with the
missing `import copy` supplied; under value semantics a faithful copy is
the value itself. -/
def Knapsack.copyIntended (origin : Knapsack) : Knapsack := origin

/-- `Knapsack.branch` with the missing `import copy` supplied: one child
per still-open item, enumerated in reverse sorted-index order, keeping the
children that still fit. -/
def Knapsack.branchIntended (k : Knapsack) : List Knapsack :=
  ((List.range (k.n_items - k.index)).map (fun i => k.n_items - 1 - i)).foldl
    (fun acc index =>
      let item := k.vw_frac_sortI.getD index 0
      let r := (Knapsack.copyIntended k).includeItem item index
      if r.1 then acc ++ [r.2] else acc) []

/-- The `Instance` contract as implemented by `knapsack.py` (with the
faithful, `NameError`-raising `branch`). -/
def knapsackOps : BBOps Knapsack (Option (List ℚ)) where
  isMax := fun _ => true
  calcUpperBound := Knapsack.calcUpperBound
  calcLowerBound := Knapsack.calcLowerBound
  getUpperBound := fun k => k.upper_bound
  getLowerBound := fun k => k.lower_bound
  isUpperBoundSet := fun k => k.upper_bound.isSome
  isLowerBoundSet := fun k => k.lower_bound.isSome
  genInitialSolution := Knapsack.calcLowerBound
  getHeuristicSolution := fun k => k.heur_solution
  branch := Knapsack.branch

/-- The same contract with the missing `import copy` supplied, used to
state what the scenario of the spec would return once the `NameError` slip
is fixed. -/
def knapsackOpsIntended : BBOps Knapsack (Option (List ℚ)) :=
  { knapsackOps with branch := fun k => Except.ok k.branchIntended }

/-!
Definitions written from the words of §4.3 of the spec (the solve loop),
used for the refinement claim: pop one candidate per iteration, promise-
check, update the incumbent when better, promise-check again against the
possibly-updated incumbent, branch only then with children filtered by
their own promise check, count one branch operation per branching and one
iteration per pop, and finally return the incumbent's heuristic solution
and value with the two counters.  The incumbent is held "by reference"
(§3), so mutations of a candidate that *is* the incumbent are shared,
exactly as in the engine model above.
-/

/-- Step 3b of §4.3: process one popped candidate against the incumbent,
returning the new incumbent, the new frontier with fresh-id supply, and
whether a branch operation took place. -/
def specProcessCandidate (ops : BBOps α σ) (cand : ℕ × α) (inc : ℕ × α)
    (fr : InstanceSet α) (nid : ℕ) :
    Except Err ((ℕ × α) × (InstanceSet α × ℕ) × Bool) :=
  let aliased := cand.1 == inc.1
  match (if aliased then isPromisingSelf ops cand.2 else isPromising ops cand.2 inc.2) with
  | Except.error e => Except.error e
  | Except.ok (p1, c1) =>
    let inc1 := if aliased then (inc.1, c1) else inc
    if p1 then
      match (if aliased then isBetterThenSelf ops c1 else isBetterThen ops c1 inc1.2) with
      | Except.error e => Except.error e
      | Except.ok (bt, c2) =>
        let inc2 := if bt then (cand.1, c2) else (if aliased then (inc.1, c2) else inc)
        let aliased2 := cand.1 == inc2.1
        match (if aliased2 then isPromisingSelf ops c2 else isPromising ops c2 inc2.2) with
        | Except.error e => Except.error e
        | Except.ok (p2, c3) =>
          let inc3 := if aliased2 then (inc2.1, c3) else inc2
          if p2 then
            match ops.branch c3 with
            | Except.error e => Except.error e
            | Except.ok children =>
              match pushChildren ops inc3.2 children fr nid with
              | Except.error e => Except.error e
              | Except.ok frn => Except.ok (inc3, frn, true)
          else Except.ok (inc3, (fr, nid), false)
    else Except.ok (inc1, (fr, nid), false)

/-- Steps 3a-3c of §4.3: pop, process, count one iteration regardless, and
one branch operation iff the candidate was branched. -/
def specIteration (ops : BBOps α σ) (s : BBState α) : Except Err (BBState α) :=
  match s.frontier.getNextInstance ops with
  | Except.error e => Except.error e
  | Except.ok (cand, fr1) =>
    match specProcessCandidate ops cand s.best fr1 s.nextId with
    | Except.error e => Except.error e
    | Except.ok (inc', frn, branched) =>
      Except.ok { frontier := frn.1, best := inc',
                  branch_c := s.branch_c + (if branched then 1 else 0),
                  iter_c := s.iter_c + 1, nextId := frn.2 }

/-- "Branch budget not exhausted", with `-1` the unbounded sentinel (§6). -/
def specBudgetLeft (maxb : ℤ) (bc : ℕ) : Bool :=
  maxb == -1 || (bc : ℤ) < maxb

/-- Step 3's guard: frontier non-empty and budget not exhausted. -/
def specGuard (maxb : ℤ) (s : BBState α) : Bool :=
  !s.frontier.isEmpty && specBudgetLeft maxb s.branch_c

/-- The §4.3 loop, same fuel discipline as the engine model. -/
def solveSpecLoop (ops : BBOps α σ) (maxb : ℤ) :
    ℕ → BBState α → Except Err (BBState α)
  | 0, s => if specGuard maxb s then Except.error Err.outOfFuel else Except.ok s
  | Nat.succ f, s =>
    if specGuard maxb s then
      match specIteration ops s with
      | Except.error e => Except.error e
      | Except.ok s' => solveSpecLoop ops maxb f s'
    else Except.ok s

/-- §4.3 steps 1-4: initial solution, seeded frontier, loop, and the
return tuple `(heuristic solution, heuristic value, branches, iterations)`. -/
def solveSpecFuel (ops : BBOps α σ) (root : α) (strategy : String) (maxb : ℤ)
    (fuel : ℕ) : Except Err (σ × Option ℚ × ℕ × ℕ) :=
  let root1 := ops.genInitialSolution root
  match mkInstanceSet ops (0, root1) strategy with
  | Except.error e => Except.error e
  | Except.ok (iset, root2) =>
    match solveSpecLoop ops maxb fuel
        { frontier := iset, best := (0, root2), branch_c := 0, iter_c := 0,
          nextId := 1 } with
    | Except.error e => Except.error e
    | Except.ok sF =>
      Except.ok (ops.getHeuristicSolution sF.best.2,
                 getHeuristicSolutionValue ops sF.best.2, sF.branch_c, sF.iter_c)

/-!
Direction-generic vocabulary and the contract hypotheses under which the
engine-level claims (budget monotonicity, optimality, bound-read safety)
are stated.  `d = true` is maximization.
-/

/-- The pruning-side bound: upper for maximization, lower for minimization. -/
def dirBound (ops : BBOps α σ) (d : Bool) (a : α) : Option ℚ :=
  if d then ops.getUpperBound a else ops.getLowerBound a

/-- The achieved-side bound (the one carrying the heuristic solution):
lower for maximization, upper for minimization. -/
def heurBound (ops : BBOps α σ) (d : Bool) (a : α) : Option ℚ :=
  if d then ops.getLowerBound a else ops.getUpperBound a

/-- "x is at most as good as y" in direction `d` (for maximization the
usual `≤`, for minimization the reverse). -/
def dle (d : Bool) (x y : ℚ) : Prop := if d then x ≤ y else y ≤ x

/-- Budget order with `-1` as infinity. -/
def budgetLE (b1 b2 : ℤ) : Prop := b2 = -1 ∨ (b1 ≠ -1 ∧ b1 ≤ b2)

/-- The part of the §3/§4.1 instance contract the engine-level theorems
rely on: a fixed direction, set-flags that reflect the cached optionals,
bound computations that set their bound and do not disturb the opposite
cached bound. -/
structure EngineContract (ops : BBOps α σ) (d : Bool) : Prop where
  dir : ∀ a, ops.isMax a = d
  ubSet_iff : ∀ a, ops.isUpperBoundSet a = (ops.getUpperBound a).isSome
  lbSet_iff : ∀ a, ops.isLowerBoundSet a = (ops.getLowerBound a).isSome
  calcUB_sets : ∀ a, (ops.getUpperBound (ops.calcUpperBound a)).isSome = true
  calcLB_sets : ∀ a, (ops.getLowerBound (ops.calcLowerBound a)).isSome = true
  calcUB_pres_lb : ∀ a, ops.getLowerBound (ops.calcUpperBound a) = ops.getLowerBound a
  calcLB_pres_ub : ∀ a, ops.getUpperBound (ops.calcLowerBound a) = ops.getUpperBound a

/-- The elements currently stored by an `InstanceSet`, in backing-store
order. -/
def InstanceSet.contents : InstanceSet α → List (ℕ × α)
  | .best_first l => l
  | .depth_first l => l
  | .breath_first l => l

/-!
Bound-soundness vocabulary for the strategy-independence claim, phrased
against an abstract "true subtree optimum" `T`.  The propositions are
written with `match` on the cached optionals so that they are decidable
on a finite instance type.
-/

instance (d : Bool) (x y : ℚ) : Decidable (dle d x y) :=
  decidable_of_iff (if d then x ≤ y else y ≤ x) Iff.rfl

/-- Every computed pruning bound of `a` dominates the subtree optimum. -/
def soundDirBound (ops : BBOps α σ) (d : Bool) (T : α → ℚ) (a : α) : Prop :=
  ∀ u, dirBound ops d a = some u → dle d (T a) u

instance (ops : BBOps α σ) (d : Bool) (T : α → ℚ) (a : α) :
    Decidable (soundDirBound ops d T a) :=
  match h : dirBound ops d a with
  | some u =>
    decidable_of_iff (dle d (T a) u)
      ⟨fun hle u2 hu2 => by
        rw [h] at hu2
        injection hu2 with h3
        subst h3
        exact hle,
       fun hall => hall u h⟩
  | none => isTrue (fun u hu => by rw [h] at hu; cases hu)

/-- Every computed achieved bound is the value of a feasible solution of
the root problem, hence never beats the root optimum `opt`. -/
def soundHeurBound (ops : BBOps α σ) (d : Bool) (opt : ℚ) (a : α) : Prop :=
  ∀ v, heurBound ops d a = some v → dle d v opt

instance (ops : BBOps α σ) (d : Bool) (opt : ℚ) (a : α) :
    Decidable (soundHeurBound ops d opt a) :=
  match h : heurBound ops d a with
  | some v =>
    decidable_of_iff (dle d v opt)
      ⟨fun hle v2 hv2 => by
        rw [h] at hv2
        injection hv2 with h3
        subst h3
        exact hle,
       fun hall => hall v h⟩
  | none => isTrue (fun v hv => by rw [h] at hv; cases hv)

/-- Branch completeness: when `a` is branched, its subtree optimum is
covered by its own achieved bound or by some child's subtree optimum. -/
def branchCover (ops : BBOps α σ) (d : Bool) (T : α → ℚ) (a : α) : Prop :=
  ∀ hv subs, heurBound ops d a = some hv → ops.branch a = Except.ok subs →
    dle d (T a) hv ∨ ∃ c ∈ subs, dle d (T a) (T c)

instance (ops : BBOps α σ) (d : Bool) (T : α → ℚ) (a : α) :
    Decidable (branchCover ops d T a) :=
  match h1 : heurBound ops d a, h2 : ops.branch a with
  | some hv, Except.ok subs =>
    decidable_of_iff (dle d (T a) hv ∨ ∃ c ∈ subs, dle d (T a) (T c))
      ⟨fun hor hv2 subs2 h12 h22 => by
        rw [h1] at h12
        injection h12 with h3
        subst h3
        rw [h2] at h22
        injection h22 with h4
        subst h4
        exact hor,
       fun hall => hall hv subs h1 h2⟩
  | some hv, Except.error e =>
    isTrue (fun hv2 subs2 h12 h22 => by rw [h2] at h22; cases h22)
  | none, _ =>
    isTrue (fun hv2 subs2 h12 h22 => by rw [h1] at h12; cases h12)

/-- Bound computations and the initial-solution generator cache bounds but
do not change which subproblem a node represents. -/
def calcPreservesT (ops : BBOps α σ) (T : α → ℚ) : Prop :=
  ∀ a, T (ops.calcUpperBound a) = T a ∧ T (ops.calcLowerBound a) = T a

/-!
A small concrete maximization problem used to exercise the engine-level
theorems: a root `R` with subtree optimum 5, branching into two leaves
`A` (value 5) and `B` (value 3).  Instance state is the node name plus
the two cached-bound flags.
-/

/-- Node names of the test problem. -/
inductive TNode where
  | R : TNode
  | A : TNode
  | B : TNode
deriving DecidableEq, Fintype

/-- Test instances: node plus (upper-bound-set, lower-bound-set) flags. -/
def TInst : Type := TNode × Bool × Bool

instance : DecidableEq TInst := by unfold TInst; infer_instance

instance : Fintype TInst := by unfold TInst; infer_instance

/-- Upper bound table of the test problem. -/
def tUb : TNode → ℚ
  | .R => 6
  | .A => 5
  | .B => 3

/-- Lower (achieved) bound table of the test problem. -/
def tLb : TNode → ℚ
  | .R => 2
  | .A => 5
  | .B => 3

/-- True subtree optimum of the test problem. -/
def tT : TInst → ℚ
  | (.R, _, _) => 5
  | (.A, _, _) => 5
  | (.B, _, _) => 3

/-- The test problem's instance contract: bounds are looked up in the
tables when their flag is on, `calc` turns the flag on, the root branches
into the two leaves. -/
def testOps : BBOps TInst Unit where
  isMax := fun _ => true
  calcUpperBound := fun a => (a.1, true, a.2.2)
  calcLowerBound := fun a => (a.1, a.2.1, true)
  getUpperBound := fun a => if a.2.1 then some (tUb a.1) else none
  getLowerBound := fun a => if a.2.2 then some (tLb a.1) else none
  isUpperBoundSet := fun a => a.2.1
  isLowerBoundSet := fun a => a.2.2
  genInitialSolution := fun a => (a.1, a.2.1, true)
  getHeuristicSolution := fun _ => ()
  branch := fun a =>
    match a.1 with
    | .R => Except.ok [(TNode.A, false, false), (TNode.B, false, false)]
    | .A => Except.ok []
    | .B => Except.ok []

/-- The root of the test problem. -/
def tRoot : TInst := (TNode.R, false, false)

/-- The concrete knapsack instance of the spec's scenario: capacity 50,
values `[60, 100, 120]`, weights `[10, 20, 30]`. -/
def kScenario : Knapsack := mkKnapsack 50 [60, 100, 120] [10, 20, 30] false

/-- A small fresh knapsack instance (capacity 10, one item). -/
def kSmall : Knapsack := mkKnapsack 10 [1] [1] false

/-- Well-formedness of a solve-loop state, tracking Python object
identity: frontier ids are pairwise distinct and below the fresh-id
counter, the incumbent's id is below the counter, and a frontier entry
carrying the incumbent's id holds the incumbent's value. -/
structure StateWF (s : BBState α) : Prop where
  nodupIds : (s.frontier.contents.map Prod.fst).Nodup
  idsLt : ∀ x ∈ s.frontier.contents, x.1 < s.nextId
  bestLt : s.best.1 < s.nextId
  aliasOK : ∀ x ∈ s.frontier.contents, x.1 = s.best.1 → x.2 = s.best.2

/-- Whether an `InstanceSet` is backed by the priority heap (the only
container whose operations compare elements). -/
def InstanceSet.isBestFirst : InstanceSet α → Bool
  | .best_first _ => true
  | .depth_first _ => false
  | .breath_first _ => false

/-- Comparison safety of a frontier: whenever it is the priority heap,
every stored instance carries its ordering (direction-side) bound. -/
def frontKeys (ops : BBOps α σ) (d : Bool) (fr : InstanceSet α) : Prop :=
  fr.isBestFirst = true → ∀ x ∈ fr.contents, (dirBound ops d x.2).isSome = true

/-- The optimality coverage invariant of a solve-loop state: the frontier
and the incumbent together still dominate the root optimum `opt` — either
the incumbent's achieved value already reaches it, or some frontier node's
subtree optimum does. -/
def optCovered (ops : BBOps α σ) (d : Bool) (T : α → ℚ) (opt : ℚ)
    (s : BBState α) : Prop :=
  ∃ vb, heurBound ops d s.best.2 = some vb ∧
    (dle d opt vb ∨ ∃ x ∈ s.frontier.contents, dle d opt (T x.2))

deriving instance DecidableEq for Except

/-!
### Theorems

Helper lemmas first, then for each claim its theorem (with witness or
counterexample where applicable).
-/

/-- A loop whose guard is false returns its state unchanged. -/
theorem solveLoop_guard_false (ops : BBOps α σ) (maxb : ℤ) (fuel : ℕ)
    (s : BBState α) (h : loopGuard maxb s = false) :
    solveLoop ops maxb fuel s = Except.ok s := by
  cases fuel <;> simp [solveLoop, h]

/-- With a zero branch budget the guard is false from the start. -/
theorem loopGuard_zero (s : BBState α) : loopGuard 0 s = false := by
  have h : ((s.branch_c : ℤ) < 0) = False := by
    simp [Int.natCast_nonneg, not_lt]
  simp [loopGuard, h]

/-- `mkInstanceSet` with the `best_first` strategy: the ordering bound of
the root is computed if unset, and the heap is seeded with the root. -/
theorem mkInstanceSet_best (ops : BBOps α σ) (inst : ℕ × α) :
    mkInstanceSet ops inst "best_first" =
      Except.ok (InstanceSet.best_first
        [(inst.1,
          if ops.isMax inst.2 then
            if ops.isUpperBoundSet inst.2 then inst.2 else ops.calcUpperBound inst.2
          else
            if ops.isLowerBoundSet inst.2 then inst.2 else ops.calcLowerBound inst.2)],
        if ops.isMax inst.2 then
          if ops.isUpperBoundSet inst.2 then inst.2 else ops.calcUpperBound inst.2
        else
          if ops.isLowerBoundSet inst.2 then inst.2 else ops.calcLowerBound inst.2) := by
  simp [mkInstanceSet, heappush, siftdownLoop]

/-- `mkInstanceSet` with the `depth_first` strategy. -/
theorem mkInstanceSet_depth (ops : BBOps α σ) (inst : ℕ × α) :
    mkInstanceSet ops inst "depth_first" =
      Except.ok (InstanceSet.depth_first [inst], inst.2) := by
  simp [mkInstanceSet]

/-- `mkInstanceSet` with the `breath_first` strategy. -/
theorem mkInstanceSet_breath (ops : BBOps α σ) (inst : ℕ × α) :
    mkInstanceSet ops inst "breath_first" =
      Except.ok (InstanceSet.breath_first [inst], inst.2) := by
  simp [mkInstanceSet]

/-- C2 (amended claim): constructing the frontier for any strategy
identifier other than the three supported ones terminates the process via
`sys.exit` (with the source's message) before any search work happens, and
therefore never silently defaults to some strategy; `solve` propagates
this as its outcome for every root, budget and fuel. -/
theorem unknown_strategy_sysexit (ops : BBOps α σ) (root : α)
    (strategy : String) (maxb : ℤ) (fuel : ℕ)
    (h1 : strategy ≠ "best_first") (h2 : strategy ≠ "depth_first")
    (h3 : strategy ≠ "breath_first") :
    solveFuel ops root strategy maxb fuel =
      Except.error (Err.sysExit "Search strategy not supported by InstanceSet.") := by
  simp [solveFuel, mkInstanceSet, h1, h2, h3]

/-- C2 witness: the amended claim at the concrete strategy `"bogus"`. -/
theorem unknown_strategy_sysexit_witness :
    solveFuel knapsackOps kSmall "bogus" (-1) 10 =
      Except.error (Err.sysExit "Search strategy not supported by InstanceSet.") :=
  unknown_strategy_sysexit knapsackOps kSmall "bogus" (-1) 10
    (by decide) (by decide) (by decide)

/-- C2 counterexample: on the concrete unknown strategy `"bogus"`, the
outcome of `solve` is the process-terminating `sys.exit` of
`InstanceSet.__init__` — not a `ConfigurationError` (or any other
exception) raised to the caller, refuting the claim that the engine never
terminates the hosting process on an unrecognized identifier. -/
theorem unknown_strategy_sysexit_cex :
    solveFuel knapsackOps kSmall "bogus" (-1) 10 =
      Except.error (Err.sysExit "Search strategy not supported by InstanceSet.") ∧
    ∀ e, solveFuel knapsackOps kSmall "bogus" (-1) 10 = Except.error e →
      e = Err.sysExit "Search strategy not supported by InstanceSet." := by
  refine ⟨by with_unfolding_all decide, ?_⟩
  intro e he
  have h := he.symm.trans (by with_unfolding_all decide :
    solveFuel knapsackOps kSmall "bogus" (-1) 10 =
      Except.error (Err.sysExit "Search strategy not supported by InstanceSet."))
  exact (Except.error.injEq _ _).mp h

/-- C3 (amended claim): `Knapsack.getUpperBound` / `getLowerBound` called
before the corresponding bound has been computed return Python's `None`
(the unset sentinel) as an ordinary value — no `PreconditionError` (nor
any other failure) is raised. -/
theorem getBound_unset_returns_none (k : Knapsack) :
    (knapsackOps.isUpperBoundSet k = false → knapsackOps.getUpperBound k = none) ∧
    (knapsackOps.isLowerBoundSet k = false → knapsackOps.getLowerBound k = none) := by
  constructor
  · intro h
    cases h' : k.upper_bound with
    | none => simp [knapsackOps, h']
    | some x => simp [knapsackOps, h'] at h
  · intro h
    cases h' : k.lower_bound with
    | none => simp [knapsackOps, h']
    | some x => simp [knapsackOps, h'] at h

/-- C3 witness: the amended claim at a concrete fresh knapsack. -/
theorem getBound_unset_returns_none_witness :
    knapsackOps.getUpperBound kSmall = none ∧
    knapsackOps.getLowerBound kSmall = none :=
  ⟨(getBound_unset_returns_none kSmall).1 (by with_unfolding_all decide),
   (getBound_unset_returns_none kSmall).2 (by with_unfolding_all decide)⟩

/-- C3 counterexample: on a freshly constructed knapsack neither bound has
been computed, yet both getters return normally with the value `None`
instead of failing with a `PreconditionError`. -/
theorem getBound_unset_returns_none_cex :
    knapsackOps.isUpperBoundSet kSmall = false ∧
    knapsackOps.getUpperBound kSmall = none ∧
    knapsackOps.isLowerBoundSet kSmall = false ∧
    knapsackOps.getLowerBound kSmall = none := by
  with_unfolding_all decide

/-- C4 (code bug): on the spec's scenario (capacity 50, values
`[60, 100, 120]`, weights `[10, 20, 30]`), `solve("best_first", -1)` does
not return the optimum 220: the first branching executes `Knapsack.copy`,
whose body references the module `copy` that `knapsack.py` never imports,
so the run dies with a `NameError`. -/
theorem scenario_best_first_raises_nameerror :
    solveFuel knapsackOps kScenario "best_first" (-1) 100 =
      Except.error (Err.nameError "name 'copy' is not defined") := by
  with_unfolding_all decide

/-- C4, supporting evidence: with the missing `import copy` supplied
(`knapsackOpsIntended`), the engine does return value 220 with exactly
items 2 and 3 selected (solution vector `[0, 1, 1]`), as the spec's
scenario demands (shown here under the `depth_first` strategy, which
reaches the same incumbent). -/
theorem scenario_intended_returns_220 :
    solveFuel knapsackOpsIntended kScenario "depth_first" (-1) 9 =
      Except.ok (some [0, 1, 1], some 220, 3, 5) := by
  with_unfolding_all decide

/-- C10 (confirmed): `Knapsack.includeItem` either rejects an item that
does not fit, leaving the entire instance state untouched, or commits it —
updating solution vector, index, running value and weight — and
invalidates every cached bound and the cached heuristic solution, leaving
the shared problem data unchanged. -/
theorem includeItem_spec (k : Knapsack) (item index : ℕ)
    (hitem : item < k.weights.length) :
    (k.curr_weight + k.weights.getD item 0 > k.max_capacity →
       k.includeItem item index = (false, k)) ∧
    (k.curr_weight + k.weights.getD item 0 ≤ k.max_capacity →
       (k.includeItem item index).1 = true ∧
       (k.includeItem item index).2 =
         { k with
            solution := k.solution.set item 1
            index := index + 1
            curr_value := k.curr_value + k.values.getD item 0
            curr_weight := k.curr_weight + k.weights.getD item 0
            heur_solution := none
            heur_weight := none
            lower_bound := none
            upper_bound := none }) := by
  constructor
  · intro h
    rw [Knapsack.includeItem, if_pos h]
  · intro h
    rw [Knapsack.includeItem, if_neg (not_lt.mpr h)]
    exact ⟨rfl, rfl⟩

/-- C10 witness: both branches of the claim at concrete inputs — item 0
of weight 20 does not fit into remaining capacity 10 and is rejected with
the state unchanged; item 0 of weight 1 fits into `kSmall` and is
committed with all caches invalidated. -/
theorem includeItem_spec_witness :
    ((mkKnapsack 10 [5] [20] false).includeItem 0 0 =
      (false, mkKnapsack 10 [5] [20] false)) ∧
    ((kSmall.includeItem 0 0).1 = true ∧
      (kSmall.includeItem 0 0).2 =
        { kSmall with
            solution := kSmall.solution.set 0 1
            index := 1
            curr_value := kSmall.curr_value + 1
            curr_weight := kSmall.curr_weight + 1
            heur_solution := none
            heur_weight := none
            lower_bound := none
            upper_bound := none }) := by
  constructor
  · exact (includeItem_spec (mkKnapsack 10 [5] [20] false) 0 0 (by decide)).1
      (by with_unfolding_all decide)
  · exact (includeItem_spec kSmall 0 0 (by decide)).2
      (by with_unfolding_all decide)

/-- C5 (confirmed): `isPromising(self, incumbent)` on a maximization
instance computes `self`'s upper bound exactly when it is unset and
returns true iff that upper bound strictly exceeds the incumbent's lower
bound; symmetrically on a minimization instance with the lower bound
compared against the incumbent's upper bound.  The returned state is the
bound-computed `self`, and the incumbent's direction-appropriate bound is
assumed set (otherwise Python raises `TypeError`). -/
theorem isPromising_spec (ops : BBOps α σ) (self incumbent : α) :
    (ops.isMax self = true →
      ∀ L, ops.getLowerBound incumbent = some L →
        ∀ U, ops.getUpperBound
            (if ops.isUpperBoundSet self then self else ops.calcUpperBound self) =
            some U →
          isPromising ops self incumbent =
            Except.ok (decide (U > L),
              if ops.isUpperBoundSet self then self else ops.calcUpperBound self)) ∧
    (ops.isMax self = false →
      ∀ U, ops.getUpperBound incumbent = some U →
        ∀ L, ops.getLowerBound
            (if ops.isLowerBoundSet self then self else ops.calcLowerBound self) =
            some L →
          isPromising ops self incumbent =
            Except.ok (decide (L < U),
              if ops.isLowerBoundSet self then self else ops.calcLowerBound self)) := by
  constructor
  · intro hmax L hL U hU
    simp [isPromising, hmax, hL, hU, cmpGT]
  · intro hmin U hU L hL
    simp [isPromising, hmin, hU, hL, cmpLT]

/-- C5 witness: the scenario knapsack root (upper bound unset) against the
incumbent produced by `genInitialSolution` (lower bound 160): the upper
bound 240 is computed on the fly and `isPromising` returns true together
with the mutated instance. -/
theorem isPromising_spec_witness :
    isPromising knapsackOps kScenario (knapsackOps.genInitialSolution kScenario) =
      Except.ok (true, knapsackOps.calcUpperBound kScenario) := by
  have h := (isPromising_spec knapsackOps kScenario
      (knapsackOps.genInitialSolution kScenario)).1 rfl
    160 (by with_unfolding_all decide) 240 (by with_unfolding_all decide)
  exact h.trans (by with_unfolding_all decide)

/-- With the unbounded budget sentinel the guard is just frontier
non-emptiness. -/
theorem loopGuard_neg_one (s : BBState α) :
    loopGuard (-1) s = !s.frontier.isEmpty := by
  simp [loopGuard]

/-- C6 (confirmed): (i) with `maxBranches = 0` the loop never runs, and
`solve` returns the initial heuristic solution produced by
`generateInitialSolution` on the root, unchanged, with branch count 0 (for
`best_first` the seeding computes the root's ordering bound, which by
contract does not disturb the heuristic solution — the two preservation
hypotheses); (ii) `maxBranches = -1` disables the budget entirely: a loop
that returns normally can only have stopped because the frontier was
exhausted. -/
theorem budget_zero_and_unbounded :
    (∀ (α σ : Type) (ops : BBOps α σ) (root : α) (strategy : String) (fuel : ℕ),
      (ops.isMax (ops.genInitialSolution root) = true →
        ops.getHeuristicSolution (ops.calcUpperBound (ops.genInitialSolution root)) =
          ops.getHeuristicSolution (ops.genInitialSolution root) ∧
        getHeuristicSolutionValue ops (ops.calcUpperBound (ops.genInitialSolution root)) =
          getHeuristicSolutionValue ops (ops.genInitialSolution root)) →
      (ops.isMax (ops.genInitialSolution root) = false →
        ops.getHeuristicSolution (ops.calcLowerBound (ops.genInitialSolution root)) =
          ops.getHeuristicSolution (ops.genInitialSolution root) ∧
        getHeuristicSolutionValue ops (ops.calcLowerBound (ops.genInitialSolution root)) =
          getHeuristicSolutionValue ops (ops.genInitialSolution root)) →
      (strategy = "best_first" ∨ strategy = "depth_first" ∨ strategy = "breath_first") →
      solveFuel ops root strategy 0 fuel =
        Except.ok (ops.getHeuristicSolution (ops.genInitialSolution root),
                   getHeuristicSolutionValue ops (ops.genInitialSolution root), 0, 0)) ∧
    (∀ (α σ : Type) (ops : BBOps α σ) (fuel : ℕ) (s sF : BBState α),
      solveLoop ops (-1) fuel s = Except.ok sF → sF.frontier.isEmpty = true) := by
  constructor
  · intro α σ ops root strategy fuel hmax hmin hstrat
    rcases hstrat with h | h | h <;> subst h
    · have e1 := mkInstanceSet_best ops (0, ops.genInitialSolution root)
      simp only [solveFuel, e1, solveLoop_guard_false _ _ _ _ (loopGuard_zero _)]
      by_cases hm : ops.isMax (ops.genInitialSolution root)
      · by_cases hs : ops.isUpperBoundSet (ops.genInitialSolution root)
        · simp [hm, hs]
        · simp [hm, hs, (hmax hm).1, (hmax hm).2]
      · by_cases hs : ops.isLowerBoundSet (ops.genInitialSolution root)
        · simp [hm, hs]
        · simp [hm, hs, (hmin (by simpa using hm)).1, (hmin (by simpa using hm)).2]
    · have e1 := mkInstanceSet_depth ops (0, ops.genInitialSolution root)
      simp only [solveFuel, e1, solveLoop_guard_false _ _ _ _ (loopGuard_zero _)]
    · have e1 := mkInstanceSet_breath ops (0, ops.genInitialSolution root)
      simp only [solveFuel, e1, solveLoop_guard_false _ _ _ _ (loopGuard_zero _)]
  · intro α σ ops fuel
    induction fuel with
    | zero =>
      intro s sF h
      by_cases hg : loopGuard (-1) s
      · simp [solveLoop, hg] at h
      · simp [solveLoop, hg] at h
        rw [← h]
        have h3 : loopGuard (-1) s = false := Bool.eq_false_iff.mpr hg
        rw [loopGuard_neg_one] at h3
        simpa using h3
    | succ f ih =>
      intro s sF h
      by_cases hg : loopGuard (-1) s
      · simp only [solveLoop, hg, if_true] at h
        cases hstep : solveStep ops s with
        | error e => rw [hstep] at h; cases h
        | ok s' => rw [hstep] at h; exact ih s' sF h
      · simp [solveLoop, hg] at h
        rw [← h]
        have h3 : loopGuard (-1) s = false := Bool.eq_false_iff.mpr hg
        rw [loopGuard_neg_one] at h3
        simpa using h3

/-- C6 witness: part (i) on the concrete one-item knapsack with budget 0
(the initial greedy solution `[1]` of value 1 comes back unchanged with
zero branches), and part (ii) on a concrete empty-frontier state. -/
theorem budget_zero_and_unbounded_witness :
    solveFuel knapsackOps kSmall "depth_first" 0 5 =
      Except.ok (some [1], some 1, 0, 0) ∧
    (InstanceSet.depth_first ([] : List (ℕ × Knapsack))).isEmpty = true := by
  constructor
  · have h := budget_zero_and_unbounded.1 Knapsack (Option (List ℚ)) knapsackOps
      kSmall "depth_first" 5 (fun _ => ⟨rfl, rfl⟩) (fun hf => nomatch hf)
      (Or.inr (Or.inl rfl))
    exact h.trans (by with_unfolding_all decide)
  · exact budget_zero_and_unbounded.2 Knapsack (Option (List ℚ)) knapsackOps 3
      { frontier := InstanceSet.depth_first [], best := (0, kSmall),
        branch_c := 0, iter_c := 0, nextId := 1 }
      { frontier := InstanceSet.depth_first [], best := (0, kSmall),
        branch_c := 0, iter_c := 0, nextId := 1 }
      (solveLoop_guard_false _ _ _ _ (by with_unfolding_all decide))

/-- The spec's loop guard coincides with the engine's. -/
theorem specGuard_eq (maxb : ℤ) (s : BBState α) :
    specGuard maxb s = loopGuard maxb s := by
  simp [specGuard, specBudgetLeft, loopGuard, Bool.or_comm]

/-- One spec iteration coincides with one engine iteration. -/
theorem specIteration_eq (ops : BBOps α σ) (s : BBState α) :
    specIteration ops s = solveStep ops s := by
  rw [specIteration, solveStep]
  cases hpop : s.frontier.getNextInstance ops with
  | error e => rfl
  | ok r =>
    obtain ⟨⟨iid, I⟩, fr1⟩ := r
    unfold specProcessCandidate
    by_cases hA : (iid == s.best.1) = true
    · simp only [hA, if_true]
      cases h1 : isPromisingSelf ops I with
      | error e => rfl
      | ok r1 =>
        obtain ⟨p1, c1⟩ := r1
        cases p1
        · rfl
        · simp only [if_true]
          cases h2 : isBetterThenSelf ops c1 with
          | error e => rfl
          | ok r2 =>
            obtain ⟨bt, c2⟩ := r2
            cases bt
            · simp only [Bool.false_or, hA]
              simp only [Bool.false_eq_true, if_false, hA, if_true]
              cases h3 : isPromisingSelf ops c2 with
              | error e => rfl
              | ok r3 =>
                obtain ⟨p2, c3⟩ := r3
                cases p2
                · simp [hA]
                · simp only [if_true]
                  cases h4 : ops.branch c3 with
                  | error e => simp [hA, h4]
                  | ok subs =>
                    cases h5 : pushChildren ops c3 subs fr1 s.nextId with
                    | error e => simp [hA, h4, h5]
                    | ok frn => simp [hA, h4, h5]
            · simp only [Bool.true_or, beq_self_eq_true, if_true]
              cases h3 : isPromisingSelf ops c2 with
              | error e => rfl
              | ok r3 =>
                obtain ⟨p2, c3⟩ := r3
                cases p2
                · simp
                · simp only [if_true]
                  cases h4 : ops.branch c3 with
                  | error e => simp [h4]
                  | ok subs =>
                    cases h5 : pushChildren ops c3 subs fr1 s.nextId with
                    | error e => simp [h4, h5]
                    | ok frn => simp [h4, h5]
    · have hA' : (iid == s.best.1) = false := Bool.eq_false_iff.mpr hA
      simp only [hA', Bool.false_eq_true, if_false]
      cases h1 : isPromising ops I s.best.2 with
      | error e => rfl
      | ok r1 =>
        obtain ⟨p1, c1⟩ := r1
        cases p1
        · rfl
        · simp only [if_true]
          cases h2 : isBetterThen ops c1 s.best.2 with
          | error e => rfl
          | ok r2 =>
            obtain ⟨bt, c2⟩ := r2
            cases bt
            · simp only [Bool.false_or, hA']
              simp only [Bool.false_eq_true, if_false]
              cases h3 : isPromising ops c2 s.best.2 with
              | error e => simp [hA']
              | ok r3 =>
                obtain ⟨p2, c3⟩ := r3
                cases p2
                · simp [hA']
                · simp only [if_true]
                  cases h4 : ops.branch c3 with
                  | error e => simp [hA', h4]
                  | ok subs =>
                    cases h5 : pushChildren ops s.best.2 subs fr1 s.nextId with
                    | error e => simp [hA', h4, h5]
                    | ok frn => simp [hA', h4, h5]
            · simp only [Bool.true_or, beq_self_eq_true, if_true]
              cases h3 : isPromisingSelf ops c2 with
              | error e => rfl
              | ok r3 =>
                obtain ⟨p2, c3⟩ := r3
                cases p2
                · simp
                · simp only [if_true]
                  cases h4 : ops.branch c3 with
                  | error e => simp [h4]
                  | ok subs =>
                    cases h5 : pushChildren ops c3 subs fr1 s.nextId with
                    | error e => simp [h4, h5]
                    | ok frn => simp [h4, h5]

/-- The spec loop coincides with the engine loop. -/
theorem solveSpecLoop_eq (ops : BBOps α σ) (maxb : ℤ) (fuel : ℕ) (s : BBState α) :
    solveSpecLoop ops maxb fuel s = solveLoop ops maxb fuel s := by
  induction fuel generalizing s with
  | zero => simp [solveSpecLoop, solveLoop, specGuard_eq]
  | succ f ih =>
    simp only [solveSpecLoop, solveLoop, specGuard_eq, specIteration_eq]
    by_cases hg : loopGuard maxb s = true
    · rw [if_pos hg, if_pos hg]
      cases solveStep ops s with
      | error e => rfl
      | ok s' => exact ih s'
    · rw [if_neg hg, if_neg hg]

/-- C1 (confirmed): for every contract implementation, root, strategy and
budget, `Instance.solve` computes exactly the §4.3 loop: after generating
the initial solution and seeding the frontier with the root, each
iteration pops one candidate, promise-checks it against the incumbent,
replaces the incumbent when the candidate is better, promise-checks the
candidate a second time against the possibly-updated incumbent, branches
only then with every child pushed iff itself promising, counts one branch
operation per branching and one iteration per pop, and finally returns
`(heuristic solution, heuristic value, branch count, iteration count)` of
the incumbent. -/
theorem solve_follows_spec_loop (ops : BBOps α σ) (root : α) (strategy : String)
    (maxb : ℤ) (fuel : ℕ) :
    solveFuel ops root strategy maxb fuel = solveSpecFuel ops root strategy maxb fuel := by
  rw [solveFuel, solveSpecFuel]
  cases mkInstanceSet ops (0, ops.genInitialSolution root) strategy with
  | error e => rfl
  | ok r =>
    obtain ⟨iset, root2⟩ := r
    simp only [solveSpecLoop_eq]

/-!
Permutation lemmas for the `heapq` model: `heappush`/`heappop` permute the
stored elements (they move a hole around and finally place the held-out
item), which is what the engine-level invariants track.
-/

/-- Pulling the `d`-th element to the front while writing `x` into its
slot is a permutation of consing `x`. -/
theorem get_cons_set_perm {β : Type} (t : List β) (d : ℕ) (hd : d < t.length)
    (x : β) : List.Perm (t.get ⟨d, hd⟩ :: t.set d x) (x :: t) := by
  induction t generalizing d with
  | nil => cases hd
  | cons b s ih =>
    cases d with
    | zero => exact List.Perm.swap x b s
    | succ d =>
      have hd' : d < s.length := by simpa using hd
      exact ((List.Perm.swap _ _ _).trans
        (List.Perm.cons b (ih d hd'))).trans (List.Perm.swap _ _ _)

/-- Swapping which of `a`, `x` sits in front and which sits in slot `m`
is a permutation. -/
theorem set_swap_perm {β : Type} (t : List β) (m : ℕ) (hm : m < t.length)
    (a x : β) : List.Perm (x :: t.set m a) (a :: t.set m x) := by
  induction t generalizing m with
  | nil => cases hm
  | cons b s ih =>
    cases m with
    | zero => exact List.Perm.swap a x s
    | succ m =>
      have hm' : m < s.length := by simpa using hm
      exact ((List.Perm.swap _ _ _).trans
        (List.Perm.cons b (ih m hm'))).trans (List.Perm.swap _ _ _)

/-- Copying slot `j` into slot `i` and then overwriting slot `j` with `x`
permutes the list that simply writes `x` into slot `i` (case `i < j`). -/
theorem set_transpose_perm_lt {β : Type} (l : List β) (i j : ℕ) (x : β)
    (hij : i < j) (hj : j < l.length) :
    List.Perm ((l.set i (l.get ⟨j, hj⟩)).set j x) (l.set i x) := by
  induction l generalizing i j with
  | nil => cases hj
  | cons a t ih =>
    cases i with
    | zero =>
      cases j with
      | zero => exact absurd hij (lt_irrefl 0)
      | succ d =>
        have hd : d < t.length := by simpa using hj
        exact get_cons_set_perm t d hd x
    | succ i' =>
      cases j with
      | zero => exact absurd hij (Nat.not_lt_zero _)
      | succ j' =>
        have hij' : i' < j' := Nat.lt_of_succ_lt_succ hij
        have hj' : j' < t.length := Nat.lt_of_succ_lt_succ hj
        exact List.Perm.cons a (ih i' j' hij' hj')

/-- The same transposition fact for `j < i`. -/
theorem set_transpose_perm_gt {β : Type} (l : List β) (i j : ℕ) (x : β)
    (hji : j < i) (hi : i < l.length) (hj : j < l.length) :
    List.Perm ((l.set i (l.get ⟨j, hj⟩)).set j x) (l.set i x) := by
  induction l generalizing i j with
  | nil => cases hi
  | cons a t ih =>
    cases j with
    | zero =>
      cases i with
      | zero => exact absurd hji (lt_irrefl 0)
      | succ m =>
        have hm : m < t.length := by simpa using hi
        exact set_swap_perm t m hm a x
    | succ j' =>
      cases i with
      | zero => exact absurd hji (Nat.not_lt_zero _)
      | succ i' =>
        have hji' : j' < i' := Nat.lt_of_succ_lt_succ hji
        have hi' : i' < t.length := Nat.lt_of_succ_lt_succ hi
        have hj' : j' < t.length := Nat.lt_of_succ_lt_succ hj
        exact List.Perm.cons a (ih i' j' hji' hi' hj')

/-- Transposition of a held-out item with a copied slot, any `i ≠ j`. -/
theorem set_transpose_perm {β : Type} (l : List β) (i j : ℕ) (x : β)
    (hij : i ≠ j) (hi : i < l.length) (hj : j < l.length) :
    List.Perm ((l.set i (l.get ⟨j, hj⟩)).set j x) (l.set i x) := by
  rcases Nat.lt_or_ge i j with h | h
  · exact set_transpose_perm_lt l i j x h hj
  · exact set_transpose_perm_gt l i j x (lt_of_le_of_ne h (Ne.symm hij)) hi hj

/-- Writing the single trailing element's own slot. -/
theorem set_concat_length {β : Type} (l : List β) (a b : β) :
    (l ++ [a]).set l.length b = l ++ [b] := by
  induction l with
  | nil => rfl
  | cons c t ih => simpa using ih

/-- `siftdownLoop` permutes `heap.set pos newitem` whenever it succeeds. -/
theorem siftdownLoop_perm (ops : BBOps α σ) (ni : ℕ × α) (sp : ℕ) :
    ∀ (fuel : ℕ) (heap : List (ℕ × α)) (pos : ℕ), pos < heap.length →
      ∀ l', siftdownLoop ops ni sp fuel heap pos = Except.ok l' →
        List.Perm l' (heap.set pos ni)
  | fuel, heap, pos, hpos, l', h => by
    cases fuel with
    | zero =>
      rw [siftdownLoop] at h
      by_cases hc : sp < pos
      · rw [if_pos hc] at h
        cases h
      · rw [if_neg hc] at h
        cases h
        exact List.Perm.refl _
    | succ f =>
      rw [siftdownLoop] at h
      by_cases hc : sp < pos
      · rw [if_pos hc] at h
        cases hlt : instLt ops ni.2 (heap.getD ((pos - 1) / 2) ni).2 with
        | error e => rw [hlt] at h; cases h
        | ok b =>
          rw [hlt] at h
          cases b with
          | false =>
            cases h
            exact List.Perm.refl _
          | true =>
            have hpp : (pos - 1) / 2 < pos := by omega
            have hpp' : (pos - 1) / 2 < heap.length := lt_trans hpp hpos
            have hrec := siftdownLoop_perm ops ni sp f
              (heap.set pos (heap.getD ((pos - 1) / 2) ni)) ((pos - 1) / 2)
              (by simpa using hpp') l' h
            have hget : heap.getD ((pos - 1) / 2) ni = heap.get ⟨(pos - 1) / 2, hpp'⟩ :=
              List.getD_eq_getElem heap ni hpp'
            rw [hget] at hrec
            exact hrec.trans
              (set_transpose_perm heap pos ((pos - 1) / 2) ni (by omega) hpos hpp')
      · rw [if_neg hc] at h
        cases h
        exact List.Perm.refl _

/-- `siftupLoop` keeps the length, returns an in-range final position, and
(with `newitem` written into that position) permutes `heap.set pos newitem`
whenever it succeeds. -/
theorem siftupLoop_spec (ops : BBOps α σ) (ni : ℕ × α) :
    ∀ (fuel : ℕ) (heap : List (ℕ × α)) (pos : ℕ), pos < heap.length →
      ∀ l' p', siftupLoop ops ni fuel heap pos = Except.ok (l', p') →
        p' < l'.length ∧ l'.length = heap.length ∧
        List.Perm (l'.set p' ni) (heap.set pos ni)
  | fuel, heap, pos, hpos, l', p', h => by
    cases fuel with
    | zero =>
      rw [siftupLoop] at h
      by_cases hc : 2 * pos + 1 < heap.length
      · rw [if_pos hc] at h
        cases h
      · rw [if_neg hc] at h
        cases h
        refine ⟨by simpa using hpos, by simp, ?_⟩
        rw [List.set_set]
    | succ f =>
      rw [siftupLoop] at h
      by_cases hc : 2 * pos + 1 < heap.length
      · rw [if_pos hc] at h
        by_cases hr : 2 * pos + 1 + 1 < heap.length
        · rw [if_pos hr] at h
          cases hlt : instLt ops (heap.getD (2 * pos + 1) ni).2
              (heap.getD (2 * pos + 1 + 1) ni).2 with
          | error e => rw [hlt] at h; cases h
          | ok b =>
            rw [hlt] at h
            have hcp : (if b then 2 * pos + 1 else 2 * pos + 1 + 1) < heap.length := by
              split <;> omega
            have hrec := siftupLoop_spec ops ni f
              (heap.set pos (heap.getD (if b then 2 * pos + 1 else 2 * pos + 1 + 1) ni))
              (if b then 2 * pos + 1 else 2 * pos + 1 + 1) (by simpa using hcp) l' p' h
            have hget : heap.getD (if b then 2 * pos + 1 else 2 * pos + 1 + 1) ni =
                heap.get ⟨if b then 2 * pos + 1 else 2 * pos + 1 + 1, hcp⟩ :=
              List.getD_eq_getElem heap ni hcp
            refine ⟨hrec.1, ?_, ?_⟩
            · rw [hrec.2.1]
              simp
            · refine hrec.2.2.trans ?_
              rw [hget]
              exact set_transpose_perm heap pos _ ni (by split <;> omega) hpos hcp
        · rw [if_neg hr] at h
          have hcp : 2 * pos + 1 < heap.length := hc
          have hrec := siftupLoop_spec ops ni f
            (heap.set pos (heap.getD (2 * pos + 1) ni)) (2 * pos + 1)
            (by simpa using hcp) l' p' h
          have hget : heap.getD (2 * pos + 1) ni = heap.get ⟨2 * pos + 1, hcp⟩ :=
            List.getD_eq_getElem heap ni hcp
          refine ⟨hrec.1, ?_, ?_⟩
          · rw [hrec.2.1]
            simp
          · refine hrec.2.2.trans ?_
            rw [hget]
            exact set_transpose_perm heap pos _ ni (by omega) hpos hcp
      · rw [if_neg hc] at h
        cases h
        refine ⟨by simpa using hpos, by simp, ?_⟩
        rw [List.set_set]

/-- A successful `heappush` holds exactly the old elements plus the new
item. -/
theorem heappush_perm (ops : BBOps α σ) (heap : List (ℕ × α)) (item : ℕ × α)
    (l' : List (ℕ × α)) (h : heappush ops heap item = Except.ok l') :
    List.Perm l' (item :: heap) := by
  have hpos : heap.length < (heap ++ [item]).length := by simp
  have hperm := siftdownLoop_perm ops item 0 heap.length (heap ++ [item])
    heap.length hpos l' h
  rw [set_concat_length] at hperm
  exact hperm.trans (List.perm_append_singleton item heap)

/-- A successful `heappop` returns one stored element and a heap holding
exactly the remaining ones. -/
theorem heappop_perm (ops : BBOps α σ) (heap : List (ℕ × α)) (x : ℕ × α)
    (l' : List (ℕ × α)) (h : heappop ops heap = Except.ok (x, l')) :
    List.Perm heap (x :: l') := by
  rw [heappop] at h
  split at h
  · cases h
  · rename_i lastelt hlast
    have hne : heap ≠ [] := by
      intro he
      rw [he] at hlast
      cases hlast
    have hlasteq : heap.getLast hne = lastelt := by
      have h0 := List.getLast?_eq_getLast heap hne
      rw [hlast] at h0
      exact (Option.some.injEq _ _).mp h0.symm
    have hdecomp : heap.dropLast ++ [lastelt] = heap := by
      rw [← hlasteq]
      exact List.dropLast_append_getLast hne
    split at h
    · rename_i hdl
      cases h
      rw [← hdecomp, hdl]
      exact List.Perm.refl _
    · rename_i r0 tail hdl
      split at h
      · cases h
      · rename_i r h2 p' hsu
        split at h
        · cases h
        · rename_i h3 hsd
          cases h
          have hlen1 : 0 < ((heap.dropLast).set 0 lastelt).length := by
            rw [hdl]
            simp
          have hspec := siftupLoop_spec ops lastelt
            ((heap.dropLast).set 0 lastelt).length
            ((heap.dropLast).set 0 lastelt) 0 hlen1 h2 p' hsu
          have hperm3 : List.Perm l' (h2.set p' lastelt) :=
            siftdownLoop_perm ops lastelt 0 p' h2 p' hspec.1 l' hsd
          have hperm2 : List.Perm (h2.set p' lastelt) ((heap.dropLast).set 0 lastelt) := by
            have hx := hspec.2.2
            rwa [List.set_set] at hx
          have hperm5 : List.Perm l' (lastelt :: tail) := by
            have hx := hperm3.trans hperm2
            rw [hdl] at hx
            exact hx
          have hheap : heap = (x :: tail) ++ [lastelt] := by
            rw [← hdl]
            exact hdecomp.symm
          rw [hheap]
          exact (List.Perm.cons x (List.perm_append_singleton lastelt tail)).trans
            (List.Perm.cons x hperm5.symm)



/-!
Characterization lemmas for the comparison helpers and the promise/better
tests, in direction-generic form (`d = true` is maximization).
-/

/-- A successful Python `>` means both operands were numbers. -/
theorem cmpGT_ok (x y : Option ℚ) (b : Bool) (h : cmpGT x y = Except.ok b) :
    ∃ u v, x = some u ∧ y = some v ∧ b = decide (u > v) := by
  cases x with
  | none => cases h
  | some u =>
    cases y with
    | none => cases h
    | some v =>
      refine ⟨u, v, rfl, rfl, ?_⟩
      have h2 := h
      simp only [cmpGT] at h2
      exact ((Except.ok.injEq _ _).mp h2).symm

/-- A successful Python `<` means both operands were numbers. -/
theorem cmpLT_ok (x y : Option ℚ) (b : Bool) (h : cmpLT x y = Except.ok b) :
    ∃ u v, x = some u ∧ y = some v ∧ b = decide (u < v) := by
  cases x with
  | none => cases h
  | some u =>
    cases y with
    | none => cases h
    | some v =>
      refine ⟨u, v, rfl, rfl, ?_⟩
      have h2 := h
      simp only [cmpLT] at h2
      exact ((Except.ok.injEq _ _).mp h2).symm

/-- What a successful non-aliased `isPromising` tells us: the returned
state is `self` with its direction bound computed if unset, and the
boolean says whether that bound strictly beats the incumbent's
heuristic-side bound. -/
theorem isPromising_ok (ops : BBOps α σ) (d : Bool) (self current : α)
    (b : Bool) (s' : α) (hd : ops.isMax self = d)
    (h : isPromising ops self current = Except.ok (b, s')) :
    s' = (if d then (if ops.isUpperBoundSet self then self else ops.calcUpperBound self)
          else (if ops.isLowerBoundSet self then self else ops.calcLowerBound self)) ∧
    ∃ u v, dirBound ops d s' = some u ∧ heurBound ops d current = some v ∧
      (b = true ↔ (if d then v < u else u < v)) := by
  cases d with
  | true =>
    rw [isPromising, hd] at h
    rw [if_pos rfl] at h
    cases hcmp : cmpGT
        (ops.getUpperBound (if ops.isUpperBoundSet self then self else ops.calcUpperBound self))
        (ops.getLowerBound current) with
    | error e => rw [hcmp] at h; cases h
    | ok bb =>
      rw [hcmp] at h
      cases h
      obtain ⟨u, v, hu, hv, hb⟩ := cmpGT_ok _ _ _ hcmp
      refine ⟨rfl, u, v, ?_, ?_, ?_⟩
      · simpa [dirBound] using hu
      · simpa [heurBound] using hv
      · subst hb
        simp [gt_iff_lt]
  | false =>
    rw [isPromising, hd] at h
    rw [if_neg (by simp)] at h
    cases hcmp : cmpLT
        (ops.getLowerBound (if ops.isLowerBoundSet self then self else ops.calcLowerBound self))
        (ops.getUpperBound current) with
    | error e => rw [hcmp] at h; cases h
    | ok bb =>
      rw [hcmp] at h
      cases h
      obtain ⟨u, v, hu, hv, hb⟩ := cmpLT_ok _ _ _ hcmp
      refine ⟨rfl, u, v, ?_, ?_, ?_⟩
      · simpa [dirBound] using hu
      · simpa [heurBound] using hv
      · subst hb
        simp

/-- What a successful aliased `isPromising` (incumbent = candidate) tells
us: both bounds are read from the mutated candidate itself. -/
theorem isPromisingSelf_ok (ops : BBOps α σ) (d : Bool) (self : α)
    (b : Bool) (s' : α) (hd : ops.isMax self = d)
    (h : isPromisingSelf ops self = Except.ok (b, s')) :
    s' = (if d then (if ops.isUpperBoundSet self then self else ops.calcUpperBound self)
          else (if ops.isLowerBoundSet self then self else ops.calcLowerBound self)) ∧
    ∃ u v, dirBound ops d s' = some u ∧ heurBound ops d s' = some v ∧
      (b = true ↔ (if d then v < u else u < v)) := by
  cases d with
  | true =>
    rw [isPromisingSelf, hd] at h
    rw [if_pos rfl] at h
    cases hcmp : cmpGT
        (ops.getUpperBound (if ops.isUpperBoundSet self then self else ops.calcUpperBound self))
        (ops.getLowerBound (if ops.isUpperBoundSet self then self else ops.calcUpperBound self)) with
    | error e => rw [hcmp] at h; cases h
    | ok bb =>
      rw [hcmp] at h
      cases h
      obtain ⟨u, v, hu, hv, hb⟩ := cmpGT_ok _ _ _ hcmp
      refine ⟨rfl, u, v, ?_, ?_, ?_⟩
      · simpa [dirBound] using hu
      · simpa [heurBound] using hv
      · subst hb
        simp [gt_iff_lt]
  | false =>
    rw [isPromisingSelf, hd] at h
    rw [if_neg (by simp)] at h
    cases hcmp : cmpLT
        (ops.getLowerBound (if ops.isLowerBoundSet self then self else ops.calcLowerBound self))
        (ops.getUpperBound (if ops.isLowerBoundSet self then self else ops.calcLowerBound self)) with
    | error e => rw [hcmp] at h; cases h
    | ok bb =>
      rw [hcmp] at h
      cases h
      obtain ⟨u, v, hu, hv, hb⟩ := cmpLT_ok _ _ _ hcmp
      refine ⟨rfl, u, v, ?_, ?_, ?_⟩
      · simpa [dirBound] using hu
      · simpa [heurBound] using hv
      · subst hb
        simp

/-- What a successful non-aliased `isBetterThen` tells us: the returned
state is `self` with its heuristic-side bound computed if unset, and the
boolean compares it strictly against the incumbent's. -/
theorem isBetterThen_ok (ops : BBOps α σ) (d : Bool) (self current : α)
    (b : Bool) (s' : α) (hd : ops.isMax self = d)
    (h : isBetterThen ops self current = Except.ok (b, s')) :
    s' = (if d then (if ops.isLowerBoundSet self then self else ops.calcLowerBound self)
          else (if ops.isUpperBoundSet self then self else ops.calcUpperBound self)) ∧
    ∃ u v, heurBound ops d s' = some u ∧ heurBound ops d current = some v ∧
      (b = true ↔ (if d then v < u else u < v)) := by
  cases d with
  | true =>
    rw [isBetterThen, hd] at h
    rw [if_pos rfl] at h
    cases hcmp : cmpGT
        (ops.getLowerBound (if ops.isLowerBoundSet self then self else ops.calcLowerBound self))
        (ops.getLowerBound current) with
    | error e => rw [hcmp] at h; cases h
    | ok bb =>
      rw [hcmp] at h
      cases h
      obtain ⟨u, v, hu, hv, hb⟩ := cmpGT_ok _ _ _ hcmp
      refine ⟨rfl, u, v, ?_, ?_, ?_⟩
      · simpa [heurBound] using hu
      · simpa [heurBound] using hv
      · subst hb
        simp [gt_iff_lt]
  | false =>
    rw [isBetterThen, hd] at h
    rw [if_neg (by simp)] at h
    cases hcmp : cmpLT
        (ops.getUpperBound (if ops.isUpperBoundSet self then self else ops.calcUpperBound self))
        (ops.getUpperBound current) with
    | error e => rw [hcmp] at h; cases h
    | ok bb =>
      rw [hcmp] at h
      cases h
      obtain ⟨u, v, hu, hv, hb⟩ := cmpLT_ok _ _ _ hcmp
      refine ⟨rfl, u, v, ?_, ?_, ?_⟩
      · simpa [heurBound] using hu
      · simpa [heurBound] using hv
      · subst hb
        simp

/-- An aliased `isBetterThen` whose subject already carries its
heuristic-side bound mutates nothing and always answers `false` (a strict
comparison of a value with itself). -/
theorem isBetterThenSelf_noCalc (ops : BBOps α σ) (d : Bool) (self : α)
    (hc : EngineContract ops d)
    (hset : (heurBound ops d self).isSome = true)
    (b : Bool) (s' : α)
    (h : isBetterThenSelf ops self = Except.ok (b, s')) :
    s' = self ∧ b = false := by
  cases d with
  | true =>
    have hlb : ops.isLowerBoundSet self = true := by
      rw [hc.lbSet_iff]
      simpa [heurBound] using hset
    rw [isBetterThenSelf, hc.dir self] at h
    rw [if_pos rfl, if_pos hlb] at h
    cases hcmp : cmpGT (ops.getLowerBound self) (ops.getLowerBound self) with
    | error e => rw [hcmp] at h; cases h
    | ok bb =>
      rw [hcmp] at h
      cases h
      obtain ⟨u, v, hu, hv, hb⟩ := cmpGT_ok _ _ _ hcmp
      have huv : u = v := by
        rw [hu] at hv
        exact (Option.some.injEq _ _).mp hv
      subst hb
      subst huv
      simp
  | false =>
    have hub : ops.isUpperBoundSet self = true := by
      rw [hc.ubSet_iff]
      simpa [heurBound] using hset
    rw [isBetterThenSelf, hc.dir self] at h
    rw [if_neg (by simp)] at h
    rw [if_pos hub] at h
    cases hcmp : cmpLT (ops.getUpperBound self) (ops.getUpperBound self) with
    | error e => rw [hcmp] at h; cases h
    | ok bb =>
      rw [hcmp] at h
      cases h
      obtain ⟨u, v, hu, hv, hb⟩ := cmpLT_ok _ _ _ hcmp
      have huv : u = v := by
        rw [hu] at hv
        exact (Option.some.injEq _ _).mp hv
      subst hb
      subst huv
      simp

/-- Emptiness of an `InstanceSet` is emptiness of its contents. -/
theorem isEmpty_contents (fr : InstanceSet α) :
    fr.isEmpty = fr.contents.isEmpty := by
  cases fr <;> rfl

/-- A successful `getNextInstance` removes exactly one stored element. -/
theorem getNextInstance_perm (ops : BBOps α σ) (fr fr' : InstanceSet α)
    (x : ℕ × α) (h : fr.getNextInstance ops = Except.ok (x, fr')) :
    List.Perm fr.contents (x :: fr'.contents) := by
  cases fr with
  | best_first l =>
    rw [InstanceSet.getNextInstance] at h
    cases hp : heappop ops l with
    | error e => rw [hp] at h; cases h
    | ok r =>
      obtain ⟨y, l2⟩ := r
      rw [hp] at h
      cases h
      exact heappop_perm ops l x l2 hp
  | depth_first l =>
    cases l with
    | nil => rw [InstanceSet.getNextInstance] at h; cases h
    | cons a rest =>
      rw [InstanceSet.getNextInstance] at h
      cases h
      exact List.Perm.refl _
  | breath_first l =>
    cases l with
    | nil => rw [InstanceSet.getNextInstance] at h; cases h
    | cons a rest =>
      rw [InstanceSet.getNextInstance] at h
      cases h
      exact List.Perm.refl _

/-- A successful `addInstance` adds exactly the new element. -/
theorem addInstance_perm (ops : BBOps α σ) (fr fr' : InstanceSet α)
    (x : ℕ × α) (h : fr.addInstance ops x = Except.ok fr') :
    List.Perm fr'.contents (x :: fr.contents) := by
  cases fr with
  | best_first l =>
    rw [InstanceSet.addInstance] at h
    cases hp : heappush ops l x with
    | error e => rw [hp] at h; cases h
    | ok l2 =>
      rw [hp] at h
      cases h
      exact heappush_perm ops l x l2 hp
  | depth_first l =>
    rw [InstanceSet.addInstance] at h
    cases h
    exact List.Perm.refl _
  | breath_first l =>
    rw [InstanceSet.addInstance] at h
    cases h
    exact List.perm_append_singleton x l

/-- The inner child-pushing loop: ids only grow, old entries survive, new
entries carry fresh ids, and id-hygiene (distinctness, upper bound by the
counter) is preserved. -/
theorem pushChildren_spec (ops : BBOps α σ) (best : α) :
    ∀ (cs : List α) (fr : InstanceSet α) (nid : ℕ) (fr' : InstanceSet α)
      (nid' : ℕ), pushChildren ops best cs fr nid = Except.ok (fr', nid') →
      (∀ x ∈ fr.contents, x.1 < nid) →
      (fr.contents.map Prod.fst).Nodup →
      nid ≤ nid' ∧
      (∀ x ∈ fr'.contents, x ∈ fr.contents ∨ nid ≤ x.1) ∧
      (∀ x ∈ fr.contents, x ∈ fr'.contents) ∧
      (∀ x ∈ fr'.contents, x.1 < nid') ∧
      (fr'.contents.map Prod.fst).Nodup
  | [], fr, nid, fr', nid', h, hlt, hnd => by
    rw [pushChildren] at h
    cases h
    exact ⟨le_refl _, fun x hx => Or.inl hx, fun x hx => hx, hlt, hnd⟩
  | c :: rest, fr, nid, fr', nid', h, hlt, hnd => by
    rw [pushChildren] at h
    split at h
    · cases h
    · rename_i c' hpr
      split at h
      · cases h
      · rename_i fr2 hadd
        have hperm := addInstance_perm ops fr fr2 (nid, c') hadd
        have hlt2 : ∀ x ∈ fr2.contents, x.1 < nid + 1 := by
          intro x hx
          have hx' : x ∈ (nid, c') :: fr.contents := hperm.mem_iff.mp hx
          cases hx' with
          | head => exact Nat.lt_succ_self _
          | tail _ hx'' => exact Nat.lt_succ_of_lt (hlt x hx'')
        have hnd2 : (fr2.contents.map Prod.fst).Nodup := by
          have hpm : List.Perm (fr2.contents.map Prod.fst)
              (nid :: fr.contents.map Prod.fst) := hperm.map Prod.fst
          rw [hpm.nodup_iff]
          refine List.nodup_cons.mpr ⟨?_, hnd⟩
          intro hmem
          obtain ⟨y, hy, hyeq⟩ := List.mem_map.mp hmem
          have := hlt y hy
          omega
        have hrec := pushChildren_spec ops best rest fr2 (nid + 1) fr' nid' h hlt2 hnd2
        refine ⟨le_trans (Nat.le_succ _) hrec.1, ?_, ?_, hrec.2.2.2⟩
        · intro x hx
          cases hrec.2.1 x hx with
          | inl hin =>
            have hx' : x ∈ (nid, c') :: fr.contents := hperm.mem_iff.mp hin
            cases hx' with
            | head => exact Or.inr (le_refl _)
            | tail _ hx'' => exact Or.inl hx''
          | inr hge => exact Or.inr (le_trans (Nat.le_succ _) hge)
        · intro x hx
          exact hrec.2.2.1 x (hperm.mem_iff.mpr (List.mem_cons_of_mem _ hx))
    · exact pushChildren_spec ops best rest fr nid fr' nid' h hlt hnd

/-- Complete case description of a successful engine iteration: the popped
candidate, the promise tests actually performed (aliased against the
incumbent exactly when the ids coincide), the optional incumbent update,
and the resulting state in each of the three exit shapes (pruned after the
first test, pruned after the second test, or branched). -/
theorem solveStep_cases (ops : BBOps α σ) (s s' : BBState α)
    (h : solveStep ops s = Except.ok s') :
    ∃ iid I fr1 p1 I1,
      s.frontier.getNextInstance ops = Except.ok ((iid, I), fr1) ∧
      (if iid == s.best.1 then isPromisingSelf ops I
       else isPromising ops I s.best.2) = Except.ok (p1, I1) ∧
      ((p1 = false ∧
        s' = BBState.mk fr1 (s.best.1, if iid == s.best.1 then I1 else s.best.2)
          s.branch_c (s.iter_c + 1) s.nextId) ∨
       (p1 = true ∧ ∃ bt I2 p2 I3,
        (if iid == s.best.1 then isBetterThenSelf ops I1
         else isBetterThen ops I1 s.best.2) = Except.ok (bt, I2) ∧
        (if bt || (iid == s.best.1) then isPromisingSelf ops I2
         else isPromising ops I2 s.best.2) = Except.ok (p2, I3) ∧
        ((p2 = false ∧
          s' = BBState.mk fr1 ((if bt then iid else s.best.1),
            if bt || (iid == s.best.1) then I3 else s.best.2)
            s.branch_c (s.iter_c + 1) s.nextId) ∨
         (p2 = true ∧ ∃ subs fr2 nid,
          ops.branch I3 = Except.ok subs ∧
          pushChildren ops (if bt || (iid == s.best.1) then I3 else s.best.2)
            subs fr1 s.nextId = Except.ok (fr2, nid) ∧
          s' = BBState.mk fr2 ((if bt then iid else s.best.1),
            if bt || (iid == s.best.1) then I3 else s.best.2)
            (s.branch_c + 1) (s.iter_c + 1) nid)))) := by
  rw [solveStep] at h
  cases hpop : s.frontier.getNextInstance ops with
  | error e => rw [hpop] at h; cases h
  | ok r =>
    obtain ⟨⟨iid, I⟩, fr1⟩ := r
    rw [hpop] at h
    refine ⟨iid, I, fr1, ?_⟩
    by_cases hA : (iid == s.best.1) = true
    · simp only [hA, if_true, Bool.or_true] at h ⊢
      cases h1 : isPromisingSelf ops I with
      | error e => rw [h1] at h; cases h
      | ok r1 =>
        obtain ⟨p1, I1⟩ := r1
        simp only [h1] at h
        refine ⟨p1, I1, trivial, rfl, ?_⟩
        cases p1 with
        | false =>
          simp only [Bool.false_eq_true, if_false] at h
          cases h
          exact Or.inl ⟨rfl, rfl⟩
        | true =>
          simp only [if_true] at h
          refine Or.inr ⟨rfl, ?_⟩
          cases h2 : isBetterThenSelf ops I1 with
          | error e => rw [h2] at h; cases h
          | ok r2 =>
            obtain ⟨bt, I2⟩ := r2
            simp only [h2, Bool.or_true, if_true] at h
            cases h3 : isPromisingSelf ops I2 with
            | error e => rw [h3] at h; cases h
            | ok r3 =>
              obtain ⟨p2, I3⟩ := r3
              simp only [h3] at h
              refine ⟨bt, I2, p2, I3, rfl, h3, ?_⟩
              cases p2 with
              | false =>
                simp only [Bool.false_eq_true, if_false] at h
                cases h
                exact Or.inl ⟨rfl, rfl⟩
              | true =>
                simp only [if_true] at h
                refine Or.inr ⟨rfl, ?_⟩
                cases h4 : ops.branch I3 with
                | error e => rw [h4] at h; cases h
                | ok subs =>
                  simp only [h4] at h
                  cases h5 : pushChildren ops I3 subs fr1 s.nextId with
                  | error e => rw [h5] at h; cases h
                  | ok r5 =>
                    obtain ⟨fr2, nid⟩ := r5
                    simp only [h5] at h
                    cases h
                    exact ⟨subs, fr2, nid, rfl, h5, rfl⟩
    · have hA2 : (iid == s.best.1) = false := Bool.eq_false_iff.mpr hA
      simp only [hA2, Bool.false_eq_true, if_false, Bool.or_false] at h ⊢
      cases h1 : isPromising ops I s.best.2 with
      | error e => rw [h1] at h; cases h
      | ok r1 =>
        obtain ⟨p1, I1⟩ := r1
        simp only [h1] at h
        refine ⟨p1, I1, trivial, rfl, ?_⟩
        cases p1 with
        | false =>
          simp only [Bool.false_eq_true, if_false] at h
          cases h
          exact Or.inl ⟨rfl, rfl⟩
        | true =>
          simp only [if_true] at h
          refine Or.inr ⟨rfl, ?_⟩
          cases h2 : isBetterThen ops I1 s.best.2 with
          | error e => rw [h2] at h; cases h
          | ok r2 =>
            obtain ⟨bt, I2⟩ := r2
            simp only [h2] at h
            cases bt with
            | false =>
              simp only [Bool.false_eq_true, if_false] at h
              cases h3 : isPromising ops I2 s.best.2 with
              | error e => rw [h3] at h; cases h
              | ok r3 =>
                obtain ⟨p2, I3⟩ := r3
                simp only [h3] at h
                refine ⟨false, I2, p2, I3, rfl, h3, ?_⟩
                cases p2 with
                | false =>
                  simp only [Bool.false_eq_true, if_false] at h
                  cases h
                  exact Or.inl ⟨rfl, rfl⟩
                | true =>
                  simp only [if_true] at h
                  refine Or.inr ⟨rfl, ?_⟩
                  cases h4 : ops.branch I3 with
                  | error e => rw [h4] at h; cases h
                  | ok subs =>
                    simp only [h4] at h
                    cases h5 : pushChildren ops s.best.2 subs fr1 s.nextId with
                    | error e => rw [h5] at h; cases h
                    | ok r5 =>
                      obtain ⟨fr2, nid⟩ := r5
                      simp only [h5] at h
                      cases h
                      exact ⟨subs, fr2, nid, rfl, h5, rfl⟩
            | true =>
              simp only [if_true] at h
              cases h3 : isPromisingSelf ops I2 with
              | error e => rw [h3] at h; cases h
              | ok r3 =>
                obtain ⟨p2, I3⟩ := r3
                simp only [h3] at h
                refine ⟨true, I2, p2, I3, rfl, h3, ?_⟩
                cases p2 with
                | false =>
                  simp only [Bool.false_eq_true, if_false] at h
                  cases h
                  exact Or.inl ⟨rfl, rfl⟩
                | true =>
                  simp only [if_true] at h
                  refine Or.inr ⟨rfl, ?_⟩
                  cases h4 : ops.branch I3 with
                  | error e => rw [h4] at h; cases h
                  | ok subs =>
                    simp only [h4] at h
                    cases h5 : pushChildren ops I3 subs fr1 s.nextId with
                    | error e => rw [h5] at h; cases h
                    | ok r5 =>
                      obtain ⟨fr2, nid⟩ := r5
                      simp only [h5] at h
                      cases h
                      exact ⟨subs, fr2, nid, rfl, h5, rfl⟩

/-- Under the contract, the promise test's mutation (computing the
direction bound) does not disturb the heuristic-side bound. -/
theorem isPromising_pres_heur (ops : BBOps α σ) (d : Bool)
    (hc : EngineContract ops d) (self current : α) (b : Bool) (s' : α)
    (h : isPromising ops self current = Except.ok (b, s')) :
    heurBound ops d s' = heurBound ops d self := by
  obtain ⟨hs, -⟩ := isPromising_ok ops d self current b s' (hc.dir self) h
  subst hs
  cases d with
  | true =>
    by_cases hset : ops.isUpperBoundSet self = true
    · simp [hset]
    · simp [hset, heurBound, hc.calcUB_pres_lb]
  | false =>
    by_cases hset : ops.isLowerBoundSet self = true
    · simp [hset]
    · simp [hset, heurBound, hc.calcLB_pres_ub]

/-- Same for the aliased promise test. -/
theorem isPromisingSelf_pres_heur (ops : BBOps α σ) (d : Bool)
    (hc : EngineContract ops d) (self : α) (b : Bool) (s' : α)
    (h : isPromisingSelf ops self = Except.ok (b, s')) :
    heurBound ops d s' = heurBound ops d self := by
  obtain ⟨hs, -⟩ := isPromisingSelf_ok ops d self b s' (hc.dir self) h
  subst hs
  cases d with
  | true =>
    by_cases hset : ops.isUpperBoundSet self = true
    · simp [hset]
    · simp [hset, heurBound, hc.calcUB_pres_lb]
  | false =>
    by_cases hset : ops.isLowerBoundSet self = true
    · simp [hset]
    · simp [hset, heurBound, hc.calcLB_pres_ub]

/-- `dle` is reflexive. -/
theorem dle_refl (d : Bool) (x : ℚ) : dle d x x := by
  cases d <;> simp [dle]

/-- Strictly better implies at least as good. -/
theorem dle_of_strict (d : Bool) (x y : ℚ)
    (h : if d then x < y else y < x) : dle d x y := by
  cases d <;> simp [dle] <;> simp at h <;> exact le_of_lt h

/-- One successful engine iteration preserves state well-formedness, keeps
the incumbent's heuristic-side bound set, never shrinks the fresh-id
counter, and never worsens the incumbent's value. -/
theorem solveStep_mono (ops : BBOps α σ) (d : Bool) (hc : EngineContract ops d)
    (s s' : BBState α) (hwf : StateWF s)
    (hb : (heurBound ops d s.best.2).isSome = true)
    (h : solveStep ops s = Except.ok s') :
    StateWF s' ∧ (heurBound ops d s'.best.2).isSome = true ∧
    s.nextId ≤ s'.nextId ∧
    (∀ x, heurBound ops d s.best.2 = some x →
      ∃ y, heurBound ops d s'.best.2 = some y ∧ dle d x y) := by
  obtain ⟨iid, I, fr1, p1, I1, hpop, hpr, hrest⟩ := solveStep_cases ops s s' h
  have hperm := getNextInstance_perm ops s.frontier fr1 (iid, I) hpop
  have hmem_pop : (iid, I) ∈ s.frontier.contents :=
    hperm.mem_iff.mpr (List.mem_cons_self _ _)
  have hnodup_cons : ((iid, I) :: fr1.contents).Nodup ∨ True := Or.inr trivial
  have hnd0 : (iid :: fr1.contents.map Prod.fst).Nodup := by
    have hpm : List.Perm (s.frontier.contents.map Prod.fst)
        (iid :: fr1.contents.map Prod.fst) := hperm.map Prod.fst
    exact hpm.nodup_iff.mp hwf.nodupIds
  have hnd1 : (fr1.contents.map Prod.fst).Nodup := (List.nodup_cons.mp hnd0).2
  have hiid_notin : iid ∉ fr1.contents.map Prod.fst := (List.nodup_cons.mp hnd0).1
  have hlt1 : ∀ x ∈ fr1.contents, x.1 < s.nextId := fun x hx =>
    hwf.idsLt x (hperm.mem_iff.mpr (List.mem_cons_of_mem _ hx))
  have halias1 : ∀ x ∈ fr1.contents, x.1 = s.best.1 → x.2 = s.best.2 := fun x hx =>
    hwf.aliasOK x (hperm.mem_iff.mpr (List.mem_cons_of_mem _ hx))
  have hiidlt : iid < s.nextId := hwf.idsLt (iid, I) hmem_pop
  by_cases hA : (iid == s.best.1) = true
  · -- the popped candidate is the incumbent object
    have hiid : iid = s.best.1 := by simpa using hA
    have hIbest : I = s.best.2 := hwf.aliasOK (iid, I) hmem_pop hiid
    have hnotin : ∀ x ∈ fr1.contents, x.1 ≠ s.best.1 := by
      intro x hx hxeq
      exact hiid_notin (by
        rw [hiid, ← hxeq]
        exact List.mem_map_of_mem Prod.fst hx)
    simp only [hA, if_true, Bool.or_true] at hpr hrest
    have hpres1 : heurBound ops d I1 = heurBound ops d s.best.2 := by
      rw [isPromisingSelf_pres_heur ops d hc I p1 I1 hpr, hIbest]
    rcases hrest with ⟨hp1, hs'⟩ | ⟨hp1, bt, I2, p2, I3, hbt, hpr2, hrest2⟩
    · subst hs'
      refine ⟨⟨hnd1, hlt1, hwf.bestLt, ?_⟩, ?_, le_refl _, ?_⟩
      · intro x hx hxeq
        exact absurd hxeq (hnotin x hx)
      · simpa [hpres1] using hb
      · intro x hx
        exact ⟨x, by simpa [hpres1] using hx, dle_refl d x⟩
    · have hset1 : (heurBound ops d I1).isSome = true := by
        rw [hpres1]
        exact hb
      obtain ⟨hI2, hbtf⟩ := isBetterThenSelf_noCalc ops d I1 hc hset1 bt I2 hbt
      subst hbtf
      rw [hI2] at hpr2
      simp only [Bool.false_eq_true, if_false] at hrest2
      have hpres2 : heurBound ops d I3 = heurBound ops d s.best.2 := by
        rw [isPromisingSelf_pres_heur ops d hc I1 p2 I3 hpr2, hpres1]
      rcases hrest2 with ⟨hp2, hs'⟩ | ⟨hp2, subs, fr2, nid, hbr, hpush, hs'⟩
      · subst hs'
        refine ⟨⟨hnd1, hlt1, hwf.bestLt, ?_⟩, ?_, le_refl _, ?_⟩
        · intro x hx hxeq
          exact absurd hxeq (hnotin x hx)
        · simpa [hpres2] using hb
        · intro x hx
          exact ⟨x, by simpa [hpres2] using hx, dle_refl d x⟩
      · subst hs'
        obtain ⟨hnid, hold, hkeep, hltn, hndn⟩ :=
          pushChildren_spec ops I3 subs fr1 s.nextId fr2 nid hpush hlt1 hnd1
        refine ⟨⟨hndn, hltn, lt_of_lt_of_le hwf.bestLt hnid, ?_⟩, ?_, hnid, ?_⟩
        · intro x hx hxeq
          cases hold x hx with
          | inl hin => exact absurd hxeq (hnotin x hin)
          | inr hge =>
            have hcontra : x.1 ≠ s.best.1 := by
              have hb1 := hwf.bestLt
              omega
            exact absurd hxeq hcontra
        · simpa [hpres2] using hb
        · intro x hx
          exact ⟨x, by simpa [hpres2] using hx, dle_refl d x⟩
  · -- the popped candidate is a different object than the incumbent
    have hA2 : (iid == s.best.1) = false := Bool.eq_false_iff.mpr hA
    have hiid : iid ≠ s.best.1 := by simpa using hA2
    simp only [hA2, Bool.false_eq_true, if_false, Bool.or_false] at hpr hrest
    rcases hrest with ⟨hp1, hs'⟩ | ⟨hp1, bt, I2, p2, I3, hbt, hpr2, hrest2⟩
    · subst hs'
      exact ⟨⟨hnd1, hlt1, hwf.bestLt, halias1⟩, hb, le_refl _,
        fun x hx => ⟨x, hx, dle_refl d x⟩⟩
    · cases bt with
      | false =>
        simp only [Bool.false_eq_true, if_false] at hrest2
        rcases hrest2 with ⟨hp2, hs'⟩ | ⟨hp2, subs, fr2, nid, hbr, hpush, hs'⟩
        · subst hs'
          exact ⟨⟨hnd1, hlt1, hwf.bestLt, halias1⟩, hb, le_refl _,
            fun x hx => ⟨x, hx, dle_refl d x⟩⟩
        · subst hs'
          obtain ⟨hnid, hold, hkeep, hltn, hndn⟩ :=
            pushChildren_spec ops s.best.2 subs fr1 s.nextId fr2 nid hpush hlt1 hnd1
          refine ⟨⟨hndn, hltn, lt_of_lt_of_le hwf.bestLt hnid, ?_⟩, hb, hnid,
            fun x hx => ⟨x, hx, dle_refl d x⟩⟩
          intro x hx hxeq
          cases hold x hx with
          | inl hin => exact halias1 x hin hxeq
          | inr hge =>
            have hcontra : x.1 ≠ s.best.1 := by
              have hb1 := hwf.bestLt
              omega
            exact absurd hxeq hcontra
      | true =>
        simp only [if_true, Bool.true_or] at hrest2 hpr2
        obtain ⟨-, u, v, hu, hv, hstrict⟩ :=
          isBetterThen_ok ops d I1 s.best.2 true I2 (hc.dir I1) hbt
        have hlt_uv : if d then v < u else u < v := hstrict.mp rfl
        have hpres2 : heurBound ops d I3 = heurBound ops d I2 :=
          isPromisingSelf_pres_heur ops d hc I2 p2 I3 hpr2
        have hI3u : heurBound ops d I3 = some u := by rw [hpres2, hu]
        have haliasNew : ∀ (fr' : InstanceSet α), (∀ x ∈ fr'.contents, x ∈ fr1.contents ∨ s.nextId ≤ x.1) →
            ∀ x ∈ fr'.contents, x.1 = iid → x.2 = I3 := by
          intro fr' hsub x hx hxeq
          cases hsub x hx with
          | inl hin =>
            exact absurd hxeq (by
              intro hxeq'
              exact hiid_notin (by
                rw [← hxeq']
                exact List.mem_map_of_mem Prod.fst hin))
          | inr hge =>
            exact absurd hxeq (by
              intro hxeq'
              omega)
        rcases hrest2 with ⟨hp2, hs'⟩ | ⟨hp2, subs, fr2, nid, hbr, hpush, hs'⟩
        · subst hs'
          refine ⟨⟨hnd1, hlt1, hiidlt, ?_⟩, ?_, le_refl _, ?_⟩
          · exact haliasNew fr1 (fun x hx => Or.inl hx)
          · simp [hI3u]
          · intro x hx
            have hxv : x = v := by
              rw [hv] at hx
              exact ((Option.some.injEq _ _).mp hx).symm
            subst hxv
            exact ⟨u, hI3u, dle_of_strict d x u hlt_uv⟩
        · subst hs'
          obtain ⟨hnid, hold, hkeep, hltn, hndn⟩ :=
            pushChildren_spec ops I3 subs fr1 s.nextId fr2 nid hpush hlt1 hnd1
          refine ⟨⟨hndn, hltn, lt_of_lt_of_le hiidlt hnid, ?_⟩, ?_, hnid, ?_⟩
          · exact haliasNew fr2 hold
          · simp [hI3u]
          · intro x hx
            have hxv : x = v := by
              rw [hv] at hx
              exact ((Option.some.injEq _ _).mp hx).symm
            subst hxv
            exact ⟨u, hI3u, dle_of_strict d x u hlt_uv⟩

/-- `dle` is transitive. -/
theorem dle_trans (d : Bool) {x y z : ℚ} (h1 : dle d x y) (h2 : dle d y z) :
    dle d x z := by
  cases d
  · simp [dle] at *
    exact le_trans h2 h1
  · simp [dle] at *
    exact le_trans h1 h2

/-- The loop guard is monotone in the budget order. -/
theorem loopGuard_mono (b1 b2 : ℤ) (hb : budgetLE b1 b2) (s : BBState α)
    (h : loopGuard b1 s = true) : loopGuard b2 s = true := by
  simp only [loopGuard, Bool.and_eq_true, Bool.or_eq_true, decide_eq_true_eq,
    beq_iff_eq] at h ⊢
  refine ⟨h.1, ?_⟩
  rcases hb with hb | ⟨hne, hle⟩
  · exact Or.inr hb
  · rcases h.2 with hlt | he
    · exact Or.inl (lt_of_lt_of_le hlt hle)
    · exact absurd he hne

/-- Monotonicity and well-formedness along one whole run of the loop. -/
theorem solveLoop_mono (ops : BBOps α σ) (d : Bool) (hc : EngineContract ops d)
    (maxb : ℤ) :
    ∀ (fuel : ℕ) (s sF : BBState α), StateWF s →
      (heurBound ops d s.best.2).isSome = true →
      solveLoop ops maxb fuel s = Except.ok sF →
      StateWF sF ∧ (heurBound ops d sF.best.2).isSome = true ∧
      (∀ x, heurBound ops d s.best.2 = some x →
        ∃ y, heurBound ops d sF.best.2 = some y ∧ dle d x y)
  | 0, s, sF, hwf, hb, h => by
    rw [solveLoop] at h
    by_cases hg : loopGuard maxb s = true
    · rw [if_pos hg] at h
      cases h
    · rw [if_neg hg] at h
      cases h
      exact ⟨hwf, hb, fun x hx => ⟨x, hx, dle_refl d x⟩⟩
  | Nat.succ f, s, sF, hwf, hb, h => by
    rw [solveLoop] at h
    by_cases hg : loopGuard maxb s = true
    · rw [if_pos hg] at h
      cases hstep : solveStep ops s with
      | error e => rw [hstep] at h; cases h
      | ok s' =>
        rw [hstep] at h
        obtain ⟨hwf', hb', hnid', hmono'⟩ :=
          solveStep_mono ops d hc s s' hwf hb hstep
        obtain ⟨hwfF, hbF, hmonoF⟩ := solveLoop_mono ops d hc maxb f s' sF hwf' hb' h
        refine ⟨hwfF, hbF, ?_⟩
        intro x hx
        obtain ⟨y, hy, hxy⟩ := hmono' x hx
        obtain ⟨z, hz, hyz⟩ := hmonoF y hy
        exact ⟨z, hz, dle_trans d hxy hyz⟩
    · rw [if_neg hg] at h
      cases h
      exact ⟨hwf, hb, fun x hx => ⟨x, hx, dle_refl d x⟩⟩

/-- Two runs from the same state with nested budgets: the smaller-budget
run's final incumbent value is never better than the larger one's. -/
theorem solveLoop_budget_le (ops : BBOps α σ) (d : Bool)
    (hc : EngineContract ops d) (b1 b2 : ℤ) (hb : budgetLE b1 b2) :
    ∀ (fuel1 fuel2 : ℕ) (s s1 s2 : BBState α), StateWF s →
      (heurBound ops d s.best.2).isSome = true →
      solveLoop ops b1 fuel1 s = Except.ok s1 →
      solveLoop ops b2 fuel2 s = Except.ok s2 →
      ∀ x, heurBound ops d s1.best.2 = some x →
        ∃ y, heurBound ops d s2.best.2 = some y ∧ dle d x y
  | 0, fuel2, s, s1, s2, hwf, hbs, h1, h2 => by
    rw [solveLoop] at h1
    by_cases hg : loopGuard b1 s = true
    · rw [if_pos hg] at h1
      cases h1
    · rw [if_neg hg] at h1
      cases h1
      exact (solveLoop_mono ops d hc b2 fuel2 s s2 hwf hbs h2).2.2
  | Nat.succ f1, fuel2, s, s1, s2, hwf, hbs, h1, h2 => by
    rw [solveLoop] at h1
    by_cases hg : loopGuard b1 s = true
    · rw [if_pos hg] at h1
      cases hstep : solveStep ops s with
      | error e => rw [hstep] at h1; cases h1
      | ok s' =>
        rw [hstep] at h1
        have hg2 : loopGuard b2 s = true := loopGuard_mono b1 b2 hb s hg
        cases fuel2 with
        | zero =>
          rw [solveLoop, if_pos hg2] at h2
          cases h2
        | succ f2 =>
          rw [solveLoop, if_pos hg2, hstep] at h2
          obtain ⟨hwf', hb', hnid', hmono'⟩ :=
            solveStep_mono ops d hc s s' hwf hbs hstep
          exact solveLoop_budget_le ops d hc b1 b2 hb f1 f2 s' s1 s2 hwf' hb' h1 h2
    · rw [if_neg hg] at h1
      cases h1
      exact (solveLoop_mono ops d hc b2 fuel2 s s2 hwf hbs h2).2.2

/-- A successful `mkInstanceSet` stores exactly the (possibly mutated)
root, which is also the returned aliased incumbent. -/
theorem mkInstanceSet_ok_contents (ops : BBOps α σ) (inst : ℕ × α)
    (strategy : String) (iset : InstanceSet α) (a : α)
    (h : mkInstanceSet ops inst strategy = Except.ok (iset, a)) :
    iset.contents = [(inst.1, a)] := by
  rw [mkInstanceSet] at h
  split at h
  · have hp : heappush ops []
        (inst.1,
         if ops.isMax inst.2 then
           if ops.isUpperBoundSet inst.2 then inst.2 else ops.calcUpperBound inst.2
         else
           if ops.isLowerBoundSet inst.2 then inst.2 else ops.calcLowerBound inst.2) =
        Except.ok [(inst.1,
         if ops.isMax inst.2 then
           if ops.isUpperBoundSet inst.2 then inst.2 else ops.calcUpperBound inst.2
         else
           if ops.isLowerBoundSet inst.2 then inst.2 else ops.calcLowerBound inst.2)] := rfl
    rw [hp] at h
    cases h
    rfl
  · split at h
    · cases h
      rfl
    · split at h
      · cases h
        rfl
      · cases h

/-- A successful `mkInstanceSet` does not disturb the root's
heuristic-side bound. -/
theorem mkInstanceSet_heur (ops : BBOps α σ) (d : Bool)
    (hc : EngineContract ops d) (inst : ℕ × α) (strategy : String)
    (iset : InstanceSet α) (a : α)
    (h : mkInstanceSet ops inst strategy = Except.ok (iset, a)) :
    heurBound ops d a = heurBound ops d inst.2 := by
  rw [mkInstanceSet] at h
  split at h
  · have hp : heappush ops []
        (inst.1,
         if ops.isMax inst.2 then
           if ops.isUpperBoundSet inst.2 then inst.2 else ops.calcUpperBound inst.2
         else
           if ops.isLowerBoundSet inst.2 then inst.2 else ops.calcLowerBound inst.2) =
        Except.ok [(inst.1,
         if ops.isMax inst.2 then
           if ops.isUpperBoundSet inst.2 then inst.2 else ops.calcUpperBound inst.2
         else
           if ops.isLowerBoundSet inst.2 then inst.2 else ops.calcLowerBound inst.2)] := rfl
    rw [hp] at h
    cases h
    rw [hc.dir inst.2]
    cases d with
    | true =>
      rw [if_pos rfl]
      by_cases hset : ops.isUpperBoundSet inst.2 = true
      · simp [hset]
      · simp [hset, heurBound, hc.calcUB_pres_lb]
    | false =>
      rw [if_neg (by simp)]
      by_cases hset : ops.isLowerBoundSet inst.2 = true
      · simp [hset]
      · simp [hset, heurBound, hc.calcLB_pres_ub]
  · split at h
    · cases h
      rfl
    · split at h
      · cases h
        rfl
      · cases h

/-- The engine-level heuristic value is the direction-generic
heuristic-side bound. -/
theorem heurValue_eq (ops : BBOps α σ) (d : Bool) (hc : EngineContract ops d)
    (a : α) : getHeuristicSolutionValue ops a = heurBound ops d a := by
  rw [getHeuristicSolutionValue, heurBound, hc.dir a]

/-- C7 (confirmed): for a fixed contract-respecting problem and strategy,
the value returned by `solve` is monotone in the branch budget: a run with
budget `b2` at least as large as `b1` (`-1` = unbounded) returns a value
never worse — never lower for maximization, never higher for minimization
— than the `b1` run, provided `generateInitialSolution` sets the root's
heuristic-side bound as the contract requires. -/
theorem budget_monotone (ops : BBOps α σ) (d : Bool) (hc : EngineContract ops d)
    (root : α) (strategy : String) (b1 b2 : ℤ) (hb : budgetLE b1 b2)
    (fuel1 fuel2 : ℕ) (r1 r2 : σ × Option ℚ × ℕ × ℕ)
    (hgen : (heurBound ops d (ops.genInitialSolution root)).isSome = true)
    (h1 : solveFuel ops root strategy b1 fuel1 = Except.ok r1)
    (h2 : solveFuel ops root strategy b2 fuel2 = Except.ok r2) :
    ∃ v1 v2, r1.2.1 = some v1 ∧ r2.2.1 = some v2 ∧ dle d v1 v2 := by
  rw [solveFuel] at h1 h2
  cases hmk : mkInstanceSet ops (0, ops.genInitialSolution root) strategy with
  | error e => rw [hmk] at h1; cases h1
  | ok r =>
    obtain ⟨iset, root2⟩ := r
    simp only [hmk] at h1 h2
    have hcontents := mkInstanceSet_ok_contents ops _ strategy iset root2 hmk
    have hheur : heurBound ops d root2 = heurBound ops d (ops.genInitialSolution root) :=
      mkInstanceSet_heur ops d hc _ strategy iset root2 hmk
    have hb0 : (heurBound ops d root2).isSome = true := by
      rw [hheur]
      exact hgen
    have hwf0 : StateWF (BBState.mk iset (0, root2) 0 0 1) := by
      refine ⟨?_, ?_, ?_, ?_⟩
      · rw [hcontents]
        simp
      · intro x hx
        rw [hcontents] at hx
        simp at hx
        simp [hx]
      · simp
      · intro x hx
        rw [hcontents] at hx
        simp at hx
        simp [hx]
    cases hl1 : solveLoop ops b1 fuel1 (BBState.mk iset (0, root2) 0 0 1) with
    | error e =>
      simp only [hl1] at h1
      cases h1
    | ok s1 =>
      simp only [hl1] at h1
      cases hl2 : solveLoop ops b2 fuel2 (BBState.mk iset (0, root2) 0 0 1) with
      | error e =>
        simp only [hl2] at h2
        cases h2
      | ok s2 =>
        simp only [hl2] at h2
        cases h1
        cases h2
        have hs1 := solveLoop_mono ops d hc b1 fuel1 _ s1 hwf0 hb0 hl1
        obtain ⟨v1, hv1⟩ := Option.isSome_iff_exists.mp hs1.2.1
        obtain ⟨v2, hv2, hle⟩ := solveLoop_budget_le ops d hc b1 b2 hb fuel1
          fuel2 _ s1 s2 hwf0 hb0 hl1 hl2 v1 hv1
        refine ⟨v1, v2, ?_, ?_, hle⟩
        · simp only [heurValue_eq ops d hc]
          exact hv1
        · simp only [heurValue_eq ops d hc]
          exact hv2

/-- C7 witness: the knapsack contract satisfies the engine contract (for
maximization), and two concrete budget-0 scenario runs (equal budgets,
`budgetLE 0 0`) are related as the theorem states: both return value 160,
and 160 ≤ 160. -/
theorem budget_monotone_witness :
    ∃ v1 v2,
      ((some [1, 1, 0], some 160, 0, 0) :
        Option (List ℚ) × Option ℚ × ℕ × ℕ).2.1 = some v1 ∧
      ((some [1, 1, 0], some 160, 0, 0) :
        Option (List ℚ) × Option ℚ × ℕ × ℕ).2.1 = some v2 ∧ dle true v1 v2 :=
  budget_monotone knapsackOps true
    ⟨fun _ => rfl, fun _ => rfl, fun _ => rfl, fun _ => rfl, fun _ => rfl,
     fun _ => rfl, fun _ => rfl⟩
    kScenario "best_first" 0 0 (Or.inr ⟨by decide, le_refl 0⟩) 5 7 _ _
    (by with_unfolding_all decide)
    (by with_unfolding_all decide)
    (by with_unfolding_all decide)

/-!
Error-exclusion lemmas: under the contract, the only comparisons the
engine ever performs are between set bounds, so no run can end in the
`TypeError` that Python raises when a bound read hits an unset `None`.
-/

/-- A `>` between two set numbers never fails. -/
theorem cmpGT_some_some (u v : ℚ) (e : Err)
    (h : cmpGT (some u) (some v) = Except.error e) : False := by
  simp [cmpGT] at h

/-- A `<` between two set numbers never fails. -/
theorem cmpLT_some_some (u v : ℚ) (e : Err)
    (h : cmpLT (some u) (some v) = Except.error e) : False := by
  simp [cmpLT] at h

/-- After the conditional recomputation inside `isPromising`, the upper
bound of the subject is set. -/
theorem ub_after_calc (ops : BBOps α σ) (d : Bool) (hc : EngineContract ops d)
    (self : α) :
    ∃ u, ops.getUpperBound
      (if ops.isUpperBoundSet self then self else ops.calcUpperBound self) = some u := by
  by_cases hset : ops.isUpperBoundSet self = true
  · rw [if_pos hset]
    rw [hc.ubSet_iff] at hset
    exact Option.isSome_iff_exists.mp hset
  · rw [if_neg hset]
    exact Option.isSome_iff_exists.mp (hc.calcUB_sets self)

/-- After the conditional recomputation inside `isPromising`, the lower
bound of the subject is set. -/
theorem lb_after_calc (ops : BBOps α σ) (d : Bool) (hc : EngineContract ops d)
    (self : α) :
    ∃ u, ops.getLowerBound
      (if ops.isLowerBoundSet self then self else ops.calcLowerBound self) = some u := by
  by_cases hset : ops.isLowerBoundSet self = true
  · rw [if_pos hset]
    rw [hc.lbSet_iff] at hset
    exact Option.isSome_iff_exists.mp hset
  · rw [if_neg hset]
    exact Option.isSome_iff_exists.mp (hc.calcLB_sets self)

/-- Recomputing an upper bound leaves the cached lower bound set. -/
theorem lb_pres_after_ubcalc (ops : BBOps α σ) (d : Bool)
    (hc : EngineContract ops d) (self : α)
    (hset : (ops.getLowerBound self).isSome = true) :
    ∃ u, ops.getLowerBound
      (if ops.isUpperBoundSet self then self else ops.calcUpperBound self) = some u := by
  by_cases hb : ops.isUpperBoundSet self = true
  · rw [if_pos hb]
    exact Option.isSome_iff_exists.mp hset
  · rw [if_neg hb, hc.calcUB_pres_lb]
    exact Option.isSome_iff_exists.mp hset

/-- Recomputing a lower bound leaves the cached upper bound set. -/
theorem ub_pres_after_lbcalc (ops : BBOps α σ) (d : Bool)
    (hc : EngineContract ops d) (self : α)
    (hset : (ops.getUpperBound self).isSome = true) :
    ∃ u, ops.getUpperBound
      (if ops.isLowerBoundSet self then self else ops.calcLowerBound self) = some u := by
  by_cases hb : ops.isLowerBoundSet self = true
  · rw [if_pos hb]
    exact Option.isSome_iff_exists.mp hset
  · rw [if_neg hb, hc.calcLB_pres_ub]
    exact Option.isSome_iff_exists.mp hset

/-- `isPromising` cannot fail when the incumbent's heuristic-side bound
is set. -/
theorem isPromising_no_err (ops : BBOps α σ) (d : Bool)
    (hc : EngineContract ops d) (self current : α)
    (hcur : (heurBound ops d current).isSome = true) (e : Err)
    (h : isPromising ops self current = Except.error e) : False := by
  cases d with
  | true =>
    rw [isPromising, hc.dir self] at h
    rw [if_pos rfl] at h
    cases hcmp : cmpGT
        (ops.getUpperBound (if ops.isUpperBoundSet self then self else ops.calcUpperBound self))
        (ops.getLowerBound current) with
    | ok bb => rw [hcmp] at h; cases h
    | error e2 =>
      obtain ⟨u, hu⟩ := ub_after_calc ops true hc self
      simp [heurBound] at hcur
      obtain ⟨v, hv⟩ := Option.isSome_iff_exists.mp hcur
      rw [hu, hv] at hcmp
      exact cmpGT_some_some u v e2 hcmp
  | false =>
    rw [isPromising, hc.dir self] at h
    rw [if_neg (by simp)] at h
    cases hcmp : cmpLT
        (ops.getLowerBound (if ops.isLowerBoundSet self then self else ops.calcLowerBound self))
        (ops.getUpperBound current) with
    | ok bb => rw [hcmp] at h; cases h
    | error e2 =>
      obtain ⟨u, hu⟩ := lb_after_calc ops false hc self
      simp [heurBound] at hcur
      obtain ⟨v, hv⟩ := Option.isSome_iff_exists.mp hcur
      rw [hu, hv] at hcmp
      exact cmpLT_some_some u v e2 hcmp

/-- The aliased `isPromising` cannot fail when the subject's
heuristic-side bound is set. -/
theorem isPromisingSelf_no_err (ops : BBOps α σ) (d : Bool)
    (hc : EngineContract ops d) (self : α)
    (hself : (heurBound ops d self).isSome = true) (e : Err)
    (h : isPromisingSelf ops self = Except.error e) : False := by
  cases d with
  | true =>
    rw [isPromisingSelf, hc.dir self] at h
    rw [if_pos rfl] at h
    cases hcmp : cmpGT
        (ops.getUpperBound (if ops.isUpperBoundSet self then self else ops.calcUpperBound self))
        (ops.getLowerBound (if ops.isUpperBoundSet self then self else ops.calcUpperBound self)) with
    | ok bb => rw [hcmp] at h; cases h
    | error e2 =>
      obtain ⟨u, hu⟩ := ub_after_calc ops true hc self
      simp [heurBound] at hself
      obtain ⟨v, hv⟩ := lb_pres_after_ubcalc ops true hc self hself
      rw [hu, hv] at hcmp
      exact cmpGT_some_some u v e2 hcmp
  | false =>
    rw [isPromisingSelf, hc.dir self] at h
    rw [if_neg (by simp)] at h
    cases hcmp : cmpLT
        (ops.getLowerBound (if ops.isLowerBoundSet self then self else ops.calcLowerBound self))
        (ops.getUpperBound (if ops.isLowerBoundSet self then self else ops.calcLowerBound self)) with
    | ok bb => rw [hcmp] at h; cases h
    | error e2 =>
      obtain ⟨u, hu⟩ := lb_after_calc ops false hc self
      simp [heurBound] at hself
      obtain ⟨v, hv⟩ := ub_pres_after_lbcalc ops false hc self hself
      rw [hu, hv] at hcmp
      exact cmpLT_some_some u v e2 hcmp

/-- `isBetterThen` cannot fail when the incumbent's heuristic-side bound
is set. -/
theorem isBetterThen_no_err (ops : BBOps α σ) (d : Bool)
    (hc : EngineContract ops d) (self current : α)
    (hcur : (heurBound ops d current).isSome = true) (e : Err)
    (h : isBetterThen ops self current = Except.error e) : False := by
  cases d with
  | true =>
    rw [isBetterThen, hc.dir self] at h
    rw [if_pos rfl] at h
    cases hcmp : cmpGT
        (ops.getLowerBound (if ops.isLowerBoundSet self then self else ops.calcLowerBound self))
        (ops.getLowerBound current) with
    | ok bb => rw [hcmp] at h; cases h
    | error e2 =>
      obtain ⟨u, hu⟩ := lb_after_calc ops true hc self
      simp [heurBound] at hcur
      obtain ⟨v, hv⟩ := Option.isSome_iff_exists.mp hcur
      rw [hu, hv] at hcmp
      exact cmpGT_some_some u v e2 hcmp
  | false =>
    rw [isBetterThen, hc.dir self] at h
    rw [if_neg (by simp)] at h
    cases hcmp : cmpLT
        (ops.getUpperBound (if ops.isUpperBoundSet self then self else ops.calcUpperBound self))
        (ops.getUpperBound current) with
    | ok bb => rw [hcmp] at h; cases h
    | error e2 =>
      obtain ⟨u, hu⟩ := ub_after_calc ops false hc self
      simp [heurBound] at hcur
      obtain ⟨v, hv⟩ := Option.isSome_iff_exists.mp hcur
      rw [hu, hv] at hcmp
      exact cmpLT_some_some u v e2 hcmp

/-- The aliased `isBetterThen` never fails under the contract. -/
theorem isBetterThenSelf_no_err (ops : BBOps α σ) (d : Bool)
    (hc : EngineContract ops d) (self : α) (e : Err)
    (h : isBetterThenSelf ops self = Except.error e) : False := by
  cases d with
  | true =>
    rw [isBetterThenSelf, hc.dir self] at h
    rw [if_pos rfl] at h
    cases hcmp : cmpGT
        (ops.getLowerBound (if ops.isLowerBoundSet self then self else ops.calcLowerBound self))
        (ops.getLowerBound (if ops.isLowerBoundSet self then self else ops.calcLowerBound self)) with
    | ok bb => rw [hcmp] at h; cases h
    | error e2 =>
      obtain ⟨u, hu⟩ := lb_after_calc ops true hc self
      rw [hu] at hcmp
      exact cmpGT_some_some u u e2 hcmp
  | false =>
    rw [isBetterThenSelf, hc.dir self] at h
    rw [if_neg (by simp)] at h
    cases hcmp : cmpLT
        (ops.getUpperBound (if ops.isUpperBoundSet self then self else ops.calcUpperBound self))
        (ops.getUpperBound (if ops.isUpperBoundSet self then self else ops.calcUpperBound self)) with
    | ok bb => rw [hcmp] at h; cases h
    | error e2 =>
      obtain ⟨u, hu⟩ := ub_after_calc ops false hc self
      rw [hu] at hcmp
      exact cmpLT_some_some u u e2 hcmp

/-- `Instance.__lt__` cannot fail between two instances whose ordering
bounds are set. -/
theorem instLt_no_err (ops : BBOps α σ) (d : Bool)
    (hc : EngineContract ops d) (a b : α)
    (ha : (dirBound ops d a).isSome = true)
    (hb : (dirBound ops d b).isSome = true) (e : Err)
    (h : instLt ops a b = Except.error e) : False := by
  cases d with
  | true =>
    rw [instLt, hc.dir a] at h
    rw [if_pos rfl] at h
    simp [dirBound] at ha hb
    obtain ⟨u, hu⟩ := Option.isSome_iff_exists.mp ha
    obtain ⟨v, hv⟩ := Option.isSome_iff_exists.mp hb
    rw [hu, hv] at h
    exact cmpGT_some_some u v e h
  | false =>
    rw [instLt, hc.dir a] at h
    rw [if_neg (by simp)] at h
    simp [dirBound] at ha hb
    obtain ⟨u, hu⟩ := Option.isSome_iff_exists.mp ha
    obtain ⟨v, hv⟩ := Option.isSome_iff_exists.mp hb
    rw [hu, hv] at h
    exact cmpLT_some_some u v e h

/-- A `getD` read returns either a stored element or the default. -/
theorem getD_keyed (P : ℕ × α → Prop) (heap : List (ℕ × α)) (i : ℕ)
    (dflt : ℕ × α) (hkeys : ∀ x ∈ heap, P x) (hd : P dflt) :
    P (heap.getD i dflt) := by
  by_cases hi : i < heap.length
  · rw [List.getD_eq_getElem heap dflt hi]
    exact hkeys _ (List.getElem_mem hi)
  · rw [List.getD_eq_default heap dflt (le_of_not_lt hi)]
    exact hd

/-- Writing a good element into a list of good elements keeps them all
good. -/
theorem set_keyed (P : ℕ × α → Prop) (heap : List (ℕ × α)) (pos : ℕ)
    (v : ℕ × α) (hkeys : ∀ x ∈ heap, P x) (hv : P v) :
    ∀ x ∈ heap.set pos v, P x := by
  intro x hx
  rcases List.mem_or_eq_of_mem_set hx with h | h
  · exact hkeys x h
  · exact h ▸ hv

/-- With every stored ordering bound set, a failing `_siftdown` can only
be the fuel artifact, never the comparison `TypeError`. -/
theorem siftdownLoop_err (ops : BBOps α σ) (d : Bool) (hc : EngineContract ops d)
    (ni : ℕ × α) (sp : ℕ) (hni : (dirBound ops d ni.2).isSome = true) :
    ∀ (fuel : ℕ) (heap : List (ℕ × α)) (pos : ℕ),
      (∀ x ∈ heap, (dirBound ops d x.2).isSome = true) →
      ∀ e, siftdownLoop ops ni sp fuel heap pos = Except.error e →
        e = Err.outOfFuel
  | 0, heap, pos, hkeys, e, h => by
    rw [siftdownLoop] at h
    by_cases hg : sp < pos
    · rw [if_pos hg] at h
      injection h with h6
      exact h6.symm
    · rw [if_neg hg] at h
      cases h
  | Nat.succ f, heap, pos, hkeys, e, h => by
    rw [siftdownLoop] at h
    by_cases hg : sp < pos
    · rw [if_pos hg] at h
      cases hlt : instLt ops ni.2 (heap.getD ((pos - 1) / 2) ni).2 with
      | error e2 =>
        rw [hlt] at h
        exfalso
        have hkey : (dirBound ops d (heap.getD ((pos - 1) / 2) ni).2).isSome = true :=
          getD_keyed (fun x => (dirBound ops d x.2).isSome = true) heap _ ni hkeys hni
        exact instLt_no_err ops d hc ni.2 (heap.getD ((pos - 1) / 2) ni).2
          hni hkey e2 hlt
      | ok b =>
        rw [hlt] at h
        cases b with
        | true =>
          exact siftdownLoop_err ops d hc ni sp hni f
            (heap.set pos (heap.getD ((pos - 1) / 2) ni)) ((pos - 1) / 2)
            (set_keyed _ heap pos _ hkeys
              (getD_keyed _ heap _ ni hkeys hni)) e h
        | false => cases h
    · rw [if_neg hg] at h
      cases h

/-- With every stored ordering bound set, a failing `_siftup` can only be
the fuel artifact, never the comparison `TypeError`. -/
theorem siftupLoop_err (ops : BBOps α σ) (d : Bool) (hc : EngineContract ops d)
    (ni : ℕ × α) (hni : (dirBound ops d ni.2).isSome = true) :
    ∀ (fuel : ℕ) (heap : List (ℕ × α)) (pos : ℕ),
      (∀ x ∈ heap, (dirBound ops d x.2).isSome = true) →
      ∀ e, siftupLoop ops ni fuel heap pos = Except.error e →
        e = Err.outOfFuel
  | 0, heap, pos, hkeys, e, h => by
    rw [siftupLoop] at h
    by_cases hg : 2 * pos + 1 < heap.length
    · rw [if_pos hg] at h
      injection h with h6
      exact h6.symm
    · rw [if_neg hg] at h
      cases h
  | Nat.succ f, heap, pos, hkeys, e, h => by
    rw [siftupLoop] at h
    by_cases hg : 2 * pos + 1 < heap.length
    · rw [if_pos hg] at h
      by_cases hg2 : 2 * pos + 1 + 1 < heap.length
      · rw [if_pos hg2] at h
        cases hlt : instLt ops (heap.getD (2 * pos + 1) ni).2
            (heap.getD (2 * pos + 1 + 1) ni).2 with
        | error e2 =>
          rw [hlt] at h
          exfalso
          exact instLt_no_err ops d hc _ _
            (getD_keyed (fun x => (dirBound ops d x.2).isSome = true) heap _ ni hkeys hni)
            (getD_keyed (fun x => (dirBound ops d x.2).isSome = true) heap _ ni hkeys hni)
            e2 hlt
        | ok b =>
          rw [hlt] at h
          exact siftupLoop_err ops d hc ni hni f
            (heap.set pos (heap.getD (if b then 2 * pos + 1 else 2 * pos + 1 + 1) ni))
            (if b then 2 * pos + 1 else 2 * pos + 1 + 1)
            (set_keyed _ heap pos _ hkeys (getD_keyed _ heap _ ni hkeys hni)) e h
      · rw [if_neg hg2] at h
        exact siftupLoop_err ops d hc ni hni f
          (heap.set pos (heap.getD (2 * pos + 1) ni)) (2 * pos + 1)
          (set_keyed _ heap pos _ hkeys (getD_keyed _ heap _ ni hkeys hni)) e h
    · rw [if_neg hg] at h
      cases h

/-- A successful `_siftup` keeps every stored element good. -/
theorem siftupLoop_keys (ops : BBOps α σ) (P : ℕ × α → Prop)
    (ni : ℕ × α) (hni : P ni) :
    ∀ (fuel : ℕ) (heap : List (ℕ × α)) (pos : ℕ),
      (∀ x ∈ heap, P x) →
      ∀ l' p', siftupLoop ops ni fuel heap pos = Except.ok (l', p') →
        ∀ x ∈ l', P x
  | 0, heap, pos, hkeys, l', p', h => by
    rw [siftupLoop] at h
    by_cases hg : 2 * pos + 1 < heap.length
    · rw [if_pos hg] at h
      cases h
    · rw [if_neg hg] at h
      cases h
      exact set_keyed P heap pos ni hkeys hni
  | Nat.succ f, heap, pos, hkeys, l', p', h => by
    rw [siftupLoop] at h
    by_cases hg : 2 * pos + 1 < heap.length
    · rw [if_pos hg] at h
      by_cases hg2 : 2 * pos + 1 + 1 < heap.length
      · rw [if_pos hg2] at h
        cases hlt : instLt ops (heap.getD (2 * pos + 1) ni).2
            (heap.getD (2 * pos + 1 + 1) ni).2 with
        | error e2 => rw [hlt] at h; cases h
        | ok b =>
          rw [hlt] at h
          exact siftupLoop_keys ops P ni hni f
            (heap.set pos (heap.getD (if b then 2 * pos + 1 else 2 * pos + 1 + 1) ni))
            (if b then 2 * pos + 1 else 2 * pos + 1 + 1)
            (set_keyed _ heap pos _ hkeys (getD_keyed _ heap _ ni hkeys hni)) l' p' h
      · rw [if_neg hg2] at h
        exact siftupLoop_keys ops P ni hni f
          (heap.set pos (heap.getD (2 * pos + 1) ni)) (2 * pos + 1)
          (set_keyed _ heap pos _ hkeys (getD_keyed _ heap _ ni hkeys hni)) l' p' h
    · rw [if_neg hg] at h
      cases h
      exact set_keyed P heap pos ni hkeys hni

/-- With all ordering bounds set, a failing `heappush` can only be the
fuel artifact. -/
theorem heappush_err (ops : BBOps α σ) (d : Bool) (hc : EngineContract ops d)
    (heap : List (ℕ × α)) (item : ℕ × α)
    (hkeys : ∀ x ∈ heap, (dirBound ops d x.2).isSome = true)
    (hitem : (dirBound ops d item.2).isSome = true) (e : Err)
    (h : heappush ops heap item = Except.error e) : e = Err.outOfFuel := by
  rw [heappush] at h
  refine siftdownLoop_err ops d hc item 0 hitem heap.length (heap ++ [item])
    heap.length ?_ e h
  intro x hx
  rcases List.mem_append.mp hx with h1 | h1
  · exact hkeys x h1
  · rw [List.mem_singleton.mp h1]
    exact hitem

/-- With all ordering bounds set, a failing `heappop` is never the
comparison `TypeError`. -/
theorem heappop_err (ops : BBOps α σ) (d : Bool) (hc : EngineContract ops d)
    (heap : List (ℕ × α))
    (hkeys : ∀ x ∈ heap, (dirBound ops d x.2).isSome = true) (e : Err)
    (h : heappop ops heap = Except.error e) : e ≠ Err.typeError := by
  rw [heappop] at h
  split at h
  · injection h with h6
    subst h6
    decide
  · rename_i lastelt hlast
    have hne : heap ≠ [] := by
      intro he
      rw [he] at hlast
      cases hlast
    have hlasteq : heap.getLast hne = lastelt := by
      have h0 := List.getLast?_eq_getLast heap hne
      rw [hlast] at h0
      exact (Option.some.injEq _ _).mp h0.symm
    have hdecomp : heap.dropLast ++ [lastelt] = heap := by
      rw [← hlasteq]
      exact List.dropLast_append_getLast hne
    have hlastkey : (dirBound ops d lastelt.2).isSome = true := by
      refine hkeys lastelt ?_
      rw [← hdecomp]
      exact List.mem_append.mpr (Or.inr (List.mem_singleton.mpr rfl))
    have hdropkeys : ∀ x ∈ heap.dropLast, (dirBound ops d x.2).isSome = true := by
      intro x hx
      refine hkeys x ?_
      rw [← hdecomp]
      exact List.mem_append.mpr (Or.inl hx)
    have hkeys1 : ∀ x ∈ (heap.dropLast).set 0 lastelt,
        (dirBound ops d x.2).isSome = true :=
      set_keyed _ _ 0 lastelt hdropkeys hlastkey
    split at h
    · cases h
    · rename_i r0 tail hdl
      split at h
      · rename_i e2 hsu
        injection h with h6
        subst h6
        have := siftupLoop_err ops d hc lastelt hlastkey
          ((heap.dropLast).set 0 lastelt).length
          ((heap.dropLast).set 0 lastelt) 0 hkeys1 e2 hsu
        subst this
        decide
      · rename_i r h2 p' hsu
        split at h
        · rename_i e2 hsd
          injection h with h6
          subst h6
          have hkeys2 : ∀ x ∈ h2, (dirBound ops d x.2).isSome = true :=
            siftupLoop_keys ops _ lastelt hlastkey
              ((heap.dropLast).set 0 lastelt).length
              ((heap.dropLast).set 0 lastelt) 0 hkeys1 h2 p' hsu
          have := siftdownLoop_err ops d hc lastelt 0 hlastkey p' h2 p' hkeys2 e2 hsd
          subst this
          decide
        · cases h

/-- A failing pop from a comparison-safe frontier is never the
`TypeError`. -/
theorem getNextInstance_err (ops : BBOps α σ) (d : Bool)
    (hc : EngineContract ops d) (fr : InstanceSet α)
    (hkeys : frontKeys ops d fr) (e : Err)
    (h : fr.getNextInstance ops = Except.error e) : e ≠ Err.typeError := by
  cases fr with
  | best_first l =>
    rw [InstanceSet.getNextInstance] at h
    cases hp : heappop ops l with
    | error e2 =>
      rw [hp] at h
      injection h with h6
      subst h6
      exact heappop_err ops d hc l (hkeys rfl) e2 hp
    | ok r =>
      obtain ⟨y, l2⟩ := r
      rw [hp] at h
      cases h
  | depth_first l =>
    cases l with
    | nil =>
      rw [InstanceSet.getNextInstance] at h
      injection h with h6
      subst h6
      decide
    | cons a rest =>
      rw [InstanceSet.getNextInstance] at h
      cases h
  | breath_first l =>
    cases l with
    | nil =>
      rw [InstanceSet.getNextInstance] at h
      injection h with h6
      subst h6
      decide
    | cons a rest =>
      rw [InstanceSet.getNextInstance] at h
      cases h

/-- Popping preserves comparison safety of the frontier. -/
theorem getNextInstance_keys (ops : BBOps α σ) (d : Bool)
    (fr fr' : InstanceSet α) (x : ℕ × α) (hkeys : frontKeys ops d fr)
    (h : fr.getNextInstance ops = Except.ok (x, fr')) :
    frontKeys ops d fr' := by
  cases fr with
  | best_first l =>
    rw [InstanceSet.getNextInstance] at h
    cases hp : heappop ops l with
    | error e2 => rw [hp] at h; cases h
    | ok r =>
      obtain ⟨y, l2⟩ := r
      rw [hp] at h
      have hperm := heappop_perm ops l y l2 hp
      cases h
      intro hbf z hz
      exact hkeys rfl z (hperm.mem_iff.mpr (List.mem_cons_of_mem _ hz))
  | depth_first l =>
    cases l with
    | nil => rw [InstanceSet.getNextInstance] at h; cases h
    | cons a rest =>
      rw [InstanceSet.getNextInstance] at h
      cases h
      intro hbf
      simp [InstanceSet.isBestFirst] at hbf
  | breath_first l =>
    cases l with
    | nil => rw [InstanceSet.getNextInstance] at h; cases h
    | cons a rest =>
      rw [InstanceSet.getNextInstance] at h
      cases h
      intro hbf
      simp [InstanceSet.isBestFirst] at hbf

/-- A failing push of a bound-carrying element into a comparison-safe
frontier is never the `TypeError`. -/
theorem addInstance_err (ops : BBOps α σ) (d : Bool)
    (hc : EngineContract ops d) (fr : InstanceSet α) (x : ℕ × α)
    (hkeys : frontKeys ops d fr)
    (hx : (dirBound ops d x.2).isSome = true) (e : Err)
    (h : fr.addInstance ops x = Except.error e) : e ≠ Err.typeError := by
  cases fr with
  | best_first l =>
    rw [InstanceSet.addInstance] at h
    cases hp : heappush ops l x with
    | error e2 =>
      rw [hp] at h
      injection h with h6
      subst h6
      have := heappush_err ops d hc l x (hkeys rfl) hx e2 hp
      subst this
      decide
    | ok l2 =>
      rw [hp] at h
      cases h
  | depth_first l =>
    rw [InstanceSet.addInstance] at h
    cases h
  | breath_first l =>
    rw [InstanceSet.addInstance] at h
    cases h

/-- Pushing a bound-carrying element preserves comparison safety. -/
theorem addInstance_keys (ops : BBOps α σ) (d : Bool)
    (fr fr' : InstanceSet α) (x : ℕ × α) (hkeys : frontKeys ops d fr)
    (hx : (dirBound ops d x.2).isSome = true)
    (h : fr.addInstance ops x = Except.ok fr') :
    frontKeys ops d fr' := by
  cases fr with
  | best_first l =>
    rw [InstanceSet.addInstance] at h
    cases hp : heappush ops l x with
    | error e2 => rw [hp] at h; cases h
    | ok l2 =>
      rw [hp] at h
      cases h
      intro hbf z hz
      have hperm := heappush_perm ops l x l2 hp
      have hz2 : z ∈ x :: l := hperm.mem_iff.mp hz
      cases hz2 with
      | head => exact hx
      | tail _ hz3 => exact hkeys rfl z hz3
  | depth_first l =>
    rw [InstanceSet.addInstance] at h
    cases h
    intro hbf
    simp [InstanceSet.isBestFirst] at hbf
  | breath_first l =>
    rw [InstanceSet.addInstance] at h
    cases h
    intro hbf
    simp [InstanceSet.isBestFirst] at hbf

/-- The child-pushing loop never raises the `TypeError` and preserves
comparison safety, as long as the incumbent carries its heuristic-side
bound. -/
theorem pushChildren_safe (ops : BBOps α σ) (d : Bool)
    (hc : EngineContract ops d) (best : α)
    (hbest : (heurBound ops d best).isSome = true) :
    ∀ (cs : List α) (fr : InstanceSet α) (nid : ℕ), frontKeys ops d fr →
      (∀ e, pushChildren ops best cs fr nid = Except.error e →
        e ≠ Err.typeError) ∧
      (∀ fr' nid', pushChildren ops best cs fr nid = Except.ok (fr', nid') →
        frontKeys ops d fr')
  | [], fr, nid, hkeys => by
    constructor
    · intro e h
      rw [pushChildren] at h
      cases h
    · intro fr' nid' h
      rw [pushChildren] at h
      cases h
      exact hkeys
  | c :: rest, fr, nid, hkeys => by
    cases hpr : isPromising ops c best with
    | error e2 =>
      exact (isPromising_no_err ops d hc c best hbest e2 hpr).elim
    | ok r =>
      obtain ⟨p, c'⟩ := r
      cases p with
      | false =>
        have heq : pushChildren ops best (c :: rest) fr nid
            = pushChildren ops best rest fr nid := by
          rw [pushChildren]
          simp only [hpr]
        rw [heq]
        exact pushChildren_safe ops d hc best hbest rest fr nid hkeys
      | true =>
        have hkey' : (dirBound ops d c').isSome = true := by
          obtain ⟨-, u, v, hu, -, -⟩ :=
            isPromising_ok ops d c best true c' (hc.dir c) hpr
          rw [hu]
          rfl
        cases hadd : fr.addInstance ops (nid, c') with
        | error e2 =>
          have heq : pushChildren ops best (c :: rest) fr nid = Except.error e2 := by
            rw [pushChildren]
            simp only [hpr, hadd]
          rw [heq]
          constructor
          · intro e h
            injection h with h6
            subst h6
            exact addInstance_err ops d hc fr (nid, c') hkeys hkey' e2 hadd
          · intro fr' nid' h
            cases h
        | ok fr2 =>
          have heq : pushChildren ops best (c :: rest) fr nid
              = pushChildren ops best rest fr2 (nid + 1) := by
            rw [pushChildren]
            simp only [hpr, hadd]
          rw [heq]
          exact pushChildren_safe ops d hc best hbest rest fr2 (nid + 1)
            (addInstance_keys ops d fr fr2 (nid, c') hkeys hkey' hadd)

/-- One engine iteration never fails with the bound-read `TypeError`:
every comparison it performs has both operands set, by the contract and
the comparison-safety invariant. -/
theorem solveStep_err (ops : BBOps α σ) (d : Bool) (hc : EngineContract ops d)
    (hbranch : ∀ a e2, ops.branch a = Except.error e2 → e2 ≠ Err.typeError)
    (s : BBState α) (hwf : StateWF s) (hkeys : frontKeys ops d s.frontier)
    (hb : (heurBound ops d s.best.2).isSome = true) (e : Err)
    (h : solveStep ops s = Except.error e) : e ≠ Err.typeError := by
  rw [solveStep] at h
  cases hpop : s.frontier.getNextInstance ops with
  | error e2 =>
    rw [hpop] at h
    injection h with h6
    subst h6
    exact getNextInstance_err ops d hc s.frontier hkeys e2 hpop
  | ok r =>
    obtain ⟨⟨iid, I⟩, fr1⟩ := r
    rw [hpop] at h
    have hkeys1 : frontKeys ops d fr1 :=
      getNextInstance_keys ops d s.frontier fr1 (iid, I) hkeys hpop
    by_cases hA : (iid == s.best.1) = true
    · have hperm := getNextInstance_perm ops s.frontier fr1 (iid, I) hpop
      have hmem : (iid, I) ∈ s.frontier.contents :=
        hperm.mem_iff.mpr (List.mem_cons_self _ _)
      have hIeq : I = s.best.2 := hwf.aliasOK (iid, I) hmem (by simpa using hA)
      have hIb : (heurBound ops d I).isSome = true := by
        rw [hIeq]
        exact hb
      simp only [hA, if_true, Bool.or_true] at h
      cases h1 : isPromisingSelf ops I with
      | error e2 =>
        rw [h1] at h
        injection h with h6
        subst h6
        exact (isPromisingSelf_no_err ops d hc I hIb e2 h1).elim
      | ok r1 =>
        obtain ⟨p1, I1⟩ := r1
        simp only [h1] at h
        have hI1b : (heurBound ops d I1).isSome = true := by
          rw [isPromisingSelf_pres_heur ops d hc I p1 I1 h1]
          exact hIb
        cases p1 with
        | false =>
          simp only [Bool.false_eq_true, if_false] at h
          cases h
        | true =>
          simp only [if_true] at h
          cases h2 : isBetterThenSelf ops I1 with
          | error e2 =>
            rw [h2] at h
            injection h with h6
            subst h6
            exact (isBetterThenSelf_no_err ops d hc I1 e2 h2).elim
          | ok r2 =>
            obtain ⟨bt, I2⟩ := r2
            simp only [h2, Bool.or_true, if_true] at h
            obtain ⟨hI2eq, -⟩ := isBetterThenSelf_noCalc ops d I1 hc hI1b bt I2 h2
            have hI2b : (heurBound ops d I2).isSome = true := by
              rw [hI2eq]
              exact hI1b
            cases h3 : isPromisingSelf ops I2 with
            | error e2 =>
              rw [h3] at h
              injection h with h6
              subst h6
              exact (isPromisingSelf_no_err ops d hc I2 hI2b e2 h3).elim
            | ok r3 =>
              obtain ⟨p2, I3⟩ := r3
              simp only [h3] at h
              have hI3b : (heurBound ops d I3).isSome = true := by
                rw [isPromisingSelf_pres_heur ops d hc I2 p2 I3 h3]
                exact hI2b
              cases p2 with
              | false =>
                simp only [Bool.false_eq_true, if_false] at h
                cases h
              | true =>
                simp only [if_true] at h
                cases h4 : ops.branch I3 with
                | error e2 =>
                  rw [h4] at h
                  injection h with h6
                  subst h6
                  exact hbranch I3 e2 h4
                | ok subs =>
                  simp only [h4] at h
                  cases h5 : pushChildren ops I3 subs fr1 s.nextId with
                  | error e2 =>
                    rw [h5] at h
                    injection h with h6
                    subst h6
                    exact (pushChildren_safe ops d hc I3 hI3b subs fr1
                      s.nextId hkeys1).1 e2 h5
                  | ok r5 =>
                    obtain ⟨fr2, nid⟩ := r5
                    simp only [h5] at h
                    cases h
    · have hA2 : (iid == s.best.1) = false := Bool.eq_false_iff.mpr hA
      simp only [hA2, Bool.false_eq_true, if_false, Bool.or_false] at h
      cases h1 : isPromising ops I s.best.2 with
      | error e2 =>
        rw [h1] at h
        injection h with h6
        subst h6
        exact (isPromising_no_err ops d hc I s.best.2 hb e2 h1).elim
      | ok r1 =>
        obtain ⟨p1, I1⟩ := r1
        simp only [h1] at h
        cases p1 with
        | false =>
          simp only [Bool.false_eq_true, if_false] at h
          cases h
        | true =>
          simp only [if_true] at h
          cases h2 : isBetterThen ops I1 s.best.2 with
          | error e2 =>
            rw [h2] at h
            injection h with h6
            subst h6
            exact (isBetterThen_no_err ops d hc I1 s.best.2 hb e2 h2).elim
          | ok r2 =>
            obtain ⟨bt, I2⟩ := r2
            simp only [h2] at h
            have hI2b : (heurBound ops d I2).isSome = true := by
              obtain ⟨-, u, v, hu, -, -⟩ :=
                isBetterThen_ok ops d I1 s.best.2 bt I2 (hc.dir I1) h2
              rw [hu]
              rfl
            cases bt with
            | false =>
              simp only [Bool.false_eq_true, if_false] at h
              cases h3 : isPromising ops I2 s.best.2 with
              | error e2 =>
                rw [h3] at h
                injection h with h6
                subst h6
                exact (isPromising_no_err ops d hc I2 s.best.2 hb e2 h3).elim
              | ok r3 =>
                obtain ⟨p2, I3⟩ := r3
                simp only [h3] at h
                cases p2 with
                | false =>
                  simp only [Bool.false_eq_true, if_false] at h
                  cases h
                | true =>
                  simp only [if_true] at h
                  cases h4 : ops.branch I3 with
                  | error e2 =>
                    rw [h4] at h
                    injection h with h6
                    subst h6
                    exact hbranch I3 e2 h4
                  | ok subs =>
                    simp only [h4] at h
                    cases h5 : pushChildren ops s.best.2 subs fr1 s.nextId with
                    | error e2 =>
                      rw [h5] at h
                      injection h with h6
                      subst h6
                      exact (pushChildren_safe ops d hc s.best.2 hb subs fr1
                        s.nextId hkeys1).1 e2 h5
                    | ok r5 =>
                      obtain ⟨fr2, nid⟩ := r5
                      simp only [h5] at h
                      cases h
            | true =>
              simp only [if_true] at h
              cases h3 : isPromisingSelf ops I2 with
              | error e2 =>
                rw [h3] at h
                injection h with h6
                subst h6
                exact (isPromisingSelf_no_err ops d hc I2 hI2b e2 h3).elim
              | ok r3 =>
                obtain ⟨p2, I3⟩ := r3
                simp only [h3] at h
                have hI3b : (heurBound ops d I3).isSome = true := by
                  rw [isPromisingSelf_pres_heur ops d hc I2 p2 I3 h3]
                  exact hI2b
                cases p2 with
                | false =>
                  simp only [Bool.false_eq_true, if_false] at h
                  cases h
                | true =>
                  simp only [if_true] at h
                  cases h4 : ops.branch I3 with
                  | error e2 =>
                    rw [h4] at h
                    injection h with h6
                    subst h6
                    exact hbranch I3 e2 h4
                  | ok subs =>
                    simp only [h4] at h
                    cases h5 : pushChildren ops I3 subs fr1 s.nextId with
                    | error e2 =>
                      rw [h5] at h
                      injection h with h6
                      subst h6
                      exact (pushChildren_safe ops d hc I3 hI3b subs fr1
                        s.nextId hkeys1).1 e2 h5
                    | ok r5 =>
                      obtain ⟨fr2, nid⟩ := r5
                      simp only [h5] at h
                      cases h

/-- One successful engine iteration preserves comparison safety of the
frontier. -/
theorem solveStep_keys (ops : BBOps α σ) (d : Bool) (hc : EngineContract ops d)
    (s s' : BBState α) (hwf : StateWF s) (hkeys : frontKeys ops d s.frontier)
    (hb : (heurBound ops d s.best.2).isSome = true)
    (h : solveStep ops s = Except.ok s') : frontKeys ops d s'.frontier := by
  obtain ⟨iid, I, fr1, p1, I1, hpop, hpr, hrest⟩ := solveStep_cases ops s s' h
  have hkeys1 : frontKeys ops d fr1 :=
    getNextInstance_keys ops d s.frontier fr1 (iid, I) hkeys hpop
  rcases hrest with ⟨-, hs'⟩ | ⟨hp1, bt, I2, p2, I3, hbt, hpr2, hrest2⟩
  · rw [hs']
    exact hkeys1
  · rcases hrest2 with ⟨-, hs'⟩ | ⟨hp2, subs, fr2, nid, hbr, hpush, hs'⟩
    · rw [hs']
      exact hkeys1
    · rw [hs']
      refine (pushChildren_safe ops d hc
        (if bt || (iid == s.best.1) then I3 else s.best.2) ?_ subs fr1
        s.nextId hkeys1).2 fr2 nid hpush
      by_cases hA : (iid == s.best.1) = true
      · have hperm := getNextInstance_perm ops s.frontier fr1 (iid, I) hpop
        have hmem : (iid, I) ∈ s.frontier.contents :=
          hperm.mem_iff.mpr (List.mem_cons_self _ _)
        have hIeq : I = s.best.2 := hwf.aliasOK (iid, I) hmem (by simpa using hA)
        have hIb : (heurBound ops d I).isSome = true := by
          rw [hIeq]
          exact hb
        simp only [hA, if_true, Bool.or_true] at hpr hbt hpr2 ⊢
        have hI1b : (heurBound ops d I1).isSome = true := by
          rw [isPromisingSelf_pres_heur ops d hc I p1 I1 hpr]
          exact hIb
        obtain ⟨hI2eq, -⟩ := isBetterThenSelf_noCalc ops d I1 hc hI1b bt I2 hbt
        have hI2b : (heurBound ops d I2).isSome = true := by
          rw [hI2eq]
          exact hI1b
        rw [isPromisingSelf_pres_heur ops d hc I2 p2 I3 hpr2]
        exact hI2b
      · have hA2 : (iid == s.best.1) = false := Bool.eq_false_iff.mpr hA
        simp only [hA2, Bool.false_eq_true, if_false, Bool.or_false] at hpr hbt hpr2 ⊢
        cases bt with
        | false =>
          simp only [Bool.false_eq_true, if_false]
          exact hb
        | true =>
          simp only [if_true] at hpr2 ⊢
          have hI2b : (heurBound ops d I2).isSome = true := by
            obtain ⟨-, u, v, hu, -, -⟩ :=
              isBetterThen_ok ops d I1 s.best.2 true I2 (hc.dir I1) hbt
            rw [hu]
            rfl
          rw [isPromisingSelf_pres_heur ops d hc I2 p2 I3 hpr2]
          exact hI2b

/-- The whole solve loop never fails with the bound-read `TypeError`. -/
theorem solveLoop_err (ops : BBOps α σ) (d : Bool) (hc : EngineContract ops d)
    (hbranch : ∀ a e2, ops.branch a = Except.error e2 → e2 ≠ Err.typeError)
    (maxb : ℤ) :
    ∀ (fuel : ℕ) (s : BBState α), StateWF s → frontKeys ops d s.frontier →
      (heurBound ops d s.best.2).isSome = true →
      ∀ e, solveLoop ops maxb fuel s = Except.error e → e ≠ Err.typeError
  | 0, s, hwf, hkeys, hb, e, h => by
    rw [solveLoop] at h
    by_cases hg : loopGuard maxb s = true
    · rw [if_pos hg] at h
      injection h with h6
      subst h6
      decide
    · rw [if_neg hg] at h
      cases h
  | Nat.succ f, s, hwf, hkeys, hb, e, h => by
    rw [solveLoop] at h
    by_cases hg : loopGuard maxb s = true
    · rw [if_pos hg] at h
      cases hstep : solveStep ops s with
      | error e2 =>
        rw [hstep] at h
        injection h with h6
        subst h6
        exact solveStep_err ops d hc hbranch s hwf hkeys hb e2 hstep
      | ok s' =>
        rw [hstep] at h
        obtain ⟨hwf', hb', -, -⟩ := solveStep_mono ops d hc s s' hwf hb hstep
        exact solveLoop_err ops d hc hbranch maxb f s' hwf'
          (solveStep_keys ops d hc s s' hwf hkeys hb hstep) hb' e h
    · rw [if_neg hg] at h
      cases h

/-- Seeding the frontier can only fail with the `sys.exit` of an unknown
strategy, never the bound-read `TypeError`. -/
theorem mkInstanceSet_err (ops : BBOps α σ) (inst : ℕ × α) (strategy : String)
    (e : Err) (h : mkInstanceSet ops inst strategy = Except.error e) :
    e ≠ Err.typeError := by
  rw [mkInstanceSet] at h
  split at h
  · have hp : heappush ops []
        (inst.1,
         if ops.isMax inst.2 then
           if ops.isUpperBoundSet inst.2 then inst.2 else ops.calcUpperBound inst.2
         else
           if ops.isLowerBoundSet inst.2 then inst.2 else ops.calcLowerBound inst.2) =
        Except.ok [(inst.1,
         if ops.isMax inst.2 then
           if ops.isUpperBoundSet inst.2 then inst.2 else ops.calcUpperBound inst.2
         else
           if ops.isLowerBoundSet inst.2 then inst.2 else ops.calcLowerBound inst.2)] := rfl
    rw [hp] at h
    cases h
  · split at h
    · cases h
    · split at h
      · cases h
      · injection h with h6
        subst h6
        decide

/-- The frontier a successful `mkInstanceSet` returns is comparison-safe:
for `best_first` the stored root's ordering bound was just ensured. -/
theorem mkInstanceSet_keys (ops : BBOps α σ) (d : Bool)
    (hc : EngineContract ops d) (inst : ℕ × α) (strategy : String)
    (iset : InstanceSet α) (a : α)
    (h : mkInstanceSet ops inst strategy = Except.ok (iset, a)) :
    frontKeys ops d iset := by
  rw [mkInstanceSet] at h
  split at h
  · have hp : heappush ops []
        (inst.1,
         if ops.isMax inst.2 then
           if ops.isUpperBoundSet inst.2 then inst.2 else ops.calcUpperBound inst.2
         else
           if ops.isLowerBoundSet inst.2 then inst.2 else ops.calcLowerBound inst.2) =
        Except.ok [(inst.1,
         if ops.isMax inst.2 then
           if ops.isUpperBoundSet inst.2 then inst.2 else ops.calcUpperBound inst.2
         else
           if ops.isLowerBoundSet inst.2 then inst.2 else ops.calcLowerBound inst.2)] := rfl
    rw [hp] at h
    cases h
    intro hbf x hx
    simp only [InstanceSet.contents] at hx
    rw [List.mem_singleton] at hx
    subst hx
    rw [hc.dir inst.2]
    cases d with
    | true =>
      obtain ⟨u, hu⟩ := ub_after_calc ops true hc inst.2
      simp [dirBound, hu]
    | false =>
      obtain ⟨u, hu⟩ := lb_after_calc ops false hc inst.2
      simp [dirBound, hu]
  · split at h
    · cases h
      intro hbf
      simp [InstanceSet.isBestFirst] at hbf
    · split at h
      · cases h
        intro hbf
        simp [InstanceSet.isBestFirst] at hbf
      · cases h

/-- C9 (confirmed): in every run of `solve` in which
`generateInitialSolution` sets the root's heuristic-side bound (lower for
maximization, upper for minimization), every incumbent bound read the
engine performs — in the promise tests and comparisons during the loop,
and in `getHeuristicSolutionValue` at return — happens with that bound
set: the run never ends in the unset-bound `TypeError`, and a successful
run's returned value is an actual number, not the unset sentinel.  (The
collaborator's `branch` is assumed not to raise a `TypeError` of its own,
which is about its code, not the engine's bound reads.) -/
theorem bound_read_safety (ops : BBOps α σ) (d : Bool) (hc : EngineContract ops d)
    (hbranch : ∀ a e2, ops.branch a = Except.error e2 → e2 ≠ Err.typeError)
    (root : α) (strategy : String) (maxb : ℤ) (fuel : ℕ)
    (hgen : (heurBound ops d (ops.genInitialSolution root)).isSome = true) :
    (∀ e, solveFuel ops root strategy maxb fuel = Except.error e →
      e ≠ Err.typeError) ∧
    (∀ r, solveFuel ops root strategy maxb fuel = Except.ok r →
      r.2.1.isSome = true) := by
  cases hmk : mkInstanceSet ops (0, ops.genInitialSolution root) strategy with
  | error e2 =>
    constructor
    · intro e h
      rw [solveFuel] at h
      simp only [hmk] at h
      injection h with h6
      subst h6
      exact mkInstanceSet_err ops _ strategy e2 hmk
    · intro r h
      rw [solveFuel] at h
      simp only [hmk] at h
      cases h
  | ok rr =>
    obtain ⟨iset, root2⟩ := rr
    have hcontents := mkInstanceSet_ok_contents ops _ strategy iset root2 hmk
    have hheur := mkInstanceSet_heur ops d hc _ strategy iset root2 hmk
    have hb0 : (heurBound ops d root2).isSome = true := by
      rw [hheur]
      exact hgen
    have hkeys0 : frontKeys ops d iset :=
      mkInstanceSet_keys ops d hc _ strategy iset root2 hmk
    have hwf0 : StateWF (BBState.mk iset (0, root2) 0 0 1) := by
      refine ⟨?_, ?_, ?_, ?_⟩
      · rw [hcontents]
        simp
      · intro x hx
        rw [hcontents] at hx
        simp at hx
        simp [hx]
      · simp
      · intro x hx
        rw [hcontents] at hx
        simp at hx
        simp [hx]
    constructor
    · intro e h
      rw [solveFuel] at h
      simp only [hmk] at h
      cases hl : solveLoop ops maxb fuel (BBState.mk iset (0, root2) 0 0 1) with
      | error e2 =>
        simp only [hl] at h
        injection h with h6
        subst h6
        exact solveLoop_err ops d hc hbranch maxb fuel _ hwf0 hkeys0 hb0 e2 hl
      | ok sF =>
        simp only [hl] at h
        cases h
    · intro r h
      rw [solveFuel] at h
      simp only [hmk] at h
      cases hl : solveLoop ops maxb fuel (BBState.mk iset (0, root2) 0 0 1) with
      | error e2 =>
        simp only [hl] at h
        cases h
      | ok sF =>
        simp only [hl] at h
        obtain ⟨-, hbF, -⟩ :=
          solveLoop_mono ops d hc maxb fuel _ sF hwf0 hb0 hl
        cases h
        rw [heurValue_eq ops d hc]
        exact hbF

theorem bound_read_safety_witness :
    (∀ e, solveFuel knapsackOps kSmall "best_first" (-1) 3 = Except.error e →
      e ≠ Err.typeError) ∧
    (∀ r, solveFuel knapsackOps kSmall "best_first" (-1) 3 = Except.ok r →
      r.2.1.isSome = true) :=
  bound_read_safety knapsackOps true
    ⟨fun _ => rfl, fun _ => rfl, fun _ => rfl, fun _ => rfl, fun _ => rfl,
     fun _ => rfl, fun _ => rfl⟩
    (fun a e2 h => by
      have h2 : Knapsack.branch a = Except.error e2 := h
      rw [Knapsack.branch] at h2
      split at h2
      · injection h2 with h6
        subst h6
        decide
      · cases h2)
    kSmall "best_first" (-1) 3 (by with_unfolding_all decide)

/-- Direction-generic antisymmetry. -/
theorem dle_antisymm (d : Bool) (x y : ℚ) (h1 : dle d x y) (h2 : dle d y x) :
    x = y := by
  cases d with
  | true =>
    simp only [dle, if_pos rfl] at h1 h2
    exact le_antisymm h1 h2
  | false =>
    simp only [dle] at h1 h2
    rw [if_neg (by simp)] at h1 h2
    exact le_antisymm h2 h1

/-- The promise test's conditional bound computation does not change
which subproblem a node represents. -/
theorem dirCalc_T (ops : BBOps α σ) (d : Bool) (T : α → ℚ)
    (hcalc : calcPreservesT ops T) (self : α) :
    T (if d then (if ops.isUpperBoundSet self then self else ops.calcUpperBound self)
       else (if ops.isLowerBoundSet self then self else ops.calcLowerBound self))
      = T self := by
  cases d with
  | true =>
    rw [if_pos rfl]
    by_cases hset : ops.isUpperBoundSet self = true
    · rw [if_pos hset]
    · rw [if_neg hset, (hcalc self).1]
  | false =>
    rw [if_neg (by simp)]
    by_cases hset : ops.isLowerBoundSet self = true
    · rw [if_pos hset]
    · rw [if_neg hset, (hcalc self).2]

/-- The better-than test's conditional bound computation does not change
which subproblem a node represents. -/
theorem heurCalc_T (ops : BBOps α σ) (d : Bool) (T : α → ℚ)
    (hcalc : calcPreservesT ops T) (self : α) :
    T (if d then (if ops.isLowerBoundSet self then self else ops.calcLowerBound self)
       else (if ops.isUpperBoundSet self then self else ops.calcUpperBound self))
      = T self := by
  cases d with
  | true =>
    rw [if_pos rfl]
    by_cases hset : ops.isLowerBoundSet self = true
    · rw [if_pos hset]
    · rw [if_neg hset, (hcalc self).2]
  | false =>
    rw [if_neg (by simp)]
    by_cases hset : ops.isUpperBoundSet self = true
    · rw [if_pos hset]
    · rw [if_neg hset, (hcalc self).1]

/-- A failed promise test bounds the subject's subtree optimum by the
incumbent's achieved value. -/
theorem prune_bound (ops : BBOps α σ) (d : Bool) (hc : EngineContract ops d)
    (T : α → ℚ) (hcalc : calcPreservesT ops T)
    (hsb : ∀ a, soundDirBound ops d T a) (self current : α) (s' : α)
    (h : isPromising ops self current = Except.ok (false, s')) :
    ∀ v, heurBound ops d current = some v → dle d (T self) v := by
  intro v2 hv2
  obtain ⟨hs, u, v, hu, hv, hb⟩ :=
    isPromising_ok ops d self current false s' (hc.dir self) h
  rw [hv] at hv2
  have he : v = v2 := by injection hv2
  subst he
  have hnotlt : ¬ (if d then v < u else u < v) := by
    intro hcon
    exact Bool.false_ne_true (hb.mpr hcon)
  have huv : dle d u v := by
    cases d with
    | true =>
      simp only [dle, if_pos rfl]
      rw [if_pos rfl] at hnotlt
      exact le_of_not_lt hnotlt
    | false =>
      simp only [dle]
      rw [if_neg (by simp)] at hnotlt ⊢
      exact le_of_not_lt hnotlt
  have hTs : dle d (T self) u := by
    have h1 := hsb s' u hu
    rw [hs, dirCalc_T ops d T hcalc self] at h1
    exact h1
  exact dle_trans d hTs huv

/-- The child-pushing loop keeps every old frontier entry and, for each
child that still dominates the optimum, either the incumbent already
reaches the optimum (the child was pruned against it) or the pushed child
keeps dominating it from inside the new frontier. -/
theorem pushChildren_cover (ops : BBOps α σ) (d : Bool)
    (hc : EngineContract ops d) (T : α → ℚ) (hcalc : calcPreservesT ops T)
    (hsb : ∀ a, soundDirBound ops d T a) (best : α) (opt : ℚ) :
    ∀ (cs : List α) (fr : InstanceSet α) (nid : ℕ) (fr' : InstanceSet α)
      (nid' : ℕ), pushChildren ops best cs fr nid = Except.ok (fr', nid') →
      (∀ x ∈ fr.contents, x ∈ fr'.contents) ∧
      (∀ c ∈ cs, dle d opt (T c) →
        (∃ vb, heurBound ops d best = some vb ∧ dle d opt vb) ∨
        ∃ x ∈ fr'.contents, dle d opt (T x.2))
  | [], fr, nid, fr', nid', h => by
    rw [pushChildren] at h
    cases h
    exact ⟨fun x hx => hx, fun c hc3 => (List.not_mem_nil c hc3).elim⟩
  | c :: rest, fr, nid, fr', nid', h => by
    cases hpr : isPromising ops c best with
    | error e2 =>
      rw [pushChildren] at h
      simp only [hpr] at h
      cases h
    | ok r =>
      obtain ⟨p, c2⟩ := r
      have hTc2 : T c2 = T c := by
        obtain ⟨hs, -⟩ := isPromising_ok ops d c best p c2 (hc.dir c) hpr
        rw [hs]
        exact dirCalc_T ops d T hcalc c
      cases p with
      | false =>
        have heq : pushChildren ops best (c :: rest) fr nid
            = pushChildren ops best rest fr nid := by
          rw [pushChildren]
          simp only [hpr]
        rw [heq] at h
        obtain ⟨hsur, hcov⟩ :=
          pushChildren_cover ops d hc T hcalc hsb best opt rest fr nid fr' nid' h
        refine ⟨hsur, ?_⟩
        intro c3 hc3 hdle
        rcases List.mem_cons.mp hc3 with heq3 | hc3'
        · subst heq3
          obtain ⟨-, u, v, hu, hv, -⟩ :=
            isPromising_ok ops d c3 best false c2 (hc.dir c3) hpr
          exact Or.inl ⟨v, hv,
            dle_trans d hdle (prune_bound ops d hc T hcalc hsb c3 best c2 hpr v hv)⟩
        · exact hcov c3 hc3' hdle
      | true =>
        cases hadd : fr.addInstance ops (nid, c2) with
        | error e2 =>
          rw [pushChildren] at h
          simp only [hpr, hadd] at h
          cases h
        | ok fr2 =>
          have heq : pushChildren ops best (c :: rest) fr nid
              = pushChildren ops best rest fr2 (nid + 1) := by
            rw [pushChildren]
            simp only [hpr, hadd]
          rw [heq] at h
          obtain ⟨hsur, hcov⟩ :=
            pushChildren_cover ops d hc T hcalc hsb best opt rest fr2 (nid + 1)
              fr' nid' h
          have haddperm := addInstance_perm ops fr fr2 (nid, c2) hadd
          refine ⟨?_, ?_⟩
          · intro x hx
            exact hsur x (haddperm.mem_iff.mpr (List.mem_cons_of_mem _ hx))
          · intro c3 hc3 hdle
            rcases List.mem_cons.mp hc3 with heq3 | hc3'
            · subst heq3
              refine Or.inr ⟨(nid, c2),
                hsur _ (haddperm.mem_iff.mpr (List.mem_cons_self _ _)), ?_⟩
              show dle d opt (T c2)
              rw [hTc2]
              exact hdle
            · exact hcov c3 hc3' hdle

/-- A failed aliased promise test bounds the subject's subtree optimum by
its own achieved value. -/
theorem pruneSelf_bound (ops : BBOps α σ) (d : Bool) (hc : EngineContract ops d)
    (T : α → ℚ) (hcalc : calcPreservesT ops T)
    (hsb : ∀ a, soundDirBound ops d T a) (self s' : α)
    (h : isPromisingSelf ops self = Except.ok (false, s')) :
    ∀ v, heurBound ops d s' = some v → dle d (T self) v := by
  intro v2 hv2
  obtain ⟨hs, u, v, hu, hv, hb⟩ :=
    isPromisingSelf_ok ops d self false s' (hc.dir self) h
  rw [hv] at hv2
  have he : v = v2 := by injection hv2
  subst he
  have hnotlt : ¬ (if d then v < u else u < v) := by
    intro hcon
    exact Bool.false_ne_true (hb.mpr hcon)
  have huv : dle d u v := by
    cases d with
    | true =>
      simp only [dle, if_pos rfl]
      rw [if_pos rfl] at hnotlt
      exact le_of_not_lt hnotlt
    | false =>
      simp only [dle]
      rw [if_neg (by simp)] at hnotlt ⊢
      exact le_of_not_lt hnotlt
  have hTs : dle d (T self) u := by
    have h1 := hsb s' u hu
    rw [hs, dirCalc_T ops d T hcalc self] at h1
    exact h1
  exact dle_trans d hTs huv

/-- A `false` answer of `isBetterThen` really means "not strictly
better". -/
theorem notBetter_bound (ops : BBOps α σ) (d : Bool) (hc : EngineContract ops d)
    (a b a' : α) (h : isBetterThen ops a b = Except.ok (false, a'))
    (u v : ℚ) (hu : heurBound ops d a' = some u)
    (hv : heurBound ops d b = some v) : dle d u v := by
  obtain ⟨-, u2, v2, hu2, hv2, hb⟩ :=
    isBetterThen_ok ops d a b false a' (hc.dir a) h
  rw [hu] at hu2
  rw [hv] at hv2
  have he1 : u = u2 := by injection hu2
  have he2 : v = v2 := by injection hv2
  subst he1
  subst he2
  have hnotlt : ¬ (if d then v < u else u < v) := by
    intro hcon
    exact Bool.false_ne_true (hb.mpr hcon)
  cases d with
  | true =>
    simp only [dle, if_pos rfl]
    rw [if_pos rfl] at hnotlt
    exact le_of_not_lt hnotlt
  | false =>
    simp only [dle]
    rw [if_neg (by simp)] at hnotlt ⊢
    exact le_of_not_lt hnotlt

/-- The promise test does not change which subproblem a node represents. -/
theorem isPromising_T (ops : BBOps α σ) (d : Bool) (hc : EngineContract ops d)
    (T : α → ℚ) (hcalc : calcPreservesT ops T) (a b : α) (p : Bool) (a' : α)
    (h : isPromising ops a b = Except.ok (p, a')) : T a' = T a := by
  obtain ⟨hs, -⟩ := isPromising_ok ops d a b p a' (hc.dir a) h
  rw [hs]
  exact dirCalc_T ops d T hcalc a

/-- The aliased promise test does not change which subproblem a node
represents. -/
theorem isPromisingSelf_T (ops : BBOps α σ) (d : Bool) (hc : EngineContract ops d)
    (T : α → ℚ) (hcalc : calcPreservesT ops T) (a : α) (p : Bool) (a' : α)
    (h : isPromisingSelf ops a = Except.ok (p, a')) : T a' = T a := by
  obtain ⟨hs, -⟩ := isPromisingSelf_ok ops d a p a' (hc.dir a) h
  rw [hs]
  exact dirCalc_T ops d T hcalc a

/-- The better-than test does not change which subproblem a node
represents. -/
theorem isBetterThen_T (ops : BBOps α σ) (d : Bool) (hc : EngineContract ops d)
    (T : α → ℚ) (hcalc : calcPreservesT ops T) (a b : α) (p : Bool) (a' : α)
    (h : isBetterThen ops a b = Except.ok (p, a')) : T a' = T a := by
  obtain ⟨hs, -⟩ := isBetterThen_ok ops d a b p a' (hc.dir a) h
  rw [hs]
  exact heurCalc_T ops d T hcalc a

/-- One successful engine iteration preserves the optimality coverage
invariant: pruning only discards nodes whose subtree optimum the incumbent
already matches, and branching hands coverage from the parent to its own
achieved value or to a pushed child. -/
theorem solveStep_cover (ops : BBOps α σ) (d : Bool) (hc : EngineContract ops d)
    (T : α → ℚ) (opt : ℚ) (hcalc : calcPreservesT ops T)
    (hsb : ∀ a, soundDirBound ops d T a)
    (hbc : ∀ a, branchCover ops d T a)
    (s s' : BBState α) (hwf : StateWF s)
    (hcov : optCovered ops d T opt s)
    (h : solveStep ops s = Except.ok s') :
    optCovered ops d T opt s' := by
  obtain ⟨vb, hvb, hdisj⟩ := hcov
  have hbsome : (heurBound ops d s.best.2).isSome = true := by
    rw [hvb]
    rfl
  obtain ⟨-, -, -, hmono⟩ := solveStep_mono ops d hc s s' hwf hbsome h
  obtain ⟨vb', hvb', hvble⟩ := hmono vb hvb
  obtain ⟨iid, I, fr1, p1, I1, hpop, hpr, hrest⟩ := solveStep_cases ops s s' h
  cases hdisj with
  | inl hOv => exact ⟨vb', hvb', Or.inl (dle_trans d hOv hvble)⟩
  | inr hex =>
    obtain ⟨x, hxmem, hOx⟩ := hex
    have hperm := getNextInstance_perm ops s.frontier fr1 (iid, I) hpop
    have hx2 : x ∈ (iid, I) :: fr1.contents := hperm.mem_iff.mp hxmem
    cases hx2 with
    | tail _ hxtail =>
      refine ⟨vb', hvb', Or.inr ?_⟩
      rcases hrest with ⟨-, hs'⟩ | ⟨-, bt, I2, p2, I3, hbt, hpr2, hrest2⟩
      · subst hs'
        exact ⟨x, hxtail, hOx⟩
      · rcases hrest2 with ⟨-, hs'⟩ | ⟨-, subs, fr2, nid, hbr, hpush, hs'⟩
        · subst hs'
          exact ⟨x, hxtail, hOx⟩
        · subst hs'
          obtain ⟨hsur, -⟩ := pushChildren_cover ops d hc T hcalc hsb _ opt subs
            fr1 s.nextId fr2 nid hpush
          exact ⟨x, hsur x hxtail, hOx⟩
    | head =>
      have hOI : dle d opt (T I) := hOx
      rcases hrest with ⟨hp1, hs'⟩ | ⟨hp1, bt, I2, p2, I3, hbt, hpr2, hrest2⟩
      · -- pruned at the first promise test
        subst hp1
        subst hs'
        by_cases hA : (iid == s.best.1) = true
        · have hvbR := hvb'
          simp only [hA, if_true] at hpr hvbR
          have hIle : dle d (T I) vb' :=
            pruneSelf_bound ops d hc T hcalc hsb I I1 hpr vb' hvbR
          exact ⟨vb', hvb', Or.inl (dle_trans d hOI hIle)⟩
        · have hA2 : (iid == s.best.1) = false := Bool.eq_false_iff.mpr hA
          simp only [hA2, Bool.false_eq_true, if_false] at hpr
          have hIle : dle d (T I) vb :=
            prune_bound ops d hc T hcalc hsb I s.best.2 I1 hpr vb hvb
          exact ⟨vb', hvb', Or.inl (dle_trans d (dle_trans d hOI hIle) hvble)⟩
      · subst hp1
        rcases hrest2 with ⟨hp2, hs'⟩ | ⟨hp2, subs, fr2, nid, hbr, hpush, hs'⟩
        · -- pruned at the second promise test
          subst hp2
          subst hs'
          by_cases hA : (iid == s.best.1) = true
          · have hvbR := hvb'
            simp only [hA, if_true, Bool.or_true] at hpr hbt hpr2 hvbR
            have hperm2 := getNextInstance_perm ops s.frontier fr1 (iid, I) hpop
            have hmem : (iid, I) ∈ s.frontier.contents :=
              hperm2.mem_iff.mpr (List.mem_cons_self _ _)
            have hIeq : I = s.best.2 :=
              hwf.aliasOK (iid, I) hmem (by simpa using hA)
            have hIb : (heurBound ops d I).isSome = true := by
              rw [hIeq]
              exact hbsome
            have hI1b : (heurBound ops d I1).isSome = true := by
              rw [isPromisingSelf_pres_heur ops d hc I true I1 hpr]
              exact hIb
            obtain ⟨hI2eq, -⟩ :=
              isBetterThenSelf_noCalc ops d I1 hc hI1b bt I2 hbt
            have hT2 : T I2 = T I := by
              rw [hI2eq]
              exact isPromisingSelf_T ops d hc T hcalc I true I1 hpr
            have hIle : dle d (T I2) vb' :=
              pruneSelf_bound ops d hc T hcalc hsb I2 I3 hpr2 vb' hvbR
            rw [hT2] at hIle
            exact ⟨vb', hvb', Or.inl (dle_trans d hOI hIle)⟩
          · have hA2 : (iid == s.best.1) = false := Bool.eq_false_iff.mpr hA
            have hvbR := hvb'
            simp only [hA2, Bool.false_eq_true, if_false, Bool.or_false]
              at hpr hbt hpr2 hvbR
            have hT1 : T I1 = T I :=
              isPromising_T ops d hc T hcalc I s.best.2 true I1 hpr
            have hT2 : T I2 = T I1 :=
              isBetterThen_T ops d hc T hcalc I1 s.best.2 bt I2 hbt
            cases bt with
            | false =>
              simp only [Bool.false_eq_true, if_false] at hpr2 hvbR
              have hIle : dle d (T I2) vb :=
                prune_bound ops d hc T hcalc hsb I2 s.best.2 I3 hpr2 vb hvb
              rw [hT2, hT1] at hIle
              exact ⟨vb', hvb', Or.inl (dle_trans d (dle_trans d hOI hIle) hvble)⟩
            | true =>
              simp only [if_true] at hpr2 hvbR
              have hIle : dle d (T I2) vb' :=
                pruneSelf_bound ops d hc T hcalc hsb I2 I3 hpr2 vb' hvbR
              rw [hT2, hT1] at hIle
              exact ⟨vb', hvb', Or.inl (dle_trans d hOI hIle)⟩
        · -- branched
          subst hp2
          subst hs'
          by_cases hA : (iid == s.best.1) = true
          · have hvbR := hvb'
            simp only [hA, if_true, Bool.or_true] at hpr hbt hpr2 hpush hvbR
            have hperm2 := getNextInstance_perm ops s.frontier fr1 (iid, I) hpop
            have hmem : (iid, I) ∈ s.frontier.contents :=
              hperm2.mem_iff.mpr (List.mem_cons_self _ _)
            have hIeq : I = s.best.2 :=
              hwf.aliasOK (iid, I) hmem (by simpa using hA)
            have hI1heur : heurBound ops d I1 = heurBound ops d s.best.2 := by
              rw [isPromisingSelf_pres_heur ops d hc I true I1 hpr, hIeq]
            have hI1b : (heurBound ops d I1).isSome = true := by
              rw [hI1heur]
              exact hbsome
            obtain ⟨hI2eq, -⟩ :=
              isBetterThenSelf_noCalc ops d I1 hc hI1b bt I2 hbt
            have hT3 : T I3 = T I := by
              rw [isPromisingSelf_T ops d hc T hcalc I2 true I3 hpr2, hI2eq]
              exact isPromisingSelf_T ops d hc T hcalc I true I1 hpr
            have hheur3 : heurBound ops d I3 = some vb := by
              rw [isPromisingSelf_pres_heur ops d hc I2 true I3 hpr2, hI2eq,
                hI1heur]
              exact hvb
            have hvbeq : vb = vb' := by
              rw [hheur3] at hvbR
              injection hvbR
            cases hbc I3 vb subs hheur3 hbr with
            | inl hcase =>
              rw [hT3] at hcase
              rw [hvbeq] at hcase
              exact ⟨vb', hvb', Or.inl (dle_trans d hOI hcase)⟩
            | inr hcase =>
              obtain ⟨c, hcm, hTc⟩ := hcase
              rw [hT3] at hTc
              have hOc : dle d opt (T c) := dle_trans d hOI hTc
              cases (pushChildren_cover ops d hc T hcalc hsb I3 opt subs fr1
                  s.nextId fr2 nid hpush).2 c hcm hOc with
              | inl hcase2 =>
                obtain ⟨v2, hv2eq, hv2ge⟩ := hcase2
                have hv2eq' : v2 = vb' := by
                  rw [hheur3, hvbeq] at hv2eq
                  injection hv2eq with h9
                  exact h9.symm
                rw [hv2eq'] at hv2ge
                exact ⟨vb', hvb', Or.inl hv2ge⟩
              | inr hcase2 =>
                exact ⟨vb', hvb', Or.inr hcase2⟩
          · have hA2 : (iid == s.best.1) = false := Bool.eq_false_iff.mpr hA
            have hvbR := hvb'
            simp only [hA2, Bool.false_eq_true, if_false, Bool.or_false]
              at hpr hbt hpr2 hpush hvbR
            have hT1 : T I1 = T I :=
              isPromising_T ops d hc T hcalc I s.best.2 true I1 hpr
            have hT2 : T I2 = T I1 :=
              isBetterThen_T ops d hc T hcalc I1 s.best.2 bt I2 hbt
            obtain ⟨-, u, v, hu, hv, -⟩ :=
              isBetterThen_ok ops d I1 s.best.2 bt I2 (hc.dir I1) hbt
            cases bt with
            | false =>
              simp only [Bool.false_eq_true, if_false] at hpr2 hpush hvbR
              have hT3 : T I3 = T I := by
                rw [isPromising_T ops d hc T hcalc I2 s.best.2 true I3 hpr2,
                  hT2, hT1]
              have hheur3 : heurBound ops d I3 = some u := by
                rw [isPromising_pres_heur ops d hc I2 s.best.2 true I3 hpr2]
                exact hu
              have hvmatch : v = vb := by
                rw [hvb] at hv
                injection hv with h9
                exact h9.symm
              have huvb : dle d u vb := by
                rw [← hvmatch]
                exact notBetter_bound ops d hc I1 s.best.2 I2 hbt u v hu hv
              have hvbeq : vb = vb' := by
                rw [hvb] at hvbR
                injection hvbR
              cases hbc I3 u subs hheur3 hbr with
              | inl hcase =>
                rw [hT3] at hcase
                refine ⟨vb', hvb', Or.inl ?_⟩
                rw [← hvbeq]
                exact dle_trans d (dle_trans d hOI hcase) huvb
              | inr hcase =>
                obtain ⟨c, hcm, hTc⟩ := hcase
                rw [hT3] at hTc
                have hOc : dle d opt (T c) := dle_trans d hOI hTc
                cases (pushChildren_cover ops d hc T hcalc hsb s.best.2 opt subs
                    fr1 s.nextId fr2 nid hpush).2 c hcm hOc with
                | inl hcase2 =>
                  obtain ⟨v2, hv2eq, hv2ge⟩ := hcase2
                  have hv2eq' : v2 = vb' := by
                    rw [hvb] at hv2eq
                    injection hv2eq with h9
                    rw [← h9]
                    exact hvbeq
                  rw [hv2eq'] at hv2ge
                  exact ⟨vb', hvb', Or.inl hv2ge⟩
                | inr hcase2 =>
                  exact ⟨vb', hvb', Or.inr hcase2⟩
            | true =>
              simp only [if_true] at hpr2 hpush hvbR
              have hT3 : T I3 = T I := by
                rw [isPromisingSelf_T ops d hc T hcalc I2 true I3 hpr2, hT2, hT1]
              have hheur3 : heurBound ops d I3 = some u := by
                rw [isPromisingSelf_pres_heur ops d hc I2 true I3 hpr2]
                exact hu
              have hueq : u = vb' := by
                rw [hheur3] at hvbR
                injection hvbR
              cases hbc I3 u subs hheur3 hbr with
              | inl hcase =>
                rw [hT3] at hcase
                rw [hueq] at hcase
                exact ⟨vb', hvb', Or.inl (dle_trans d hOI hcase)⟩
              | inr hcase =>
                obtain ⟨c, hcm, hTc⟩ := hcase
                rw [hT3] at hTc
                have hOc : dle d opt (T c) := dle_trans d hOI hTc
                cases (pushChildren_cover ops d hc T hcalc hsb I3 opt subs fr1
                    s.nextId fr2 nid hpush).2 c hcm hOc with
                | inl hcase2 =>
                  obtain ⟨v2, hv2eq, hv2ge⟩ := hcase2
                  have hv2eq' : v2 = vb' := by
                    rw [hheur3] at hv2eq
                    injection hv2eq with h9
                    rw [← h9]
                    exact hueq
                  rw [hv2eq'] at hv2ge
                  exact ⟨vb', hvb', Or.inl hv2ge⟩
                | inr hcase2 =>
                  exact ⟨vb', hvb', Or.inr hcase2⟩

/-- Seeding the frontier does not change which subproblem the root
represents. -/
theorem mkInstanceSet_T (ops : BBOps α σ) (d : Bool) (hc : EngineContract ops d)
    (T : α → ℚ) (hcalc : calcPreservesT ops T) (inst : ℕ × α)
    (strategy : String) (iset : InstanceSet α) (a : α)
    (h : mkInstanceSet ops inst strategy = Except.ok (iset, a)) :
    T a = T inst.2 := by
  rw [mkInstanceSet] at h
  split at h
  · have hp : heappush ops []
        (inst.1,
         if ops.isMax inst.2 then
           if ops.isUpperBoundSet inst.2 then inst.2 else ops.calcUpperBound inst.2
         else
           if ops.isLowerBoundSet inst.2 then inst.2 else ops.calcLowerBound inst.2) =
        Except.ok [(inst.1,
         if ops.isMax inst.2 then
           if ops.isUpperBoundSet inst.2 then inst.2 else ops.calcUpperBound inst.2
         else
           if ops.isLowerBoundSet inst.2 then inst.2 else ops.calcLowerBound inst.2)] := rfl
    rw [hp] at h
    cases h
    rw [hc.dir inst.2]
    exact dirCalc_T ops d T hcalc inst.2
  · split at h
    · cases h
      rfl
    · split at h
      · cases h
        rfl
      · cases h

/-- An unbudgeted solve loop that exits normally can only have exhausted
the frontier, at which point the coverage invariant and heuristic-bound
soundness pin the incumbent's value to the optimum. -/
theorem solveLoop_opt (ops : BBOps α σ) (d : Bool) (hc : EngineContract ops d)
    (T : α → ℚ) (opt : ℚ) (hcalc : calcPreservesT ops T)
    (hsb : ∀ a, soundDirBound ops d T a)
    (hsh : ∀ a, soundHeurBound ops d opt a)
    (hbc : ∀ a, branchCover ops d T a) :
    ∀ (fuel : ℕ) (s sF : BBState α), StateWF s →
      optCovered ops d T opt s →
      solveLoop ops (-1) fuel s = Except.ok sF →
      heurBound ops d sF.best.2 = some opt
  | 0, s, sF, hwf, hcov, h => by
    rw [solveLoop] at h
    by_cases hg : loopGuard (-1) s = true
    · rw [if_pos hg] at h
      cases h
    · rw [if_neg hg] at h
      cases h
      obtain ⟨vb, hvb, hdisj⟩ := hcov
      have hemp : s.frontier.contents = [] := by
        rw [loopGuard_neg_one] at hg
        have hie : s.frontier.isEmpty = true := by
          cases he : s.frontier.isEmpty with
          | true => rfl
          | false => exact absurd (by rw [he]; rfl) hg
        rw [isEmpty_contents] at hie
        exact List.isEmpty_iff.mp hie
      cases hdisj with
      | inr hex =>
        obtain ⟨x, hxm, -⟩ := hex
        rw [hemp] at hxm
        cases hxm
      | inl hOv =>
        have hle := hsh s.best.2 vb hvb
        rw [hvb, ← dle_antisymm d opt vb hOv hle]
  | Nat.succ f, s, sF, hwf, hcov, h => by
    rw [solveLoop] at h
    by_cases hg : loopGuard (-1) s = true
    · rw [if_pos hg] at h
      cases hstep : solveStep ops s with
      | error e => rw [hstep] at h; cases h
      | ok s' =>
        rw [hstep] at h
        have hbsome : (heurBound ops d s.best.2).isSome = true := by
          obtain ⟨vb, hvb, -⟩ := hcov
          rw [hvb]
          rfl
        obtain ⟨hwf', -, -, -⟩ := solveStep_mono ops d hc s s' hwf hbsome hstep
        exact solveLoop_opt ops d hc T opt hcalc hsb hsh hbc f s' sF hwf'
          (solveStep_cover ops d hc T opt hcalc hsb hbc s s' hwf hcov hstep) h
    · rw [if_neg hg] at h
      cases h
      obtain ⟨vb, hvb, hdisj⟩ := hcov
      have hemp : s.frontier.contents = [] := by
        rw [loopGuard_neg_one] at hg
        have hie : s.frontier.isEmpty = true := by
          cases he : s.frontier.isEmpty with
          | true => rfl
          | false => exact absurd (by rw [he]; rfl) hg
        rw [isEmpty_contents] at hie
        exact List.isEmpty_iff.mp hie
      cases hdisj with
      | inr hex =>
        obtain ⟨x, hxm, -⟩ := hex
        rw [hemp] at hxm
        cases hxm
      | inl hOv =>
        have hle := hsh s.best.2 vb hvb
        rw [hvb, ← dle_antisymm d opt vb hOv hle]

/-- A full unbudgeted run returns exactly the optimum, whatever the
strategy. -/
theorem solveFuel_opt (ops : BBOps α σ) (d : Bool) (hc : EngineContract ops d)
    (T : α → ℚ) (root : α) (hcalc : calcPreservesT ops T)
    (hsb : ∀ a, soundDirBound ops d T a)
    (hsh : ∀ a, soundHeurBound ops d (T root) a)
    (hbc : ∀ a, branchCover ops d T a)
    (hgenT : T (ops.genInitialSolution root) = T root)
    (hgen : (heurBound ops d (ops.genInitialSolution root)).isSome = true)
    (strategy : String) (fuel : ℕ) (r : σ × Option ℚ × ℕ × ℕ)
    (h : solveFuel ops root strategy (-1) fuel = Except.ok r) :
    r.2.1 = some (T root) := by
  rw [solveFuel] at h
  cases hmk : mkInstanceSet ops (0, ops.genInitialSolution root) strategy with
  | error e =>
    simp only [hmk] at h
    cases h
  | ok rr =>
    obtain ⟨iset, root2⟩ := rr
    simp only [hmk] at h
    have hcontents := mkInstanceSet_ok_contents ops _ strategy iset root2 hmk
    have hheur := mkInstanceSet_heur ops d hc _ strategy iset root2 hmk
    have hb0 : (heurBound ops d root2).isSome = true := by
      rw [hheur]
      exact hgen
    have hwf0 : StateWF (BBState.mk iset (0, root2) 0 0 1) := by
      refine ⟨?_, ?_, ?_, ?_⟩
      · rw [hcontents]
        simp
      · intro x hx
        rw [hcontents] at hx
        simp at hx
        simp [hx]
      · simp
      · intro x hx
        rw [hcontents] at hx
        simp at hx
        simp [hx]
    have hTroot2 : T root2 = T root := by
      rw [mkInstanceSet_T ops d hc T hcalc _ strategy iset root2 hmk]
      exact hgenT
    have hcov0 : optCovered ops d T (T root) (BBState.mk iset (0, root2) 0 0 1) := by
      obtain ⟨v0, hv0⟩ := Option.isSome_iff_exists.mp hb0
      refine ⟨v0, hv0, Or.inr ⟨(0, root2), ?_, ?_⟩⟩
      · rw [hcontents]
        exact List.mem_singleton.mpr rfl
      · show dle d (T root) (T root2)
        rw [hTroot2]
        exact dle_refl d (T root)
    cases hl : solveLoop ops (-1) fuel (BBState.mk iset (0, root2) 0 0 1) with
    | error e =>
      simp only [hl] at h
      cases h
    | ok sF =>
      simp only [hl] at h
      have hopt := solveLoop_opt ops d hc T (T root) hcalc hsb hsh hbc fuel
        _ sF hwf0 hcov0 hl
      cases h
      show getHeuristicSolutionValue ops sF.best.2 = some (T root)
      rw [heurValue_eq ops d hc]
      exact hopt

/-- C8 (confirmed): for a problem instance whose bounds are sound (pruning
bounds dominate the subtree optimum, achieved bounds are feasible-solution
values, branching covers the parent's optimum, bound computations do not
change the represented subproblem) run to completion with no branch
budget, any two successful runs — in particular the three strategies
`best_first`, `depth_first` and `breath_first` — return the same value,
namely the optimum `T root`; branch and iteration counts are left
unconstrained. -/
theorem strategy_independent_optimum (ops : BBOps α σ) (d : Bool)
    (hc : EngineContract ops d) (T : α → ℚ) (root : α)
    (hcalc : calcPreservesT ops T)
    (hsb : ∀ a, soundDirBound ops d T a)
    (hsh : ∀ a, soundHeurBound ops d (T root) a)
    (hbc : ∀ a, branchCover ops d T a)
    (hgenT : T (ops.genInitialSolution root) = T root)
    (hgen : (heurBound ops d (ops.genInitialSolution root)).isSome = true)
    (strat1 strat2 : String) (fuel1 fuel2 : ℕ)
    (r1 r2 : σ × Option ℚ × ℕ × ℕ)
    (h1 : solveFuel ops root strat1 (-1) fuel1 = Except.ok r1)
    (h2 : solveFuel ops root strat2 (-1) fuel2 = Except.ok r2) :
    r1.2.1 = some (T root) ∧ r2.2.1 = some (T root) ∧ r1.2.1 = r2.2.1 := by
  have ho1 := solveFuel_opt ops d hc T root hcalc hsb hsh hbc hgenT hgen
    strat1 fuel1 r1 h1
  have ho2 := solveFuel_opt ops d hc T root hcalc hsb hsh hbc hgenT hgen
    strat2 fuel2 r2 h2
  exact ⟨ho1, ho2, ho1.trans ho2.symm⟩

theorem strategy_independent_optimum_witness :
    ((((), some 5, 1, 3) : Unit × Option ℚ × ℕ × ℕ)).2.1 = some (tT tRoot) ∧
    ((((), some 5, 1, 3) : Unit × Option ℚ × ℕ × ℕ)).2.1 = some (tT tRoot) ∧
    ((((), some 5, 1, 3) : Unit × Option ℚ × ℕ × ℕ)).2.1 =
      ((((), some 5, 1, 3) : Unit × Option ℚ × ℕ × ℕ)).2.1 :=
  strategy_independent_optimum testOps true
    ⟨fun _ => rfl, by with_unfolding_all decide, by with_unfolding_all decide,
     by with_unfolding_all decide, by with_unfolding_all decide,
     by with_unfolding_all decide, by with_unfolding_all decide⟩
    tT tRoot
    (by
      intro a
      obtain ⟨n, u, l⟩ := a
      cases n <;> exact ⟨rfl, rfl⟩)
    (by with_unfolding_all decide) (by with_unfolding_all decide)
    (by with_unfolding_all decide) (by with_unfolding_all decide)
    (by with_unfolding_all decide)
    "best_first" "depth_first" 4 4 _ _
    (by with_unfolding_all decide) (by with_unfolding_all decide)
